import Mathlib

/-!
# Chunked n-d tree (wavemap): embedding and verified properties

Shallow embedding of `wavemap/data_structure/chunked_ndtree/impl/chunked_ndtree_inl.h`.

* Template parameters `dim` and `chunk_height` are type parameters of the node and tree types.
* Heights are C++ `int`s and are modelled as `Int`; linear indices and Morton codes are
  unsigned and modelled as unbounded `Nat` (no 64-bit wrap-around is modelled).
* A `NodeType*` is modelled as the list of child slots followed from the root chunk
  (`ChunkPath`); `nullptr` is `none`.
* The loops of the source run on fuel; an exhausted fuel (or a dereferenced null handle)
  is the outer `none` of a result.
-/

namespace wavemap

/-- Unsigned chunk-local index (`LinearIndex` in the source). -/
abbrev LinearIndex := Nat

/-- Unsigned bit-interleaved code (`MortonCode` in the source). -/
abbrev MortonCode := Nat

/-- A chunk pointer: the child slots followed from the root chunk down to the chunk. -/
abbrev ChunkPath := List LinearIndex

/-- The pair `{chunk pointer, relative_index}` returned by address resolution. -/
abbrev Slot := ChunkPath × LinearIndex

/-- Tree address `{height, position}` (`NdtreeIndex<dim>` in the source). -/
structure NdtreeIndex (dim : Nat) where
  height : Int
  position : List Nat
deriving DecidableEq

/-- Validity of an index for a tree of height `max_height` (spec §3): the height lies in
`[0, max_height]`, there is one coordinate per axis, and every coordinate lies within the
extent representable at that height. -/
def NdtreeIndex.valid {dim : Nat} (max_height : Int) (i : NdtreeIndex dim) : Prop :=
  0 ≤ i.height ∧ i.height ≤ max_height ∧ i.position.length = dim ∧
    ∀ x ∈ i.position, x < 2 ^ (max_height - i.height).toNat

instance {dim : Nat} (max_height : Int) (i : NdtreeIndex dim) :
    Decidable (i.valid max_height) := by
  unfold NdtreeIndex.valid
  infer_instance

/-- Node `j` lies strictly below node `i` in the conceptual tree: it is lower and its position,
coarsened to the height of `i`, is the position of `i`. -/
def NdtreeIndex.isDescendantOf {dim : Nat} (j i : NdtreeIndex dim) : Prop :=
  j.height < i.height ∧ j.position.map (· / 2 ^ (i.height - j.height).toNat) = i.position

instance {dim : Nat} (j i : NdtreeIndex dim) : Decidable (j.isDescendantOf i) := by
  unfold NdtreeIndex.isDescendantOf
  infer_instance

/-! ## Index / Morton conversion (absent from the sources, modelled from the spec) -/

namespace convert

/-- Modelled from the spec: one level of bit interleaving, absent from src. The lowest bit of
every axis is packed into one digit, axis `d` at bit `d` (spec §3 "interleaving the bits of
each position-axis"). -/
def mortonDigit : List Nat → Nat
  | [] => 0
  | x :: xs => x % 2 + 2 * mortonDigit xs

/-- Modelled from the spec: bit interleaving of `levels` bits per axis, absent from src. -/
def interleave (dim : Nat) : Nat → List Nat → MortonCode
  | 0, _ => 0
  | levels + 1, position =>
    mortonDigit position + 2 ^ dim * interleave dim levels (position.map (· / 2))

/-- Modelled from the spec: `convert::indexToMorton`, absent from src; spec §4.1 `toMorton`.
All bits of every coordinate are interleaved (a coordinate never has more bits than
its value). -/
def indexToMorton (dim : Nat) (position : List Nat) : MortonCode :=
  interleave dim (position.foldr max 0) position

/-- Modelled from the spec: `convert::nodeIndexToMorton`, absent from src. Spec §2 maps a tree
address `{height, position}` to a bit-interleaved code and §3 requires the code to support
extracting the bit window of any `[child_height, parent_height)` span, so the interleaved
position of a node at height `h` starts at bit `dim * h`. -/
def nodeIndexToMorton {dim : Nat} (index : NdtreeIndex dim) : MortonCode :=
  indexToMorton dim index.position * 2 ^ (dim * index.height.toNat)

end convert

/-- Modelled from the spec: `NdtreeIndex<dim>::computeRelativeChildIndex`, absent from src;
spec §4.1 `childIndexInSpan`: the bits of the code between the two heights, a value in
`[0, 2^(dim * (parent_height - child_height)))`. -/
def NdtreeIndex.computeRelativeChildIndex (dim : Nat) (morton : MortonCode)
    (parent_height child_height : Int) : LinearIndex :=
  (morton / 2 ^ (dim * child_height.toNat)) % 2 ^ (dim * (parent_height - child_height).toNat)

/-! ## Chunk (absent from the sources, modelled from the spec §3 and §4.2) -/

/-- Modelled from the spec: the chunk class `ChunkedNdtreeNode`, absent from src. A chunk holds
its payload slots and an optionally present array of child handles, each handle absent or
owning a child chunk (invariants I1 and I3). The spec gives no formula for `kNumInnerNodes`,
so the payload array is stored sparsely: it has a slot for every linear index, and a slot
beyond the end of `data` holds the default value `NodeDataType{}`. -/
inductive ChunkedNdtreeNode (NodeDataType : Type) (dim chunk_height : Nat) : Type where
  | mk (data : List NodeDataType)
       (children : Option (List (Option (ChunkedNdtreeNode NodeDataType dim chunk_height)))) :
      ChunkedNdtreeNode NodeDataType dim chunk_height

/-- Payload slots: value of slot `i` of a payload array. -/
def readSlot {α : Type} [Inhabited α] (data : List α) (i : LinearIndex) : α :=
  data.getD i default

/-- Payload slots: the payload array with slot `i` set to `v`. -/
def writeSlot {α : Type} [Inhabited α] : List α → LinearIndex → α → List α
  | [], 0, v => [v]
  | [], i + 1, v => default :: writeSlot [] i v
  | _ :: t, 0, v => v :: t
  | h :: t, i + 1, v => h :: writeSlot t i v

namespace ChunkedNdtreeNode

variable {α : Type} {dim chunk_height : Nat}

/-- The constant `kNumChildren = 2^(dim * chunk_height)` (spec §3). -/
def kNumChildren (dim chunk_height : Nat) : Nat := 2 ^ (dim * chunk_height)

/-- A freshly constructed chunk: every payload slot default, no children array. -/
def fresh : ChunkedNdtreeNode α dim chunk_height := mk [] none

/-- Modelled from the spec: `data(linear_index)`, read access. -/
def data [Inhabited α] : ChunkedNdtreeNode α dim chunk_height → LinearIndex → α
  | mk d _, i => readSlot d i

/-- Modelled from the spec: `data(linear_index) = v`, write access. -/
def setData [Inhabited α] : ChunkedNdtreeNode α dim chunk_height → LinearIndex → α →
    ChunkedNdtreeNode α dim chunk_height
  | mk d cs, i, v => mk (writeSlot d i v) cs

/-- Modelled from the spec: `hasChildrenArray()`. -/
def hasChildrenArray : ChunkedNdtreeNode α dim chunk_height → Bool
  | mk _ cs => cs.isSome

/-- Modelled from the spec: `allocateChildrenArray()`; a no-op when already present. -/
def allocateChildrenArray : ChunkedNdtreeNode α dim chunk_height →
    ChunkedNdtreeNode α dim chunk_height
  | mk d none => mk d (some (List.replicate (kNumChildren dim chunk_height) none))
  | mk d (some cs) => mk d (some cs)

/-- Modelled from the spec: `deleteChildrenArray()`; a no-op when already absent. -/
def deleteChildrenArray : ChunkedNdtreeNode α dim chunk_height →
    ChunkedNdtreeNode α dim chunk_height
  | mk d _ => mk d none

/-- Modelled from the spec: `getChild(i)`; null without a children array or for an absent
handle. -/
def getChild : ChunkedNdtreeNode α dim chunk_height → LinearIndex →
    Option (ChunkedNdtreeNode α dim chunk_height)
  | mk _ none, _ => none
  | mk _ (some cs), i => cs.getD i none

/-- Modelled from the spec: `hasChild(i)`. -/
def hasChild (c : ChunkedNdtreeNode α dim chunk_height) (i : LinearIndex) : Bool :=
  (c.getChild i).isSome

/-- Handle `i` of the children array replaced (the write `children[i] = handle`). -/
def setHandle : ChunkedNdtreeNode α dim chunk_height → LinearIndex →
    Option (ChunkedNdtreeNode α dim chunk_height) → ChunkedNdtreeNode α dim chunk_height
  | mk d none, _, _ => mk d none
  | mk d (some cs), i, h => mk d (some (cs.set i h))

/-- Modelled from the spec: `allocateChild(i)`; allocates the children array first if absent,
then constructs a fresh default-valued child chunk in handle `i`. -/
def allocateChild (c : ChunkedNdtreeNode α dim chunk_height) (i : LinearIndex) :
    ChunkedNdtreeNode α dim chunk_height :=
  c.allocateChildrenArray.setHandle i (some fresh)

/-- Modelled from the spec: `deleteChild(i)`; destroys the owned subtree and clears the
handle. -/
def deleteChild (c : ChunkedNdtreeNode α dim chunk_height) (i : LinearIndex) :
    ChunkedNdtreeNode α dim chunk_height :=
  c.setHandle i none

/-- Modelled from the spec: `empty()`; every payload slot holds the default value and the
chunk has no children array. -/
def empty [Inhabited α] [DecidableEq α] : ChunkedNdtreeNode α dim chunk_height → Bool
  | mk d cs => d.all (fun x => decide (x = default)) && !cs.isSome

/-- Modelled from the spec: the chunk's own `getMemoryUsage()`; the fixed cost of the chunk
with its payload array plus, if present, the cost of the children-handle array. Both byte
counts are `sizeof` constants of the absent class and are taken as parameters. -/
def getMemoryUsage (node_bytes children_array_bytes : Nat)
    (c : ChunkedNdtreeNode α dim chunk_height) : Nat :=
  if c.hasChildrenArray then node_bytes + children_array_bytes else node_bytes

/-- The chunk a pointer designates inside the subtree owned by a chunk (following present
child handles); `none` for a dangling pointer. -/
def chunkAt : ChunkPath → ChunkedNdtreeNode α dim chunk_height →
    Option (ChunkedNdtreeNode α dim chunk_height)
  | [], c => some c
  | i :: rest, c =>
    match c.getChild i with
    | none => none
    | some child => chunkAt rest child

/-- The subtree owned by a chunk after a payload write through the pointer `(path, rel)`. -/
def writeAt [Inhabited α] : ChunkPath → LinearIndex → α → ChunkedNdtreeNode α dim chunk_height →
    ChunkedNdtreeNode α dim chunk_height
  | [], rel, v, c => c.setData rel v
  | i :: rest, rel, v, c =>
    match c.getChild i with
    | none => c
    | some child => c.setHandle i (some (writeAt rest rel v child))

mutual
/-- Type invariant of the children arrays (`std::array` of `kNumChildren` handles): every
children array of the subtree has exactly `kNumChildren` handles. -/
def wellFormed : ChunkedNdtreeNode α dim chunk_height → Bool
  | mk _ none => true
  | mk _ (some cs) => decide (cs.length = kNumChildren dim chunk_height) && wellFormedChildren cs
/-- Type invariant of the children arrays, for the chunks owned by the handles of an array. -/
def wellFormedChildren : List (Option (ChunkedNdtreeNode α dim chunk_height)) → Bool
  | [] => true
  | none :: t => wellFormedChildren t
  | some c :: t => wellFormed c && wellFormedChildren t
end

mutual
/-- Number of chunks reachable from a chunk through present child handles, the chunk itself
included, each counted once. -/
def numChunks : ChunkedNdtreeNode α dim chunk_height → Nat
  | mk _ none => 1
  | mk _ (some cs) => 1 + numChunksChildren cs
/-- Number of chunks reachable through the handles of a children array. -/
def numChunksChildren : List (Option (ChunkedNdtreeNode α dim chunk_height)) → Nat
  | [] => 0
  | none :: t => numChunksChildren t
  | some c :: t => numChunks c + numChunksChildren t
end

mutual
/-- Modelled from the spec: the depth-first preorder generator (`getIterator` with
`TraversalOrder::kDepthFirstPreorder`), absent from src; spec §4.5: a chunk is produced before
any of its children. The generator yields chunk pointers; children are taken in slot order. -/
def preorder : ChunkedNdtreeNode α dim chunk_height → List ChunkPath
  | mk _ none => [[]]
  | mk _ (some cs) => [] :: preorderChildren 0 cs
/-- Preorder generator over the handles of a children array whose first slot is `i`. -/
def preorderChildren : Nat → List (Option (ChunkedNdtreeNode α dim chunk_height)) →
    List ChunkPath
  | _, [] => []
  | i, none :: t => preorderChildren (i + 1) t
  | i, some c :: t => (preorder c).map (fun path => i :: path) ++ preorderChildren (i + 1) t
end

/-- Inner loop of `prune` (lines 25-36) at one `child_idx`: the state is the visited chunk and
the flag `has_non_empty_child`. -/
def pruneScanStep [Inhabited α] [DecidableEq α]
    (state : ChunkedNdtreeNode α dim chunk_height × Bool) (child_idx : LinearIndex) :
    ChunkedNdtreeNode α dim chunk_height × Bool :=
  match state.1.getChild child_idx with
  | some child => if child.empty then (state.1.deleteChild child_idx, state.2) else (state.1, true)
  | none => state

/-- Loop body of `prune` (lines 24-42) on one visited chunk. -/
def pruneNode [Inhabited α] [DecidableEq α] (node : ChunkedNdtreeNode α dim chunk_height) :
    ChunkedNdtreeNode α dim chunk_height :=
  if node.hasChildrenArray then
    let scanned := (List.range (kNumChildren dim chunk_height)).foldl pruneScanStep (node, false)
    -- Free up the children array if it only contains null pointers
    if !scanned.2 then scanned.1.deleteChildrenArray else scanned.1
  else node

mutual
/-- Modelled from the spec: the depth-first postorder generator driving `prune` (lines 23-43),
absent from src; spec §4.5: the children of a chunk are all produced before the chunk itself,
so the loop body runs on a chunk after it ran on every chunk below it. -/
def pruneSubtree [Inhabited α] [DecidableEq α] : ChunkedNdtreeNode α dim chunk_height →
    ChunkedNdtreeNode α dim chunk_height
  | mk d none => pruneNode (mk d none)
  | mk d (some cs) => pruneNode (mk d (some (pruneChildren cs)))
/-- Postorder visit of the chunks owned by the handles of a children array. -/
def pruneChildren [Inhabited α] [DecidableEq α] :
    List (Option (ChunkedNdtreeNode α dim chunk_height)) →
    List (Option (ChunkedNdtreeNode α dim chunk_height))
  | [] => []
  | none :: t => none :: pruneChildren t
  | some c :: t => some (pruneSubtree c) :: pruneChildren t
end

/-- Inner loop of the tree's `getMemoryUsage` (lines 103-108) at one `child_idx`. -/
def pushChild (node : ChunkedNdtreeNode α dim chunk_height)
    (stack : List (ChunkedNdtreeNode α dim chunk_height)) (child_idx : LinearIndex) :
    List (ChunkedNdtreeNode α dim chunk_height) :=
  if node.hasChild child_idx then
    match node.getChild child_idx with
    | some child => child :: stack
    | none => stack
  else stack

/-- The `while (!stack.empty())` loop of the tree's `getMemoryUsage` (lines 97-110); the head of
the list is the top of the stack. -/
def memoryUsageLoop (node_bytes children_array_bytes : Nat) :
    Nat → List (ChunkedNdtreeNode α dim chunk_height) → Nat → Option Nat
  | _, [], memory_usage => some memory_usage
  | 0, _ :: _, _ => none
  | fuel + 1, node :: stack, memory_usage =>
    memoryUsageLoop node_bytes children_array_bytes fuel
      (if node.hasChildrenArray then
        (List.range (kNumChildren dim chunk_height)).foldl (pushChild node) stack
      else stack)
      (memory_usage + node.getMemoryUsage node_bytes children_array_bytes)

mutual
/-- Recursive reference sum of the memory usage: the chunk's own `getMemoryUsage()` plus the
sum over the chunks owned by its present child handles; absent handles contribute nothing. -/
def memoryUsageRec (node_bytes children_array_bytes : Nat) :
    ChunkedNdtreeNode α dim chunk_height → Nat
  | mk _ none => node_bytes
  | mk _ (some cs) =>
    node_bytes + children_array_bytes +
      memoryUsageRecChildren node_bytes children_array_bytes cs
/-- Recursive reference sum over the handles of a children array. -/
def memoryUsageRecChildren (node_bytes children_array_bytes : Nat) :
    List (Option (ChunkedNdtreeNode α dim chunk_height)) → Nat
  | [] => 0
  | none :: t => memoryUsageRecChildren node_bytes children_array_bytes t
  | some c :: t =>
    memoryUsageRec node_bytes children_array_bytes c +
      memoryUsageRecChildren node_bytes children_array_bytes t
end

/-- Effect of the inner loop of `prune` on one handle: an empty child is deleted. -/
def keepHandle [Inhabited α] [DecidableEq α] :
    Option (ChunkedNdtreeNode α dim chunk_height) → Option (ChunkedNdtreeNode α dim chunk_height)
  | some c => if c.empty then none else some c
  | none => none

/-- Contribution of one handle to the flag `has_non_empty_child` of `prune`. -/
def nonEmptyHandle [Inhabited α] [DecidableEq α] :
    Option (ChunkedNdtreeNode α dim chunk_height) → Bool
  | some c => !c.empty
  | none => false

/-- Payload read through the pointer `(path, rel)` inside the subtree owned by a chunk. -/
def loadAt [Inhabited α] (c : ChunkedNdtreeNode α dim chunk_height) (path : ChunkPath)
    (rel : LinearIndex) : Option α :=
  (c.chunkAt path).map (fun chunk => chunk.data rel)

/-- The subtree owned by a chunk after the allocation chain of the descent loop along `path`:
every missing child on the path is allocated. -/
def allocatePath : ChunkPath → ChunkedNdtreeNode α dim chunk_height →
    ChunkedNdtreeNode α dim chunk_height
  | [], c => c
  | i :: rest, c =>
    match (if !c.hasChild i then c.allocateChild i else c).getChild i with
    | none => if !c.hasChild i then c.allocateChild i else c
    | some child =>
      (if !c.hasChild i then c.allocateChild i else c).setHandle i
        (some (allocatePath rest child))

end ChunkedNdtreeNode

/-- The pointer the descent loops of `getNodeAndRelativeIndex` compute from the index alone:
the child slots of lines 127-128 (161-162) and the relative index of lines 142-143 (172-173),
with every child taken as present. -/
def resolvePath (dim chunk_height : Nat) (morton_code : MortonCode) (index_height : Int) :
    Nat → Int → Int → Option Slot
  | fuel, parent_height, child_height =>
    if index_height < child_height then
      match fuel with
      | 0 => none
      | fuel + 1 =>
        let child_index :=
          NdtreeIndex.computeRelativeChildIndex dim morton_code parent_height child_height
        (resolvePath dim chunk_height morton_code index_height fuel
          (parent_height - chunk_height) (child_height - chunk_height)).map
          (fun s => (child_index :: s.1, s.2))
    else
      some ([],
        NdtreeIndex.computeRelativeChildIndex dim morton_code parent_height index_height)

/-- Reference walk in the spec's words (§8, "a naive reference implementation that walks one
tree level per step"): the per-level child indices, i.e. the `dim`-bit digits of the Morton
code, from height `parent_height - 1` down to `index_height`. -/
def naiveChildIndices (dim : Nat) (morton_code : MortonCode) (index_height : Int) :
    Nat → Int → List LinearIndex
  | 0, _ => []
  | fuel + 1, parent_height =>
    if index_height < parent_height then
      (morton_code / 2 ^ (dim * (parent_height - 1).toNat)) % 2 ^ dim ::
        naiveChildIndices dim morton_code index_height fuel (parent_height - 1)
    else []

/-- Reference walk of an index in a tree of height `max_height`: one step per level between
the root and the index. -/
def naiveWalk {dim : Nat} (max_height : Int) (index : NdtreeIndex dim) : List LinearIndex :=
  naiveChildIndices dim (convert.nodeIndexToMorton index) index.height
    (max_height - index.height).toNat max_height

/-! ## Chunked tree (`chunked_ndtree_inl.h`) -/

/-- The tree class `ChunkedNdtree<NodeDataType, dim, chunk_height>`: it owns the root chunk
and stores the height fixed at construction. -/
structure ChunkedNdtree (NodeDataType : Type) (dim chunk_height : Nat) where
  root_node_ : ChunkedNdtreeNode NodeDataType dim chunk_height
  max_height_ : Int

namespace ChunkedNdtree

variable {α : Type} {dim chunk_height : Nat}

/-- A freshly constructed tree: a root chunk without children array, all slots default. -/
def init (max_height : Int) : ChunkedNdtree α dim chunk_height :=
  ⟨ChunkedNdtreeNode.fresh, max_height⟩

/-- Descent loop of the mutable `getNodeAndRelativeIndex` (lines 123-145), started at
`current_parent`. The result is the updated chunk and the resolved pointer relative to it:
the in-place allocation below a child is rendered by writing the updated child back into
its handle. -/
def descend (morton_code : MortonCode) (index_height : Int) (auto_allocate : Bool) :
    Nat → ChunkedNdtreeNode α dim chunk_height → Int → Int →
    Option (ChunkedNdtreeNode α dim chunk_height × Option Slot)
  | fuel, current_parent, parent_height, child_height =>
    if index_height < child_height then
      match fuel with
      | 0 => none
      | fuel + 1 =>
        let child_index :=
          NdtreeIndex.computeRelativeChildIndex dim morton_code parent_height child_height
        -- Check if the child is allocated
        let allocated :=
          if !current_parent.hasChild child_index then
            if auto_allocate then some (current_parent.allocateChild child_index) else none
          else some current_parent
        match allocated with
        | none => some (current_parent, none)
        | some current_parent =>
          match current_parent.getChild child_index with
          | none => none
          | some child =>
            match descend morton_code index_height auto_allocate fuel child
                (parent_height - chunk_height) (child_height - chunk_height) with
            | none => none
            | some (child, found) =>
              some (current_parent.setHandle child_index (some child),
                found.map (fun s => (child_index :: s.1, s.2)))
    else
      some (current_parent, some ([],
        NdtreeIndex.computeRelativeChildIndex dim morton_code parent_height index_height))

/-- Descent loop of the read-only `getNodeAndRelativeIndex` (lines 157-175). -/
def descendConst (morton_code : MortonCode) (index_height : Int) :
    Nat → ChunkedNdtreeNode α dim chunk_height → Int → Int → Option (Option Slot)
  | fuel, current_parent, parent_height, child_height =>
    if index_height < child_height then
      match fuel with
      | 0 => none
      | fuel + 1 =>
        let child_index :=
          NdtreeIndex.computeRelativeChildIndex dim morton_code parent_height child_height
        if !current_parent.hasChild child_index then
          some none
        else
          match current_parent.getChild child_index with
          | none => none
          | some child =>
            match descendConst morton_code index_height fuel child
                (parent_height - chunk_height) (child_height - chunk_height) with
            | none => none
            | some found => some (found.map (fun s => (child_index :: s.1, s.2)))
    else
      some (some ([],
        NdtreeIndex.computeRelativeChildIndex dim morton_code parent_height index_height))

/-- Fuel of the descent loops: the number of levels between the index and the root. -/
def descentFuel (tree : ChunkedNdtree α dim chunk_height) (index : NdtreeIndex dim) : Nat :=
  (tree.max_height_ - index.height).toNat

/-- The mutable `getNodeAndRelativeIndex(index, auto_allocate)` (lines 115-146). -/
def getNodeAndRelativeIndex (tree : ChunkedNdtree α dim chunk_height) (index : NdtreeIndex dim)
    (auto_allocate : Bool) : Option (ChunkedNdtree α dim chunk_height × Option Slot) :=
  let morton_code := convert.nodeIndexToMorton index
  let parent_height := tree.max_height_
  let child_height := parent_height - chunk_height
  match descend morton_code index.height auto_allocate (tree.descentFuel index)
      tree.root_node_ parent_height child_height with
  | none => none
  | some (root, found) => some ({ tree with root_node_ := root }, found)

/-- The read-only `getNodeAndRelativeIndex(index) const` (lines 148-176). -/
def getNodeAndRelativeIndexConst (tree : ChunkedNdtree α dim chunk_height)
    (index : NdtreeIndex dim) : Option (Option Slot) :=
  let morton_code := convert.nodeIndexToMorton index
  let parent_height := tree.max_height_
  let child_height := parent_height - chunk_height
  descendConst morton_code index.height (tree.descentFuel index)
    tree.root_node_ parent_height child_height

/-- The method `hasNode(index)` (lines 46-50). -/
def hasNode (tree : ChunkedNdtree α dim chunk_height) (index : NdtreeIndex dim) : Option Bool :=
  (tree.getNodeAndRelativeIndexConst index).map Option.isSome

/-- The method `allocateNode(index)` (lines 52-56). -/
def allocateNode (tree : ChunkedNdtree α dim chunk_height) (index : NdtreeIndex dim) :
    Option (ChunkedNdtree α dim chunk_height) :=
  (tree.getNodeAndRelativeIndex index true).map Prod.fst

/-- The method `resetNode(index)` (lines 58-68). -/
def resetNode [Inhabited α] (tree : ChunkedNdtree α dim chunk_height) (index : NdtreeIndex dim) :
    Option (ChunkedNdtree α dim chunk_height) :=
  match tree.getNodeAndRelativeIndex index false with
  | none => none
  | some (tree, some (chunked_node, relative_index)) =>
    some { tree with
      root_node_ := tree.root_node_.writeAt chunked_node relative_index default }
  | some (tree, none) => some tree

/-- The mutable `getNodeData(index, auto_allocate)` (lines 70-79); the returned pointer to a
payload slot is the pair of the chunk pointer and the slot index. -/
def getNodeData (tree : ChunkedNdtree α dim chunk_height) (index : NdtreeIndex dim)
    (auto_allocate : Bool) : Option (ChunkedNdtree α dim chunk_height × Option Slot) :=
  match tree.getNodeAndRelativeIndex index auto_allocate with
  | none => none
  | some (tree, some (chunked_node, relative_index)) =>
    some (tree, some (chunked_node, relative_index))
  | some (tree, none) => some (tree, none)

/-- The read-only `getNodeData(index) const` (lines 81-89). -/
def getNodeDataConst (tree : ChunkedNdtree α dim chunk_height) (index : NdtreeIndex dim) :
    Option (Option Slot) :=
  match tree.getNodeAndRelativeIndexConst index with
  | none => none
  | some (some (chunked_node, relative_index)) => some (some (chunked_node, relative_index))
  | some none => some none

/-- Payload read through a pointer returned by `getNodeData`; `none` if the pointer dangles. -/
def load [Inhabited α] (tree : ChunkedNdtree α dim chunk_height) (slot : Slot) : Option α :=
  (tree.root_node_.chunkAt slot.1).map (fun chunk => chunk.data slot.2)

/-- Payload write through a pointer returned by `getNodeData`. -/
def store [Inhabited α] (tree : ChunkedNdtree α dim chunk_height) (slot : Slot) (v : α) :
    ChunkedNdtree α dim chunk_height :=
  { tree with root_node_ := tree.root_node_.writeAt slot.1 slot.2 v }

/-- The method `prune()` (lines 21-44). -/
def prune [Inhabited α] [DecidableEq α] (tree : ChunkedNdtree α dim chunk_height) :
    ChunkedNdtree α dim chunk_height :=
  { tree with root_node_ := tree.root_node_.pruneSubtree }

/-- The method `size()` (lines 13-19); `kNumInnerNodes` is a constant of the absent chunk class
and is taken as a parameter. -/
def size (kNumInnerNodes : Nat) (tree : ChunkedNdtree α dim chunk_height) : Nat :=
  let num_chunks := tree.root_node_.preorder.length
  num_chunks * kNumInnerNodes

/-- The method `getMemoryUsage()` (lines 91-113); the loop runs on one unit of fuel per chunk
of the tree. -/
def getMemoryUsage (node_bytes children_array_bytes : Nat)
    (tree : ChunkedNdtree α dim chunk_height) : Option Nat :=
  ChunkedNdtreeNode.memoryUsageLoop node_bytes children_array_bytes tree.root_node_.numChunks
    [tree.root_node_] 0

/-- Type invariant of the tree: every children array has `kNumChildren` handles. -/
def wellFormed (tree : ChunkedNdtree α dim chunk_height) : Bool :=
  tree.root_node_.wellFormed

/-- Payload of node `index` as read through the read-only `getNodeData`: `none` when the loop
gives no result, `some none` for a null pointer, `some (some v)` for the payload `v`. -/
def readNode [Inhabited α] (tree : ChunkedNdtree α dim chunk_height) (index : NdtreeIndex dim) :
    Option (Option α) :=
  match tree.getNodeDataConst index with
  | none => none
  | some none => some none
  | some (some slot) => (tree.load slot).map some

/-- Payload `v` written to node `index` through `getNodeData(index, true)`. -/
def writeNode [Inhabited α] (tree : ChunkedNdtree α dim chunk_height) (index : NdtreeIndex dim)
    (v : α) : Option (ChunkedNdtree α dim chunk_height) :=
  match tree.getNodeData index true with
  | none => none
  | some (tree, some slot) => some (tree.store slot v)
  | some (_, none) => none

/-- The pointer address resolution computes for `index` in this tree when no child on the way
is missing (the Morton code, start heights and fuel of `getNodeAndRelativeIndex`). -/
def resolveSlot (tree : ChunkedNdtree α dim chunk_height) (index : NdtreeIndex dim) :
    Option Slot :=
  resolvePath dim chunk_height (convert.nodeIndexToMorton index) index.height
    (tree.descentFuel index) tree.max_height_ (tree.max_height_ - chunk_height)

/-- A sequence of writes, each through `getNodeData(index, true)`, in list order. -/
def writeNodes [Inhabited α] (tree : ChunkedNdtree α dim chunk_height) :
    List (NdtreeIndex dim × α) → Option (ChunkedNdtree α dim chunk_height)
  | [] => some tree
  | w :: rest =>
    match tree.writeNode w.1 w.2 with
    | none => none
    | some tree1 => tree1.writeNodes rest

/-- The pointer `getNodeData(index, true)` returns (resolution with auto-allocation). -/
def slotOf (tree : ChunkedNdtree α dim chunk_height) (index : NdtreeIndex dim) :
    Option (Option Slot) :=
  (tree.getNodeData index true).map Prod.snd

end ChunkedNdtree

/-- The own `getMemoryUsage()` of the chunk a pointer designates below `root` (nothing for a
dangling pointer). -/
def ownMemoryUsageAt {α : Type} {dim chunk_height : Nat} (node_bytes children_array_bytes : Nat)
    (root : ChunkedNdtreeNode α dim chunk_height) (path : ChunkPath) : Nat :=
  match root.chunkAt path with
  | some chunk => chunk.getMemoryUsage node_bytes children_array_bytes
  | none => 0

/-- Example state: a 1-d tree of height 2 with chunks of height 1 whose root chunk holds a
payload and an allocated children array in which every handle is absent. -/
def exampleTreeBareArray : ChunkedNdtree Nat 1 1 :=
  ⟨.mk [4] (some [none, none]), 2⟩

namespace ChunkedNdtreeNode

mutual
/-- The structure of the subtree owned by a chunk with all payloads erased: which children
arrays exist and which of their handles own a chunk. -/
def shape {α : Type} {dim chunk_height : Nat} :
    ChunkedNdtreeNode α dim chunk_height → ChunkedNdtreeNode Unit dim chunk_height
  | mk _ none => mk [] none
  | mk _ (some cs) => mk [] (some (shapeChildren cs))
/-- The structure below the handles of a children array. -/
def shapeChildren {α : Type} {dim chunk_height : Nat} :
    List (Option (ChunkedNdtreeNode α dim chunk_height)) →
    List (Option (ChunkedNdtreeNode Unit dim chunk_height))
  | [] => []
  | none :: t => none :: shapeChildren t
  | some c :: t => some (shape c) :: shapeChildren t
end

end ChunkedNdtreeNode

/-- Example state: a 1-d tree of height 1 with chunks of height 1 reached from a fresh tree by
writing payload 5 to node `(0, [0])`; slot 0 of the root chunk holds 5. -/
def exampleTreeShared : ChunkedNdtree Nat 1 1 :=
  ⟨.mk [5] none, 1⟩

/-- The number of child-chunk hops of the claim on resolution cost:
`max(0, ceil((max_height - index_height) / chunk_height) - 1)`, in truncated arithmetic. -/
def expectedHops (chunk_height : Nat) (max_height index_height : Int) : Nat :=
  ((max_height - index_height).toNat + chunk_height - 1) / chunk_height - 1

/-- The height pairs `(parent_height, child_height)` over which the descent loops of
`getNodeAndRelativeIndex` extract their windows: one pair per child slot (lines 127-128 and
161-162), and the pair of the final relative index (lines 141-143 and 171-173). -/
def resolveSpans (chunk_height : Nat) (index_height : Int) :
    Nat → Int → Int → Option (List (Int × Int) × (Int × Int))
  | fuel, parent_height, child_height =>
    if index_height < child_height then
      match fuel with
      | 0 => none
      | fuel + 1 =>
        (resolveSpans chunk_height index_height fuel
          (parent_height - chunk_height) (child_height - chunk_height)).map
          (fun t => ((parent_height, child_height) :: t.1, t.2))
    else
      some ([], (parent_height, index_height))

namespace ChunkedNdtreeNode

mutual
/-- Modelled from the spec: the chunk pointers in the order of the depth-first postorder
generator (`getIterator` with `TraversalOrder::kDepthFirstPostorder`), absent from src; spec
§4.5: the children of a chunk are all produced before the chunk itself. -/
def postorder {α : Type} {dim chunk_height : Nat} :
    ChunkedNdtreeNode α dim chunk_height → List ChunkPath
  | mk _ none => [[]]
  | mk _ (some cs) => postorderChildren 0 cs ++ [[]]
/-- Postorder generator over the handles of a children array whose first slot is `i`. -/
def postorderChildren {α : Type} {dim chunk_height : Nat} :
    Nat → List (Option (ChunkedNdtreeNode α dim chunk_height)) → List ChunkPath
  | _, [] => []
  | i, none :: t => postorderChildren (i + 1) t
  | i, some c :: t => (postorder c).map (fun path => i :: path) ++ postorderChildren (i + 1) t
end

/-- The subtree owned by a chunk after `visit` ran in place on the chunk a pointer
designates. -/
def updateAt {α : Type} {dim chunk_height : Nat}
    (visit : ChunkedNdtreeNode α dim chunk_height → ChunkedNdtreeNode α dim chunk_height) :
    ChunkPath → ChunkedNdtreeNode α dim chunk_height → ChunkedNdtreeNode α dim chunk_height
  | [], c => visit c
  | i :: rest, c =>
    match c.getChild i with
    | none => c
    | some child => c.setHandle i (some (updateAt visit rest child))

/-- The loop of `prune` (lines 23-43) as an iteration: the loop body runs in place on every
chunk the postorder generator yields, in that order. -/
def pruneByPostorder {α : Type} [Inhabited α] [DecidableEq α] {dim chunk_height : Nat}
    (root : ChunkedNdtreeNode α dim chunk_height) : ChunkedNdtreeNode α dim chunk_height :=
  (postorder root).foldl (fun r path => updateAt pruneNode path r) root

end ChunkedNdtreeNode

/-- Example state: the 1-d tree of height 2 with chunks of height 1 reached from a fresh tree
by `allocateNode` on `(0, [3])`: the child chunk in slot 1 holds default payloads only. -/
def exampleTreeAllocated : ChunkedNdtree Nat 1 1 :=
  ⟨.mk [] (some [none, some (.mk [] none)]), 2⟩

/-- Example state: a 1-d tree of height 3 with chunks of height 1 in which only node `(0, [7])`
holds a non-default payload; node `(1, [3])`, its parent, holds the default payload. -/
def exampleTreeDeep : ChunkedNdtree Nat 1 1 :=
  ⟨.mk [] (some [none, some (.mk [] (some [none, some (.mk [0, 9] none)]))]), 3⟩

/-- Example state: the 1-d tree of height 2 with chunks of height 1 reached from a fresh tree
by writing payload 7 to node `(0, [3])`. -/
def exampleTree : ChunkedNdtree Nat 1 1 :=
  ⟨.mk [] (some [none, some (.mk [0, 7] none)]), 2⟩

end wavemap


/-! ## Lemmas on chunks -/

namespace wavemap

namespace ChunkedNdtreeNode

variable {α : Type} {dim chunk_height : Nat}

theorem wellFormedChildren_iff (cs : List (Option (ChunkedNdtreeNode α dim chunk_height))) :
    wellFormedChildren cs = true ↔ ∀ c, some c ∈ cs → wellFormed c = true := by
  induction cs with
  | nil => simp [wellFormedChildren]
  | cons h t ih =>
    cases h with
    | none => simp [wellFormedChildren, ih]
    | some c => simp [wellFormedChildren, ih]

theorem wellFormed_mk_some (d : List α)
    (cs : List (Option (ChunkedNdtreeNode α dim chunk_height))) :
    wellFormed (mk d (some cs)) = true ↔
      cs.length = kNumChildren dim chunk_height ∧ ∀ c, some c ∈ cs → wellFormed c = true := by
  simp [wellFormed, wellFormedChildren_iff]

theorem wellFormed_fresh : (fresh : ChunkedNdtreeNode α dim chunk_height).wellFormed = true := by
  simp [fresh, wellFormed]

theorem getD_none_eq_some {β : Type} (cs : List (Option β)) (i : Nat) (x : β)
    (h : cs.getD i none = some x) : i < cs.length ∧ some x ∈ cs := by
  rw [List.getD_eq_getElem?_getD] at h
  cases hget : cs[i]? with
  | none => simp [hget] at h
  | some y =>
    simp [hget] at h
    subst h
    have hlt : i < cs.length := by
      by_contra hge
      simp [List.getElem?_eq_none (Nat.le_of_not_lt hge)] at hget
    exact ⟨hlt, List.getElem?_mem hget⟩

theorem getChild_mem (d : List α) (cs : List (Option (ChunkedNdtreeNode α dim chunk_height)))
    (i : LinearIndex) (child : ChunkedNdtreeNode α dim chunk_height)
    (h : (mk d (some cs)).getChild i = some child) : i < cs.length ∧ some child ∈ cs :=
  getD_none_eq_some cs i child h

theorem wellFormed_getChild (c child : ChunkedNdtreeNode α dim chunk_height) (i : LinearIndex)
    (hwf : c.wellFormed = true) (h : c.getChild i = some child) : child.wellFormed = true := by
  cases c with
  | mk d cs =>
    cases cs with
    | none => simp [getChild] at h
    | some cs =>
      rw [wellFormed_mk_some] at hwf
      exact hwf.2 child (getChild_mem d cs i child h).2

theorem getD_set_same {β : Type} (cs : List (Option β)) (i : Nat) (h : Option β)
    (hi : i < cs.length) : (cs.set i h).getD i none = h := by
  rw [List.getD_eq_getElem?_getD, List.getElem?_set]
  simp [hi]

theorem getD_set_ne {β : Type} (cs : List (Option β)) (i j : Nat) (h : Option β)
    (hij : i ≠ j) : (cs.set i h).getD j none = cs.getD j none := by
  rw [List.getD_eq_getElem?_getD, List.getD_eq_getElem?_getD, List.getElem?_set_ne hij]

theorem set_getD_self {β : Type} (cs : List (Option β)) (i : Nat) (x : β)
    (h : cs.getD i none = some x) : cs.set i (some x) = cs := by
  induction cs generalizing i with
  | nil => simp
  | cons a t ih =>
    cases i with
    | zero =>
      simp at h
      simp [h]
    | succ n =>
      simp only [List.getD_cons_succ] at h
      simp [ih n h]

theorem getChild_setHandle_same (c : ChunkedNdtreeNode α dim chunk_height) (i : LinearIndex)
    (h : Option (ChunkedNdtreeNode α dim chunk_height)) (hc : c.hasChild i = true) :
    (c.setHandle i h).getChild i = h := by
  cases c with
  | mk d cs =>
    cases cs with
    | none => simp [hasChild, getChild] at hc
    | some cs =>
      cases hget : (mk d (some cs)).getChild i with
      | none => simp [hasChild, hget] at hc
      | some child =>
        exact getD_set_same cs i h (getChild_mem d cs i child hget).1

theorem getChild_setHandle_ne (c : ChunkedNdtreeNode α dim chunk_height) (i j : LinearIndex)
    (h : Option (ChunkedNdtreeNode α dim chunk_height)) (hij : i ≠ j) :
    (c.setHandle i h).getChild j = c.getChild j := by
  cases c with
  | mk d cs =>
    cases cs with
    | none => rfl
    | some cs => exact getD_set_ne cs i j h hij

theorem setHandle_getChild_self (c child : ChunkedNdtreeNode α dim chunk_height)
    (i : LinearIndex) (h : c.getChild i = some child) : c.setHandle i (some child) = c := by
  cases c with
  | mk d cs =>
    cases cs with
    | none => rfl
    | some cs =>
      simp only [setHandle]
      rw [set_getD_self cs i child h]

theorem setHandle_setHandle (c : ChunkedNdtreeNode α dim chunk_height) (i : LinearIndex)
    (h1 h2 : Option (ChunkedNdtreeNode α dim chunk_height)) :
    (c.setHandle i h1).setHandle i h2 = c.setHandle i h2 := by
  cases c with
  | mk d cs =>
    cases cs with
    | none => rfl
    | some cs => simp [setHandle]

theorem wellFormed_setHandle (c : ChunkedNdtreeNode α dim chunk_height) (i : LinearIndex)
    (h : Option (ChunkedNdtreeNode α dim chunk_height)) (hwf : c.wellFormed = true)
    (hh : ∀ x, h = some x → x.wellFormed = true) : (c.setHandle i h).wellFormed = true := by
  cases c with
  | mk d cs =>
    cases cs with
    | none => simpa [setHandle] using hwf
    | some cs =>
      rw [wellFormed_mk_some] at hwf
      simp only [setHandle]
      rw [wellFormed_mk_some]
      refine ⟨by simpa using hwf.1, ?_⟩
      intro x hx
      rcases List.mem_or_eq_of_mem_set hx with hx | hx
      · exact hwf.2 x hx
      · exact hh x hx.symm

theorem wellFormed_allocateChildrenArray (c : ChunkedNdtreeNode α dim chunk_height)
    (hwf : c.wellFormed = true) : c.allocateChildrenArray.wellFormed = true := by
  cases c with
  | mk d cs =>
    cases cs with
    | none =>
      simp only [allocateChildrenArray]
      rw [wellFormed_mk_some]
      refine ⟨by simp, ?_⟩
      intro x hx
      simp [List.mem_replicate] at hx
    | some cs => simpa [allocateChildrenArray] using hwf

theorem wellFormed_allocateChild (c : ChunkedNdtreeNode α dim chunk_height) (i : LinearIndex)
    (hwf : c.wellFormed = true) : (c.allocateChild i).wellFormed = true := by
  unfold allocateChild
  apply wellFormed_setHandle _ _ _ (wellFormed_allocateChildrenArray c hwf)
  intro x hx
  cases hx
  exact wellFormed_fresh

theorem getChild_allocateChild_same (c : ChunkedNdtreeNode α dim chunk_height) (i : LinearIndex)
    (hwf : c.wellFormed = true) (hi : i < kNumChildren dim chunk_height) :
    (c.allocateChild i).getChild i = some fresh := by
  cases c with
  | mk d cs =>
    cases cs with
    | none =>
      simp only [allocateChild, allocateChildrenArray, setHandle, getChild]
      exact getD_set_same _ i _ (by simpa using hi)
    | some cs =>
      rw [wellFormed_mk_some] at hwf
      simp only [allocateChild, allocateChildrenArray, setHandle, getChild]
      exact getD_set_same _ i _ (by rw [hwf.1]; exact hi)

theorem getChild_allocateChild_ne (c : ChunkedNdtreeNode α dim chunk_height) (i j : LinearIndex)
    (hij : i ≠ j) : (c.allocateChild i).getChild j = c.getChild j := by
  cases c with
  | mk d cs =>
    cases cs with
    | none =>
      simp only [allocateChild, allocateChildrenArray, setHandle, getChild]
      rw [getD_set_ne _ i j _ hij]
      simp only [List.getD_eq_getElem?_getD, List.getElem?_replicate]
      split <;> rfl
    | some cs =>
      simp only [allocateChild, allocateChildrenArray, setHandle, getChild]
      exact getD_set_ne _ i j _ hij

end ChunkedNdtreeNode

end wavemap

/-! ## Lemmas on address resolution -/

namespace wavemap

open ChunkedNdtreeNode

variable {α : Type} {dim chunk_height : Nat}

theorem computeRelativeChildIndex_lt (dim : Nat) (code : MortonCode) (ph ch : Int) :
    NdtreeIndex.computeRelativeChildIndex dim code ph ch < 2 ^ (dim * (ph - ch).toNat) :=
  Nat.mod_lt _ (Nat.pow_pos (by decide))

theorem resolvePath_isSome (code : MortonCode) (h : Int) (hc : 0 < chunk_height) :
    ∀ (fuel : Nat) (ph ch : Int), (ch - h).toNat ≤ fuel →
      ∃ s, resolvePath dim chunk_height code h fuel ph ch = some s := by
  intro fuel
  induction fuel with
  | zero =>
    intro ph ch hf
    unfold resolvePath
    have : ¬ h < ch := by omega
    simp [this]
  | succ n ih =>
    intro ph ch hf
    unfold resolvePath
    by_cases hlt : h < ch
    · obtain ⟨s, hs⟩ := ih (ph - chunk_height) (ch - chunk_height) (by omega)
      simp [hlt, hs]
    · simp [hlt]

theorem resolvePath_bound (code : MortonCode) (h : Int) :
    ∀ (fuel : Nat) (ph ch : Int) (s : Slot), ph - ch = chunk_height →
      resolvePath dim chunk_height code h fuel ph ch = some s →
      ∀ i ∈ s.1, i < kNumChildren dim chunk_height := by
  intro fuel
  induction fuel with
  | zero =>
    intro ph ch s hspan hs
    unfold resolvePath at hs
    by_cases hlt : h < ch
    · simp [hlt] at hs
    · simp [hlt] at hs
      subst hs
      simp
  | succ n ih =>
    intro ph ch s hspan hs
    unfold resolvePath at hs
    by_cases hlt : h < ch
    · simp only [hlt, if_true] at hs
      cases hrec : resolvePath dim chunk_height code h n (ph - chunk_height)
          (ch - chunk_height) with
      | none => simp [hrec] at hs
      | some s1 =>
        simp [hrec] at hs
        subst hs
        intro i hi
        simp only [List.mem_cons] at hi
        rcases hi with hi | hi
        · subst hi
          have hb := computeRelativeChildIndex_lt dim code ph ch
          rw [hspan] at hb
          simpa [kNumChildren] using hb
        · exact ih (ph - chunk_height) (ch - chunk_height) s1 (by omega) hrec i hi
    · simp [hlt] at hs
      subst hs
      simp

theorem resolvePath_succ_of_lt (code : MortonCode) (h : Int) (fuel : Nat) (ph ch : Int)
    (s : Slot) (hlt : h < ch)
    (hs : resolvePath dim chunk_height code h (fuel + 1) ph ch = some s) :
    ∃ s1, resolvePath dim chunk_height code h fuel (ph - chunk_height) (ch - chunk_height)
        = some s1 ∧
      s = (NdtreeIndex.computeRelativeChildIndex dim code ph ch :: s1.1, s1.2) := by
  unfold resolvePath at hs
  simp only [hlt, if_true] at hs
  cases hrec : resolvePath dim chunk_height code h fuel (ph - chunk_height)
      (ch - chunk_height) with
  | none => simp [hrec] at hs
  | some s1 =>
    simp [hrec] at hs
    exact ⟨s1, rfl, hs.symm⟩

theorem resolvePath_of_not_lt (code : MortonCode) (h : Int) (fuel : Nat) (ph ch : Int)
    (hlt : ¬ h < ch) :
    resolvePath dim chunk_height code h fuel ph ch =
      some ([], NdtreeIndex.computeRelativeChildIndex dim code ph h) := by
  unfold resolvePath
  simp [hlt]

theorem resolvePath_zero_lt (code : MortonCode) (h : Int) (ph ch : Int) (hlt : h < ch) :
    resolvePath dim chunk_height code h 0 ph ch = none := by
  unfold resolvePath
  simp [hlt]

theorem descendConst_eq (code : MortonCode) (h : Int) :
    ∀ (fuel : Nat) (cur : ChunkedNdtreeNode α dim chunk_height) (ph ch : Int) (s : Slot),
      resolvePath dim chunk_height code h fuel ph ch = some s →
      ChunkedNdtree.descendConst code h fuel cur ph ch =
        some (if (cur.chunkAt s.1).isSome then some s else none) := by
  intro fuel
  induction fuel with
  | zero =>
    intro cur ph ch s hs
    by_cases hlt : h < ch
    · rw [resolvePath_zero_lt code h ph ch hlt] at hs
      cases hs
    · rw [resolvePath_of_not_lt code h 0 ph ch hlt] at hs
      cases hs
      unfold ChunkedNdtree.descendConst
      simp [hlt, chunkAt]
  | succ n ih =>
    intro cur ph ch s hs
    by_cases hlt : h < ch
    · obtain ⟨s1, hrec, hs1⟩ := resolvePath_succ_of_lt code h n ph ch s hlt hs
      subst hs1
      unfold ChunkedNdtree.descendConst
      simp only [hlt, if_true]
      cases hget : cur.getChild (NdtreeIndex.computeRelativeChildIndex dim code ph ch) with
      | none => simp [hasChild, hget, chunkAt]
      | some child =>
        simp only [hasChild, hget, Option.isSome_some, Bool.not_true, Bool.false_eq_true,
          if_false]
        rw [ih child (ph - chunk_height) (ch - chunk_height) s1 hrec]
        simp only [chunkAt, hget]
        by_cases hex : (chunkAt s1.1 child).isSome = true
        · simp [hex]
        · simp [hex]
    · rw [resolvePath_of_not_lt code h (n + 1) ph ch hlt] at hs
      cases hs
      unfold ChunkedNdtree.descendConst
      simp [hlt, chunkAt]

theorem descend_false_eq (code : MortonCode) (h : Int) :
    ∀ (fuel : Nat) (cur : ChunkedNdtreeNode α dim chunk_height) (ph ch : Int) (s : Slot),
      resolvePath dim chunk_height code h fuel ph ch = some s →
      ChunkedNdtree.descend code h false fuel cur ph ch =
        some (cur, if (cur.chunkAt s.1).isSome then some s else none) := by
  intro fuel
  induction fuel with
  | zero =>
    intro cur ph ch s hs
    by_cases hlt : h < ch
    · rw [resolvePath_zero_lt code h ph ch hlt] at hs
      cases hs
    · rw [resolvePath_of_not_lt code h 0 ph ch hlt] at hs
      cases hs
      unfold ChunkedNdtree.descend
      simp [hlt, chunkAt]
  | succ n ih =>
    intro cur ph ch s hs
    by_cases hlt : h < ch
    · obtain ⟨s1, hrec, hs1⟩ := resolvePath_succ_of_lt code h n ph ch s hlt hs
      subst hs1
      unfold ChunkedNdtree.descend
      simp only [hlt, if_true]
      cases hget : cur.getChild (NdtreeIndex.computeRelativeChildIndex dim code ph ch) with
      | none => simp [hasChild, hget, chunkAt]
      | some child =>
        simp only [hasChild, hget, Option.isSome_some, Bool.not_true, Bool.false_eq_true,
          if_false]
        rw [ih child (ph - chunk_height) (ch - chunk_height) s1 hrec]
        simp only [chunkAt, hget, setHandle_getChild_self cur child _ hget]
        by_cases hex : (chunkAt s1.1 child).isSome = true
        · simp [hex]
        · simp [hex]
    · rw [resolvePath_of_not_lt code h (n + 1) ph ch hlt] at hs
      cases hs
      unfold ChunkedNdtree.descend
      simp [hlt, chunkAt]

/-- After the allocation step of the loop, the child in slot `i` is present. -/
theorem getChild_allocated (cur : ChunkedNdtreeNode α dim chunk_height) (i : LinearIndex)
    (hwf : cur.wellFormed = true) (hi : i < kNumChildren dim chunk_height) :
    ∃ child, (if !cur.hasChild i then cur.allocateChild i else cur).getChild i = some child ∧
      child.wellFormed = true ∧
      (if !cur.hasChild i then cur.allocateChild i else cur).wellFormed = true ∧
      (if !cur.hasChild i then cur.allocateChild i else cur).hasChild i = true := by
  cases hget : cur.getChild i with
  | none =>
    have hh : cur.hasChild i = false := by simp [hasChild, hget]
    simp only [hh, Bool.not_false, if_true]
    refine ⟨fresh, getChild_allocateChild_same cur i hwf hi, wellFormed_fresh,
      wellFormed_allocateChild cur i hwf, ?_⟩
    simp [hasChild, getChild_allocateChild_same cur i hwf hi]
  | some child =>
    have hh : cur.hasChild i = true := by simp [hasChild, hget]
    simp only [hh, Bool.not_true, Bool.false_eq_true, if_false]
    exact ⟨child, hget, wellFormed_getChild cur child i hwf hget, hwf, trivial⟩

theorem descend_true_eq (code : MortonCode) (h : Int) :
    ∀ (fuel : Nat) (cur : ChunkedNdtreeNode α dim chunk_height) (ph ch : Int) (s : Slot),
      cur.wellFormed = true → ph - ch = chunk_height →
      resolvePath dim chunk_height code h fuel ph ch = some s →
      ChunkedNdtree.descend code h true fuel cur ph ch = some (cur.allocatePath s.1, some s) := by
  intro fuel
  induction fuel with
  | zero =>
    intro cur ph ch s hwf hspan hs
    by_cases hlt : h < ch
    · rw [resolvePath_zero_lt code h ph ch hlt] at hs
      cases hs
    · rw [resolvePath_of_not_lt code h 0 ph ch hlt] at hs
      cases hs
      unfold ChunkedNdtree.descend
      simp [hlt, allocatePath]
  | succ n ih =>
    intro cur ph ch s hwf hspan hs
    by_cases hlt : h < ch
    · have hb := resolvePath_bound code h (n + 1) ph ch s hspan hs
      obtain ⟨s1, hrec, hs1⟩ := resolvePath_succ_of_lt code h n ph ch s hlt hs
      subst hs1
      obtain ⟨child, hget, hwfc, -, -⟩ := getChild_allocated cur
        (NdtreeIndex.computeRelativeChildIndex dim code ph ch) hwf
        (hb _ (List.mem_cons_self _ _))
      unfold ChunkedNdtree.descend
      simp only [hlt, if_true]
      by_cases hh : cur.hasChild (NdtreeIndex.computeRelativeChildIndex dim code ph ch) = true
      · simp only [hh, Bool.not_true, Bool.false_eq_true, if_false] at hget ⊢
        simp only [hget]
        rw [ih child (ph - chunk_height) (ch - chunk_height) s1 hwfc (by omega) hrec]
        simp [allocatePath, hh, hget]
      · simp only [hh, Bool.not_false, if_true, Bool.not_eq_true] at hget ⊢
        simp only [hget]
        rw [ih child (ph - chunk_height) (ch - chunk_height) s1 hwfc (by omega) hrec]
        simp [allocatePath, hh, hget]
    · rw [resolvePath_of_not_lt code h (n + 1) ph ch hlt] at hs
      cases hs
      unfold ChunkedNdtree.descend
      simp [hlt, allocatePath]

theorem allocatePath_cons (cur : ChunkedNdtreeNode α dim chunk_height) (i : LinearIndex)
    (rest : ChunkPath) (hwf : cur.wellFormed = true) (hi : i < kNumChildren dim chunk_height) :
    ∃ child, (if !cur.hasChild i then cur.allocateChild i else cur).getChild i = some child ∧
      child.wellFormed = true ∧
      cur.allocatePath (i :: rest) =
        (if !cur.hasChild i then cur.allocateChild i else cur).setHandle i
          (some (child.allocatePath rest)) := by
  obtain ⟨child, hget, hwfc, -, -⟩ := getChild_allocated cur i hwf hi
  refine ⟨child, hget, hwfc, ?_⟩
  simp only [allocatePath, hget]

theorem wellFormed_allocatePath :
    ∀ (path : ChunkPath) (cur : ChunkedNdtreeNode α dim chunk_height),
      cur.wellFormed = true → (∀ i ∈ path, i < kNumChildren dim chunk_height) →
      (cur.allocatePath path).wellFormed = true := by
  intro path
  induction path with
  | nil =>
    intro cur hwf _
    simpa [allocatePath] using hwf
  | cons i rest ih =>
    intro cur hwf hb
    obtain ⟨child, -, hwfc, heq⟩ := allocatePath_cons cur i rest hwf
      (hb i (List.mem_cons_self _ _))
    obtain ⟨-, -, -, hwf1, -⟩ := getChild_allocated cur i hwf (hb i (List.mem_cons_self _ _))
    rw [heq]
    apply wellFormed_setHandle _ _ _ hwf1
    intro x hx
    cases hx
    exact ih child hwfc (fun j hj => hb j (List.mem_cons_of_mem _ hj))

theorem chunkAt_allocatePath_self :
    ∀ (path : ChunkPath) (cur : ChunkedNdtreeNode α dim chunk_height),
      cur.wellFormed = true → (∀ i ∈ path, i < kNumChildren dim chunk_height) →
      ((cur.allocatePath path).chunkAt path).isSome = true := by
  intro path
  induction path with
  | nil =>
    intro cur _ _
    simp [chunkAt]
  | cons i rest ih =>
    intro cur hwf hb
    obtain ⟨child, -, hwfc, heq⟩ := allocatePath_cons cur i rest hwf
      (hb i (List.mem_cons_self _ _))
    obtain ⟨-, -, -, -, hhas⟩ := getChild_allocated cur i hwf (hb i (List.mem_cons_self _ _))
    rw [heq]
    simp only [chunkAt, getChild_setHandle_same _ i _ hhas]
    exact ih child hwfc (fun j hj => hb j (List.mem_cons_of_mem _ hj))

namespace ChunkedNdtree

theorem resolveSlot_isSome (tree : ChunkedNdtree α dim chunk_height) (index : NdtreeIndex dim)
    (hc : 0 < chunk_height) : ∃ s, tree.resolveSlot index = some s := by
  unfold resolveSlot
  apply resolvePath_isSome _ _ hc
  unfold descentFuel
  omega

theorem resolveSlot_bound (tree : ChunkedNdtree α dim chunk_height) (index : NdtreeIndex dim)
    (s : Slot) (hs : tree.resolveSlot index = some s) :
    ∀ i ∈ s.1, i < kNumChildren dim chunk_height :=
  resolvePath_bound _ _ _ _ _ s (by omega) hs

theorem getNodeAndRelativeIndexConst_eq (tree : ChunkedNdtree α dim chunk_height)
    (index : NdtreeIndex dim) (s : Slot) (hs : tree.resolveSlot index = some s) :
    tree.getNodeAndRelativeIndexConst index =
      some (if (tree.root_node_.chunkAt s.1).isSome then some s else none) :=
  descendConst_eq _ _ _ _ _ _ s hs

theorem getNodeAndRelativeIndex_false_eq (tree : ChunkedNdtree α dim chunk_height)
    (index : NdtreeIndex dim) (s : Slot) (hs : tree.resolveSlot index = some s) :
    tree.getNodeAndRelativeIndex index false =
      some (tree, if (tree.root_node_.chunkAt s.1).isSome then some s else none) := by
  unfold getNodeAndRelativeIndex
  simp only []
  rw [descend_false_eq _ _ _ _ _ _ s hs]

theorem getNodeAndRelativeIndex_true_eq (tree : ChunkedNdtree α dim chunk_height)
    (index : NdtreeIndex dim) (s : Slot) (hwf : tree.wellFormed = true)
    (hs : tree.resolveSlot index = some s) :
    tree.getNodeAndRelativeIndex index true =
      some ({ tree with root_node_ := tree.root_node_.allocatePath s.1 }, some s) := by
  unfold getNodeAndRelativeIndex
  simp only []
  rw [descend_true_eq _ _ _ _ _ _ s hwf (by omega) hs]

theorem hasNode_eq (tree : ChunkedNdtree α dim chunk_height)
    (index : NdtreeIndex dim) (s : Slot) (hs : tree.resolveSlot index = some s) :
    tree.hasNode index = some (tree.root_node_.chunkAt s.1).isSome := by
  unfold hasNode
  rw [getNodeAndRelativeIndexConst_eq tree index s hs]
  by_cases hex : (tree.root_node_.chunkAt s.1).isSome = true
  · simp [hex]
  · simp [hex]

theorem allocateNode_eq (tree : ChunkedNdtree α dim chunk_height)
    (index : NdtreeIndex dim) (s : Slot) (hwf : tree.wellFormed = true)
    (hs : tree.resolveSlot index = some s) :
    tree.allocateNode index =
      some { tree with root_node_ := tree.root_node_.allocatePath s.1 } := by
  unfold allocateNode
  rw [getNodeAndRelativeIndex_true_eq tree index s hwf hs]
  rfl

end ChunkedNdtree

end wavemap

/-! ## Lemmas on payload access -/

namespace wavemap

open ChunkedNdtreeNode

variable {α : Type} {dim chunk_height : Nat}

theorem readSlot_nil [Inhabited α] (j : LinearIndex) : readSlot ([] : List α) j = default := by
  simp [readSlot]

theorem readSlot_writeSlot [Inhabited α] :
    ∀ (d : List α) (i j : LinearIndex) (v : α),
      readSlot (writeSlot d i v) j = if j = i then v else readSlot d j := by
  intro d
  induction d with
  | nil =>
    intro i
    induction i with
    | zero =>
      intro j v
      cases j with
      | zero => simp [writeSlot, readSlot]
      | succ j => simp [writeSlot, readSlot]
    | succ i ih =>
      intro j v
      cases j with
      | zero => simp [writeSlot, readSlot]
      | succ j =>
        have h := ih j v
        simp only [readSlot, List.getD_nil] at h
        simp only [writeSlot, readSlot, List.getD_cons_succ, List.getD_nil, h]
        simp
  | cons a t ih =>
    intro i j v
    cases i with
    | zero =>
      cases j with
      | zero => simp [writeSlot, readSlot]
      | succ j => simp [writeSlot, readSlot]
    | succ i =>
      cases j with
      | zero => simp [writeSlot, readSlot]
      | succ j =>
        have h := ih i j v
        simp only [readSlot] at h
        simp only [writeSlot, readSlot, List.getD_cons_succ, h]
        simp

theorem getChild_setData [Inhabited α] (c : ChunkedNdtreeNode α dim chunk_height)
    (r : LinearIndex) (v : α) (i : LinearIndex) : (c.setData r v).getChild i = c.getChild i := by
  cases c with
  | mk d cs =>
    cases cs with
    | none => rfl
    | some cs => rfl

theorem data_setData [Inhabited α] (c : ChunkedNdtreeNode α dim chunk_height)
    (r r1 : LinearIndex) (v : α) :
    (c.setData r v).data r1 = if r1 = r then v else c.data r1 := by
  cases c with
  | mk d cs => exact readSlot_writeSlot d r r1 v

theorem data_setHandle [Inhabited α] (c : ChunkedNdtreeNode α dim chunk_height)
    (i : LinearIndex) (h : Option (ChunkedNdtreeNode α dim chunk_height)) (r : LinearIndex) :
    (c.setHandle i h).data r = c.data r := by
  cases c with
  | mk d cs =>
    cases cs with
    | none => rfl
    | some cs => rfl

theorem loadAt_writeAt [Inhabited α] :
    ∀ (q : ChunkPath) (c : ChunkedNdtreeNode α dim chunk_height) (r : LinearIndex) (v : α)
      (p : ChunkPath) (r1 : LinearIndex),
      (c.writeAt q r v).loadAt p r1 =
        if p = q ∧ r1 = r then (c.loadAt p r1).map (fun _ => v) else c.loadAt p r1 := by
  intro q
  induction q with
  | nil =>
    intro c r v p r1
    cases p with
    | nil =>
      simp only [writeAt, loadAt, chunkAt, Option.map_some', data_setData, true_and]
      by_cases h : r1 = r
      · simp [h]
      · simp [h]
    | cons j prest =>
      simp [writeAt, loadAt, chunkAt, getChild_setData]
  | cons i rest ih =>
    intro c r v p r1
    cases hget : c.getChild i with
    | none =>
      simp only [writeAt, hget]
      by_cases h : p = i :: rest ∧ r1 = r
      · obtain ⟨hp, hr⟩ := h
        subst hp
        simp [loadAt, chunkAt, hget]
      · simp [h]
    | some child =>
      have hhas : c.hasChild i = true := by simp [hasChild, hget]
      simp only [writeAt, hget]
      cases p with
      | nil =>
        simp [loadAt, chunkAt, data_setHandle]
      | cons j prest =>
        by_cases hji : j = i
        · subst hji
          have h1 := ih child r v prest r1
          simp only [loadAt] at h1
          simp only [loadAt, chunkAt, getChild_setHandle_same c j _ hhas, hget, h1]
          simp
        · have hne : i ≠ j := fun h => hji h.symm
          simp only [loadAt, chunkAt, getChild_setHandle_ne c i j _ hne]
          simp [hji]

theorem isSome_chunkAt_writeAt [Inhabited α] :
    ∀ (q : ChunkPath) (c : ChunkedNdtreeNode α dim chunk_height) (r : LinearIndex) (v : α)
      (p : ChunkPath), ((c.writeAt q r v).chunkAt p).isSome = (c.chunkAt p).isSome := by
  intro q c r v p
  have h := loadAt_writeAt q c r v p (r + 1)
  simp only [loadAt] at h
  have h2 : ¬ (p = q ∧ r + 1 = r) := fun hh => Nat.succ_ne_self r hh.2
  simp only [h2, if_false] at h
  cases h1 : (c.writeAt q r v).chunkAt p with
  | none =>
    rw [h1] at h
    cases h3 : c.chunkAt p with
    | none => rfl
    | some x => simp [h3] at h
  | some y =>
    rw [h1] at h
    cases h3 : c.chunkAt p with
    | none => simp [h3] at h
    | some x => rfl

theorem writeAt_dangling [Inhabited α] :
    ∀ (q : ChunkPath) (c : ChunkedNdtreeNode α dim chunk_height) (r : LinearIndex) (v : α),
      c.chunkAt q = none → c.writeAt q r v = c := by
  intro q
  induction q with
  | nil =>
    intro c r v h
    simp [chunkAt] at h
  | cons i rest ih =>
    intro c r v h
    cases hget : c.getChild i with
    | none => simp [writeAt, hget]
    | some child =>
      simp only [chunkAt, hget] at h
      simp only [writeAt, hget, ih child r v h]
      exact setHandle_getChild_self c child i hget

theorem descendConst_some (code : MortonCode) (h : Int) :
    ∀ (fuel : Nat) (cur : ChunkedNdtreeNode α dim chunk_height) (ph ch : Int) (s : Slot),
      ChunkedNdtree.descendConst code h fuel cur ph ch = some (some s) →
      resolvePath dim chunk_height code h fuel ph ch = some s := by
  intro fuel
  induction fuel with
  | zero =>
    intro cur ph ch s hs
    unfold ChunkedNdtree.descendConst at hs
    by_cases hlt : h < ch
    · simp [hlt] at hs
    · rw [resolvePath_of_not_lt code h 0 ph ch hlt]
      simpa [hlt] using hs
  | succ n ih =>
    intro cur ph ch s hs
    unfold ChunkedNdtree.descendConst at hs
    by_cases hlt : h < ch
    · simp only [hlt, if_true] at hs
      cases hget : cur.getChild (NdtreeIndex.computeRelativeChildIndex dim code ph ch) with
      | none => simp [hasChild, hget] at hs
      | some child =>
        simp only [hasChild, hget, Option.isSome_some, Bool.not_true, Bool.false_eq_true,
          if_false] at hs
        cases hrec : ChunkedNdtree.descendConst code h n child (ph - chunk_height)
            (ch - chunk_height) with
        | none => simp [hrec] at hs
        | some found =>
          cases found with
          | none => simp [hrec] at hs
          | some s1 =>
            simp [hrec] at hs
            have h1 := ih child _ _ s1 hrec
            unfold resolvePath
            simp [hlt, h1, hs]
    · rw [resolvePath_of_not_lt code h (n + 1) ph ch hlt]
      simpa [hlt] using hs

namespace ChunkedNdtree

theorem hasNode_true_resolveSlot (tree : ChunkedNdtree α dim chunk_height)
    (index : NdtreeIndex dim) (h : tree.hasNode index = some true) :
    ∃ s, tree.resolveSlot index = some s ∧ (tree.root_node_.chunkAt s.1).isSome = true := by
  unfold hasNode at h
  cases hres : tree.getNodeAndRelativeIndexConst index with
  | none => simp [hres] at h
  | some found =>
    cases found with
    | none => simp [hres] at h
    | some s =>
      have hs : tree.resolveSlot index = some s := descendConst_some _ _ _ _ _ _ s hres
      refine ⟨s, hs, ?_⟩
      rw [getNodeAndRelativeIndexConst_eq tree index s hs] at hres
      by_cases hex : (tree.root_node_.chunkAt s.1).isSome = true
      · exact hex
      · simp [hex] at hres

theorem readNode_eq [Inhabited α] (tree : ChunkedNdtree α dim chunk_height)
    (index : NdtreeIndex dim) (s : Slot) (hs : tree.resolveSlot index = some s) :
    tree.readNode index = some (tree.root_node_.loadAt s.1 s.2) := by
  unfold readNode getNodeDataConst
  rw [getNodeAndRelativeIndexConst_eq tree index s hs]
  cases hex : tree.root_node_.chunkAt s.1 with
  | none => simp [loadAt, hex]
  | some c => simp [loadAt, load, hex]

theorem resetNode_eq [Inhabited α] (tree : ChunkedNdtree α dim chunk_height)
    (index : NdtreeIndex dim) (s : Slot) (hs : tree.resolveSlot index = some s) :
    tree.resetNode index =
      some { tree with root_node_ := tree.root_node_.writeAt s.1 s.2 default } := by
  unfold resetNode
  rw [getNodeAndRelativeIndex_false_eq tree index s hs]
  cases hex : tree.root_node_.chunkAt s.1 with
  | none =>
    simp only [Option.isSome_none, Bool.false_eq_true, if_false]
    rw [writeAt_dangling s.1 tree.root_node_ s.2 default hex]
  | some c => simp

end ChunkedNdtree

end wavemap

/-! ## Lemmas on the preorder generator -/

namespace wavemap

namespace ChunkedNdtreeNode

variable {α : Type} {dim chunk_height : Nat}

mutual
theorem length_preorder :
    ∀ c : ChunkedNdtreeNode α dim chunk_height, (preorder c).length = numChunks c
  | mk _ none => by simp [preorder, numChunks]
  | mk _ (some cs) => by
    simp only [preorder, numChunks, List.length_cons, length_preorderChildren 0 cs]
    omega
theorem length_preorderChildren :
    ∀ (i : Nat) (cs : List (Option (ChunkedNdtreeNode α dim chunk_height))),
      (preorderChildren i cs).length = numChunksChildren cs
  | _, [] => by simp [preorderChildren, numChunksChildren]
  | i, none :: t => by
    simp only [preorderChildren, numChunksChildren, length_preorderChildren (i + 1) t]
  | i, some c :: t => by
    simp only [preorderChildren, numChunksChildren, List.length_append, List.length_map,
      length_preorder c, length_preorderChildren (i + 1) t]
end

mutual
theorem mem_preorder :
    ∀ (c : ChunkedNdtreeNode α dim chunk_height) (p : ChunkPath),
      p ∈ preorder c ↔ (chunkAt p c).isSome = true
  | mk _ none, p => by
    cases p with
    | nil => simp [preorder, chunkAt]
    | cons j rest => simp [preorder, chunkAt, getChild]
  | mk _ (some cs), p => by
    cases p with
    | nil => simp [preorder, chunkAt]
    | cons j rest =>
      simp only [preorder, List.mem_cons, mem_preorderChildren 0 cs (j :: rest), chunkAt,
        getChild]
      constructor
      · rintro (h | ⟨k, rest1, child, hp, hget, hex⟩)
        · cases h
        · simp only [Nat.zero_add, List.cons.injEq] at hp
          obtain ⟨hj, hr⟩ := hp
          subst hj hr
          simp only [hget]
          exact hex
      · intro h
        right
        cases hget : cs.getD j none with
        | none =>
          simp only [hget] at h
          cases h
        | some child =>
          simp only [hget] at h
          exact ⟨j, rest, child, by simp, hget, h⟩
theorem mem_preorderChildren :
    ∀ (i : Nat) (cs : List (Option (ChunkedNdtreeNode α dim chunk_height))) (p : ChunkPath),
      p ∈ preorderChildren i cs ↔
        ∃ k rest child, p = (i + k) :: rest ∧ cs.getD k none = some child ∧
          (chunkAt rest child).isSome = true
  | _, [], p => by simp [preorderChildren]
  | i, none :: t, p => by
    simp only [preorderChildren, mem_preorderChildren (i + 1) t p]
    constructor
    · rintro ⟨k, rest, child, hp, hget, hex⟩
      exact ⟨k + 1, rest, child, by rw [hp]; congr 1; omega, by simpa using hget, hex⟩
    · rintro ⟨k, rest, child, hp, hget, hex⟩
      cases k with
      | zero => simp at hget
      | succ k => exact ⟨k, rest, child, by rw [hp]; congr 1; omega, by simpa using hget, hex⟩
  | i, some c :: t, p => by
    simp only [preorderChildren, List.mem_append, List.mem_map,
      mem_preorderChildren (i + 1) t p]
    constructor
    · rintro (⟨q, hq, hp⟩ | ⟨k, rest, child, hp, hget, hex⟩)
      · exact ⟨0, q, c, by simpa using hp.symm, by simp, (mem_preorder c q).mp hq⟩
      · exact ⟨k + 1, rest, child, by rw [hp]; congr 1; omega, by simpa using hget, hex⟩
    · rintro ⟨k, rest, child, hp, hget, hex⟩
      cases k with
      | zero =>
        simp only [List.getD_cons_zero, Option.some.injEq] at hget
        subst hget
        exact Or.inl ⟨rest, (mem_preorder c rest).mpr hex, by simpa using hp.symm⟩
      | succ k =>
        exact Or.inr ⟨k, rest, child, by rw [hp]; congr 1; omega, by simpa using hget, hex⟩
end

mutual
theorem nodup_preorder :
    ∀ c : ChunkedNdtreeNode α dim chunk_height, (preorder c).Nodup
  | mk _ none => by simp [preorder]
  | mk _ (some cs) => by
    simp only [preorder, List.nodup_cons]
    refine ⟨?_, nodup_preorderChildren 0 cs⟩
    intro h
    obtain ⟨k, rest, child, hp, -, -⟩ := (mem_preorderChildren 0 cs []).mp h
    cases hp
theorem nodup_preorderChildren :
    ∀ (i : Nat) (cs : List (Option (ChunkedNdtreeNode α dim chunk_height))),
      (preorderChildren i cs).Nodup
  | _, [] => by simp [preorderChildren]
  | i, none :: t => by
    simp only [preorderChildren]
    exact nodup_preorderChildren (i + 1) t
  | i, some c :: t => by
    simp only [preorderChildren]
    apply List.Nodup.append
    · exact (nodup_preorder c).map (fun a b hab => by simpa using hab)
    · exact nodup_preorderChildren (i + 1) t
    · intro p hp1 hp2
      obtain ⟨q, -, hq⟩ := List.mem_map.mp hp1
      obtain ⟨k, rest, child, hp, -, -⟩ := (mem_preorderChildren (i + 1) t p).mp hp2
      rw [← hq] at hp
      simp only [List.cons.injEq] at hp
      omega
end

end ChunkedNdtreeNode

end wavemap

/-! ## Lemmas on single-level chunks -/

namespace wavemap

theorem naiveChildIndices_succ (dim : Nat) (code : MortonCode) (h : Int) (fuel : Nat)
    (ph : Int) :
    naiveChildIndices dim code h (fuel + 1) ph =
      if h < ph then
        (code / 2 ^ (dim * (ph - 1).toNat)) % 2 ^ dim ::
          naiveChildIndices dim code h fuel (ph - 1)
      else [] := rfl

theorem naiveChildIndices_of_not_lt (dim : Nat) (code : MortonCode) (h : Int) (fuel : Nat)
    (ph : Int) (hlt : ¬ h < ph) : naiveChildIndices dim code h fuel ph = [] := by
  cases fuel with
  | zero => rfl
  | succ n => rw [naiveChildIndices_succ]; simp [hlt]

theorem naiveChildIndices_fuel (dim : Nat) (code : MortonCode) (h : Int) :
    ∀ (f1 f2 : Nat) (ph : Int), (ph - h).toNat ≤ f1 → (ph - h).toNat ≤ f2 →
      naiveChildIndices dim code h f1 ph = naiveChildIndices dim code h f2 ph := by
  intro f1
  induction f1 with
  | zero =>
    intro f2 ph h1 _
    rw [naiveChildIndices_of_not_lt dim code h 0 ph (by omega),
      naiveChildIndices_of_not_lt dim code h f2 ph (by omega)]
  | succ n ih =>
    intro f2 ph h1 h2
    by_cases hlt : h < ph
    · cases f2 with
      | zero => omega
      | succ m =>
        rw [naiveChildIndices_succ, naiveChildIndices_succ]
        simp only [hlt, if_true]
        rw [ih m (ph - 1) (by omega) (by omega)]
    · rw [naiveChildIndices_of_not_lt dim code h (n + 1) ph hlt,
        naiveChildIndices_of_not_lt dim code h f2 ph hlt]

theorem computeRelativeChildIndex_one (dim : Nat) (code : MortonCode) (ph : Int) :
    NdtreeIndex.computeRelativeChildIndex dim code ph (ph - 1) =
      (code / 2 ^ (dim * (ph - 1).toNat)) % 2 ^ dim := by
  have hsp : (ph - (ph - 1)).toNat = 1 := by omega
  simp [NdtreeIndex.computeRelativeChildIndex, hsp]

theorem resolvePath_one_eq_naive (dim : Nat) (code : MortonCode) (h : Int) :
    ∀ (fuel : Nat) (ph ch : Int) (s : Slot), ch = ph - 1 → h < ph →
      resolvePath dim 1 code h fuel ph ch = some s →
      s.1 ++ [s.2] = naiveChildIndices dim code h (fuel + 1) ph := by
  intro fuel
  induction fuel with
  | zero =>
    intro ph ch s hspan hph hs
    subst hspan
    by_cases hlt : h < ph - 1
    · rw [resolvePath_zero_lt code h ph _ hlt] at hs
      cases hs
    · rw [resolvePath_of_not_lt code h 0 ph _ hlt] at hs
      cases hs
      have hch : h = ph - 1 := by omega
      subst hch
      rw [naiveChildIndices_succ, computeRelativeChildIndex_one]
      simp [hph, naiveChildIndices]
  | succ n ih =>
    intro ph ch s hspan hph hs
    subst hspan
    by_cases hlt : h < ph - 1
    · obtain ⟨s1, hrec, hs1⟩ := resolvePath_succ_of_lt code h n ph _ s hlt hs
      subst hs1
      have hcast : ph - ((1 : Nat) : Int) = ph - 1 := by simp
      rw [hcast] at hrec
      have h1 := ih (ph - 1) (ph - 1 - ((1 : Nat) : Int)) s1 (by simp) hlt hrec
      rw [naiveChildIndices_succ dim code h (n + 1) ph, computeRelativeChildIndex_one]
      simp only [hph, if_true, List.cons_append, h1]
    · rw [resolvePath_of_not_lt code h (n + 1) ph _ hlt] at hs
      cases hs
      have hch : h = ph - 1 := by omega
      subst hch
      rw [naiveChildIndices_succ, computeRelativeChildIndex_one,
        naiveChildIndices_of_not_lt dim code (ph - 1) (n + 1) (ph - 1) (by omega)]
      simp [hph]

end wavemap

/-! ## Lemmas on pruning -/

namespace wavemap

namespace ChunkedNdtreeNode

variable {α : Type} {dim chunk_height : Nat}

mutual
theorem induct {motive : ChunkedNdtreeNode α dim chunk_height → Prop}
    (leaf : ∀ d, motive (mk d none))
    (inner : ∀ d cs, (∀ c, some c ∈ cs → motive c) → motive (mk d (some cs))) :
    ∀ c, motive c
  | mk d none => leaf d
  | mk d (some cs) => inner d cs (induct_children leaf inner cs)
theorem induct_children {motive : ChunkedNdtreeNode α dim chunk_height → Prop}
    (leaf : ∀ d, motive (mk d none))
    (inner : ∀ d cs, (∀ c, some c ∈ cs → motive c) → motive (mk d (some cs))) :
    ∀ (cs : List (Option (ChunkedNdtreeNode α dim chunk_height))) (c), some c ∈ cs → motive c
  | [], _, h => by cases h
  | none :: t, c, h => induct_children leaf inner t c (by simpa using h)
  | some x :: t, c, h => by
    by_cases hx : c = x
    · subst hx
      exact induct leaf inner c
    · exact induct_children leaf inner t c (by
        rcases List.mem_cons.mp h with h1 | h1
        · exact absurd (Option.some.inj h1) hx
        · exact h1)
end

theorem pruneChildren_eq_map [Inhabited α] [DecidableEq α]
    (cs : List (Option (ChunkedNdtreeNode α dim chunk_height))) :
    pruneChildren cs = cs.map (Option.map pruneSubtree) := by
  induction cs with
  | nil => simp [pruneChildren]
  | cons h t ih =>
    cases h with
    | none => simp [pruneChildren, ih]
    | some c => simp [pruneChildren, ih]

theorem getD_append_length {β : Type} (pre : List (Option β)) (a : Option β)
    (t : List (Option β)) : (pre ++ a :: t).getD pre.length none = a := by
  induction pre with
  | nil => rfl
  | cons x xs ih =>
    simp only [List.cons_append, List.length_cons, List.getD_cons_succ]
    exact ih

theorem pruneScan_fold [Inhabited α] [DecidableEq α] (d : List α) :
    ∀ (t pre : List (Option (ChunkedNdtreeNode α dim chunk_height))) (flag : Bool),
      (List.range' pre.length t.length).foldl pruneScanStep (mk d (some (pre ++ t)), flag) =
        (mk d (some (pre ++ t.map keepHandle)), flag || t.any nonEmptyHandle) := by
  intro t
  induction t with
  | nil =>
    intro pre flag
    simp [List.range']
  | cons a t ih =>
    intro pre flag
    have hget : (mk d (some (pre ++ a :: t))).getChild pre.length = a :=
      getD_append_length pre a t
    have hstep : pruneScanStep (mk d (some (pre ++ a :: t)), flag) pre.length =
        (mk d (some ((pre ++ [keepHandle a]) ++ t)), flag || nonEmptyHandle a) := by
      unfold pruneScanStep
      simp only [hget]
      cases a with
      | none => simp [keepHandle, nonEmptyHandle]
      | some child =>
        by_cases he : child.empty = true
        · simp [he, keepHandle, nonEmptyHandle, deleteChild, setHandle]
        · simp [he, keepHandle, nonEmptyHandle]
    simp only [List.length_cons, List.range'_succ, List.foldl_cons, hstep]
    have h2 := ih (pre ++ [keepHandle a]) (flag || nonEmptyHandle a)
    simp only [List.length_append, List.length_singleton] at h2
    rw [h2]
    simp [Bool.or_assoc]

theorem pruneNode_leaf [Inhabited α] [DecidableEq α] (d : List α) :
    pruneNode (mk d none : ChunkedNdtreeNode α dim chunk_height) = mk d none := by
  simp [pruneNode, hasChildrenArray]

theorem pruneNode_inner [Inhabited α] [DecidableEq α] (d : List α)
    (cs : List (Option (ChunkedNdtreeNode α dim chunk_height)))
    (hlen : cs.length = kNumChildren dim chunk_height) :
    pruneNode (mk d (some cs)) =
      if cs.any nonEmptyHandle then mk d (some (cs.map keepHandle)) else mk d none := by
  have h := pruneScan_fold d cs [] false
  simp only [List.length_nil, List.nil_append, Bool.false_or] at h
  unfold pruneNode
  rw [List.range_eq_range', ← hlen, h]
  by_cases hany : cs.any nonEmptyHandle = true
  · simp [hasChildrenArray, hany]
  · simp [hasChildrenArray, hany, deleteChildrenArray]

theorem pruneSubtree_leaf [Inhabited α] [DecidableEq α] (d : List α) :
    pruneSubtree (mk d none : ChunkedNdtreeNode α dim chunk_height) = mk d none := by
  rw [pruneSubtree, pruneNode_leaf]

theorem pruneSubtree_inner [Inhabited α] [DecidableEq α] (d : List α)
    (cs : List (Option (ChunkedNdtreeNode α dim chunk_height)))
    (hlen : cs.length = kNumChildren dim chunk_height) :
    pruneSubtree (mk d (some cs)) =
      if (cs.map (Option.map pruneSubtree)).any nonEmptyHandle then
        mk d (some ((cs.map (Option.map pruneSubtree)).map keepHandle))
      else mk d none := by
  rw [pruneSubtree, pruneChildren_eq_map, pruneNode_inner d _ (by simpa using hlen)]

theorem keepHandle_keepHandle [Inhabited α] [DecidableEq α]
    (h : Option (ChunkedNdtreeNode α dim chunk_height)) :
    keepHandle (keepHandle h) = keepHandle h := by
  cases h with
  | none => rfl
  | some c =>
    by_cases he : c.empty = true
    · simp [keepHandle, he]
    · simp [keepHandle, he]

theorem nonEmptyHandle_keepHandle [Inhabited α] [DecidableEq α]
    (h : Option (ChunkedNdtreeNode α dim chunk_height)) :
    nonEmptyHandle (keepHandle h) = nonEmptyHandle h := by
  cases h with
  | none => rfl
  | some c =>
    by_cases he : c.empty = true
    · simp [keepHandle, nonEmptyHandle, he]
    · simp [keepHandle, nonEmptyHandle, he]

theorem keepHandle_eq_some [Inhabited α] [DecidableEq α]
    (h : Option (ChunkedNdtreeNode α dim chunk_height)) (x : ChunkedNdtreeNode α dim chunk_height) :
    keepHandle h = some x ↔ h = some x ∧ x.empty = false := by
  cases h with
  | none => simp [keepHandle]
  | some c =>
    by_cases he : c.empty = true
    · simp only [keepHandle, he, if_true]
      constructor
      · intro h1
        cases h1
      · rintro ⟨h1, h2⟩
        cases h1
        rw [he] at h2
        cases h2
    · simp only [keepHandle, he, Bool.false_eq_true, if_false, Option.some.injEq]
      constructor
      · intro h1
        subst h1
        exact ⟨rfl, by simpa using he⟩
      · exact fun h1 => h1.1

theorem map_keepHandle_idem [Inhabited α] [DecidableEq α]
    (l : List (Option (ChunkedNdtreeNode α dim chunk_height))) :
    (l.map keepHandle).map keepHandle = l.map keepHandle := by
  rw [List.map_map]
  apply List.map_congr_left
  intro h _
  exact keepHandle_keepHandle h

theorem mem_pruned_handles [Inhabited α] [DecidableEq α]
    (cs : List (Option (ChunkedNdtreeNode α dim chunk_height)))
    (x : ChunkedNdtreeNode α dim chunk_height) :
    some x ∈ (cs.map (Option.map pruneSubtree)).map keepHandle ↔
      ∃ c0, some c0 ∈ cs ∧ x = pruneSubtree c0 ∧ x.empty = false := by
  simp only [List.mem_map]
  constructor
  · rintro ⟨h1, ⟨h0, hmem, hh0⟩, hk⟩
    rw [keepHandle_eq_some] at hk
    obtain ⟨hk1, hk2⟩ := hk
    subst hk1
    cases h0 with
    | none => simp at hh0
    | some c0 =>
      simp only [Option.map_some', Option.some.injEq] at hh0
      exact ⟨c0, hmem, hh0.symm, hk2⟩
  · rintro ⟨c0, hmem, hx, he⟩
    refine ⟨some x, ⟨some c0, hmem, by simp [hx]⟩, ?_⟩
    rw [keepHandle_eq_some]
    exact ⟨rfl, he⟩

theorem wellFormed_pruneSubtree [Inhabited α] [DecidableEq α] :
    ∀ c : ChunkedNdtreeNode α dim chunk_height,
      c.wellFormed = true → (pruneSubtree c).wellFormed = true := by
  apply induct
  · intro d _
    rw [pruneSubtree_leaf]
    simp [wellFormed]
  · intro d cs ih hwf
    rw [wellFormed_mk_some] at hwf
    rw [pruneSubtree_inner d cs hwf.1]
    split
    · rw [wellFormed_mk_some]
      refine ⟨by simpa using hwf.1, ?_⟩
      intro x hx
      obtain ⟨c0, hmem, hx0, -⟩ := (mem_pruned_handles cs x).mp hx
      subst hx0
      exact ih c0 hmem (hwf.2 c0 hmem)
    · simp [wellFormed]

theorem pruneSubtree_idem [Inhabited α] [DecidableEq α] :
    ∀ c : ChunkedNdtreeNode α dim chunk_height,
      c.wellFormed = true → pruneSubtree (pruneSubtree c) = pruneSubtree c := by
  apply induct
  · intro d _
    rw [pruneSubtree_leaf, pruneSubtree_leaf]
  · intro d cs ih hwf
    rw [wellFormed_mk_some] at hwf
    rw [pruneSubtree_inner d cs hwf.1]
    by_cases hany : (cs.map (Option.map pruneSubtree)).any nonEmptyHandle = true
    · simp only [hany, if_true]
      have hfix : ((cs.map (Option.map pruneSubtree)).map keepHandle).map
          (Option.map pruneSubtree) = (cs.map (Option.map pruneSubtree)).map keepHandle := by
        refine Eq.trans (List.map_congr_left ?_) (List.map_id _)
        intro h hh
        cases h with
        | none => rfl
        | some x =>
          obtain ⟨c0, hmem, hx0, -⟩ := (mem_pruned_handles cs x).mp hh
          subst hx0
          simp only [Option.map_some', ih c0 hmem (hwf.2 c0 hmem), id]
      rw [pruneSubtree_inner d _ (by simpa using hwf.1), hfix]
      have hany2 : ((cs.map (Option.map pruneSubtree)).map keepHandle).any nonEmptyHandle
          = true := by
        rw [List.any_map]
        have : (nonEmptyHandle ∘ keepHandle :
            Option (ChunkedNdtreeNode α dim chunk_height) → Bool) = nonEmptyHandle := by
          funext h
          exact nonEmptyHandle_keepHandle h
        rw [this]
        exact hany
      simp only [hany2, if_true]
      rw [map_keepHandle_idem]
    · simp only [hany, Bool.false_eq_true, if_false]
      exact pruneSubtree_leaf d

theorem numChunksChildren_eq_sum
    (cs : List (Option (ChunkedNdtreeNode α dim chunk_height))) :
    numChunksChildren cs = ((cs.filterMap id).map numChunks).sum := by
  induction cs with
  | nil => simp [numChunksChildren]
  | cons h t ih =>
    cases h with
    | none => simp [numChunksChildren, ih]
    | some c => simp [numChunksChildren, ih]

theorem memoryUsageRecChildren_eq_sum (nb cb : Nat)
    (cs : List (Option (ChunkedNdtreeNode α dim chunk_height))) :
    memoryUsageRecChildren nb cb cs = ((cs.filterMap id).map (memoryUsageRec nb cb)).sum := by
  induction cs with
  | nil => simp [memoryUsageRecChildren]
  | cons h t ih =>
    cases h with
    | none => simp [memoryUsageRecChildren, ih]
    | some c => simp [memoryUsageRecChildren, ih]

theorem pushChild_fold (d : List α) :
    ∀ (t pre : List (Option (ChunkedNdtreeNode α dim chunk_height)))
      (stack : List (ChunkedNdtreeNode α dim chunk_height)),
      (List.range' pre.length t.length).foldl (pushChild (mk d (some (pre ++ t)))) stack =
        (t.filterMap id).reverse ++ stack := by
  intro t
  induction t with
  | nil =>
    intro pre stack
    simp [List.range']
  | cons a t ih =>
    intro pre stack
    have hget : (mk d (some (pre ++ a :: t))).getChild pre.length = a :=
      getD_append_length pre a t
    have hstep : pushChild (mk d (some (pre ++ a :: t))) stack pre.length =
        ([a].filterMap id).reverse ++ stack := by
      unfold pushChild
      simp only [hasChild, hget]
      cases a with
      | none => simp
      | some child => simp
    simp only [List.length_cons, List.range'_succ, List.foldl_cons, hstep]
    have h2 := ih (pre ++ [a]) (([a].filterMap id).reverse ++ stack)
    simp only [List.length_append, List.length_singleton, List.append_assoc,
      List.singleton_append] at h2
    rw [h2]
    cases a with
    | none => simp
    | some child => simp

theorem memoryUsageLoop_eq (nb cb : Nat) :
    ∀ (fuel : Nat) (stack : List (ChunkedNdtreeNode α dim chunk_height)) (acc : Nat),
      (∀ c ∈ stack, c.wellFormed = true) → (stack.map numChunks).sum ≤ fuel →
      memoryUsageLoop nb cb fuel stack acc =
        some (acc + (stack.map (memoryUsageRec nb cb)).sum) := by
  intro fuel
  induction fuel with
  | zero =>
    intro stack acc hwf hf
    cases stack with
    | nil => simp [memoryUsageLoop]
    | cons node rest =>
      cases node with
      | mk d cs =>
        cases cs with
        | none => simp [numChunks] at hf
        | some cs =>
          simp only [List.map_cons, List.sum_cons, numChunks] at hf
          omega
  | succ n ih =>
    intro stack acc hwf hf
    cases stack with
    | nil => simp [memoryUsageLoop]
    | cons node rest =>
      cases node with
      | mk d cs =>
        cases cs with
        | none =>
          simp only [memoryUsageLoop, hasChildrenArray, Option.isSome_none, Bool.false_eq_true,
            if_false]
          rw [ih rest _ (fun c hc => hwf c (List.mem_cons_of_mem _ hc))
            (by simp only [List.map_cons, List.sum_cons, numChunks] at hf; omega)]
          simp only [getMemoryUsage, hasChildrenArray, Option.isSome_none, Bool.false_eq_true,
            if_false, List.map_cons, List.sum_cons, memoryUsageRec]
          congr 1
          omega
        | some cs =>
          have hwfn := hwf _ (List.mem_cons_self _ _)
          rw [wellFormed_mk_some] at hwfn
          have hpush := pushChild_fold d cs [] rest
          simp only [List.length_nil, List.nil_append] at hpush
          simp only [memoryUsageLoop, hasChildrenArray, Option.isSome_some, if_true]
          rw [List.range_eq_range', ← hwfn.1, hpush]
          simp only [List.map_cons, List.sum_cons, numChunks, numChunksChildren_eq_sum] at hf
          rw [ih _ _ ?_ ?_]
          · simp only [getMemoryUsage, hasChildrenArray, Option.isSome_some, if_true,
              List.map_cons, List.sum_cons, memoryUsageRec, memoryUsageRecChildren_eq_sum,
              List.map_append, List.sum_append, List.map_reverse, List.sum_reverse]
            congr 1
            omega
          · intro c hc
            rcases List.mem_append.mp hc with h1 | h1
            · rw [List.mem_reverse, List.mem_filterMap] at h1
              obtain ⟨h0, hmem, hh0⟩ := h1
              simp only [id] at hh0
              subst hh0
              exact hwfn.2 c hmem
            · exact hwf c (List.mem_cons_of_mem _ h1)
          · simp only [List.map_append, List.sum_append, List.map_reverse, List.sum_reverse]
            omega

theorem getD_map_none {β γ : Type} (f : Option β → Option γ) (hf : f none = none)
    (l : List (Option β)) (i : Nat) : (l.map f).getD i none = f (l.getD i none) := by
  induction l generalizing i with
  | nil => simp [hf]
  | cons a t ih =>
    cases i with
    | zero => rfl
    | succ n =>
      simp only [List.map_cons, List.getD_cons_succ]
      exact ih n

theorem mem_of_getD_eq_some {β : Type} (l : List (Option β)) (i : Nat) (x : β)
    (h : l.getD i none = some x) : some x ∈ l :=
  (getD_none_eq_some l i x h).2

theorem pruneSubtree_data [Inhabited α] [DecidableEq α]
    (c : ChunkedNdtreeNode α dim chunk_height) (hwf : c.wellFormed = true) (r : LinearIndex) :
    (pruneSubtree c).data r = c.data r := by
  cases c with
  | mk d cs =>
    cases cs with
    | none => rw [pruneSubtree_leaf]
    | some l =>
      rw [wellFormed_mk_some] at hwf
      rw [pruneSubtree_inner d l hwf.1]
      split <;> rfl

theorem empty_eq_false_of_data [Inhabited α] [DecidableEq α]
    (c : ChunkedNdtreeNode α dim chunk_height) (r : LinearIndex) (h : c.data r ≠ default) :
    c.empty = false := by
  cases c with
  | mk d cs =>
    simp only [data, readSlot] at h
    simp only [empty, Bool.and_eq_false_imp, List.all_eq_true, decide_eq_true_eq]
    intro hall
    exfalso
    apply h
    rw [List.getD_eq_getElem?_getD]
    cases hget : d[r]? with
    | none => rfl
    | some x => exact hall x (List.getElem?_mem hget)

theorem empty_eq_false_of_chunkAt [Inhabited α] [DecidableEq α]
    (c : ChunkedNdtreeNode α dim chunk_height) (j : LinearIndex) (rest : ChunkPath)
    (h : (c.chunkAt (j :: rest)).isSome = true) : c.empty = false := by
  cases c with
  | mk d cs =>
    cases cs with
    | none => simp [chunkAt, getChild] at h
    | some l => simp [empty]

theorem getChild_pruneSubtree [Inhabited α] [DecidableEq α] (d : List α)
    (l : List (Option (ChunkedNdtreeNode α dim chunk_height)))
    (hlen : l.length = kNumChildren dim chunk_height) (i : LinearIndex) :
    (pruneSubtree (mk d (some l))).getChild i =
      if (l.map (Option.map pruneSubtree)).any nonEmptyHandle then
        keepHandle ((l.getD i none).map pruneSubtree)
      else none := by
  rw [pruneSubtree_inner d l hlen]
  split
  · simp only [getChild]
    rw [getD_map_none keepHandle rfl, getD_map_none (Option.map pruneSubtree) rfl]
  · rfl

theorem chunkAt_pruneSubtree_some [Inhabited α] [DecidableEq α] :
    ∀ (p : ChunkPath) (c x : ChunkedNdtreeNode α dim chunk_height), c.wellFormed = true →
      (pruneSubtree c).chunkAt p = some x →
      ∃ c0, c.chunkAt p = some c0 ∧ c0.wellFormed = true ∧ x = pruneSubtree c0 := by
  intro p
  induction p with
  | nil =>
    intro c x hwf h
    simp only [chunkAt, Option.some.injEq] at h
    exact ⟨c, rfl, hwf, h.symm⟩
  | cons i rest ih =>
    intro c x hwf h
    cases c with
    | mk d cs =>
      cases cs with
      | none =>
        rw [pruneSubtree_leaf] at h
        simp [chunkAt, getChild] at h
      | some l =>
        have hwf1 := hwf
        rw [wellFormed_mk_some] at hwf1
        simp only [chunkAt, getChild_pruneSubtree d l hwf1.1] at h
        by_cases hany : (l.map (Option.map pruneSubtree)).any nonEmptyHandle = true
        · simp only [hany, if_true] at h
          cases hk : keepHandle ((l.getD i none).map pruneSubtree) with
          | none =>
            simp only [hk] at h
            cases h
          | some y =>
            simp only [hk] at h
            rw [keepHandle_eq_some] at hk
            cases hget : l.getD i none with
            | none =>
              simp only [hget, Option.map_none'] at hk
              cases hk.1
            | some c1 =>
              simp only [hget, Option.map_some', Option.some.injEq] at hk
              obtain ⟨hy, -⟩ := hk
              subst hy
              have hwfc : c1.wellFormed = true := hwf1.2 c1 (mem_of_getD_eq_some l i c1 hget)
              obtain ⟨c0, hc0, hwf0, hx⟩ := ih c1 x hwfc h
              refine ⟨c0, ?_, hwf0, hx⟩
              simp only [chunkAt, getChild, hget]
              exact hc0
        · simp only [hany, Bool.false_eq_true, if_false] at h
          cases h

theorem chunkAt_pruneSubtree_of_nonEmpty [Inhabited α] [DecidableEq α] :
    ∀ (p : ChunkPath) (c c0 : ChunkedNdtreeNode α dim chunk_height), c.wellFormed = true →
      c.chunkAt p = some c0 → (p ≠ [] → (pruneSubtree c0).empty = false) →
      (pruneSubtree c).chunkAt p = some (pruneSubtree c0) := by
  intro p
  induction p with
  | nil =>
    intro c c0 _ h _
    simp only [chunkAt, Option.some.injEq] at h
    subst h
    rfl
  | cons i rest ih =>
    intro c c0 hwf h hne
    cases c with
    | mk d cs =>
      cases cs with
      | none => simp [chunkAt, getChild] at h
      | some l =>
        have hwf1 := hwf
        rw [wellFormed_mk_some] at hwf1
        cases hget : l.getD i none with
        | none =>
          simp only [chunkAt, getChild, hget] at h
          cases h
        | some c1 =>
          simp only [chunkAt, getChild, hget] at h
          have hwfc : c1.wellFormed = true := hwf1.2 c1 (mem_of_getD_eq_some l i c1 hget)
          have hrec := ih c1 c0 hwfc h (fun _ => hne (by simp))
          have hne1 : (pruneSubtree c1).empty = false := by
            cases rest with
            | nil =>
              simp only [chunkAt, Option.some.injEq] at h
              subst h
              exact hne (by simp)
            | cons j r =>
              exact empty_eq_false_of_chunkAt _ j r (by rw [hrec]; rfl)
          have hany : (l.map (Option.map pruneSubtree)).any nonEmptyHandle = true := by
            rw [List.any_eq_true]
            refine ⟨some (pruneSubtree c1), ?_, by simp [nonEmptyHandle, hne1]⟩
            exact List.mem_map.mpr ⟨some c1, mem_of_getD_eq_some l i c1 hget, rfl⟩
          simp only [chunkAt, getChild_pruneSubtree d l hwf1.1, hany, if_true, hget,
            Option.map_some', keepHandle, hne1, Bool.false_eq_true, if_false]
          exact hrec

theorem chunkAt_append_none :
    ∀ (p r : ChunkPath) (c : ChunkedNdtreeNode α dim chunk_height),
      c.chunkAt p = none → c.chunkAt (p ++ r) = none := by
  intro p
  induction p with
  | nil =>
    intro r c h
    simp [chunkAt] at h
  | cons i rest ih =>
    intro r c h
    cases hget : c.getChild i with
    | none => simp [chunkAt, hget]
    | some child =>
      simp only [chunkAt, hget] at h
      simp only [List.cons_append, chunkAt, hget]
      exact ih r child h

theorem chunkAt_append :
    ∀ (p r : ChunkPath) (c : ChunkedNdtreeNode α dim chunk_height),
      c.chunkAt (p ++ r) = (c.chunkAt p).bind (chunkAt r) := by
  intro p
  induction p with
  | nil =>
    intro r c
    simp [chunkAt]
  | cons i rest ih =>
    intro r c
    cases hget : c.getChild i with
    | none => simp [chunkAt, hget]
    | some child =>
      simp only [List.cons_append, chunkAt, hget]
      exact ih r child

theorem data_allocateChild [Inhabited α] (c : ChunkedNdtreeNode α dim chunk_height)
    (i r : LinearIndex) : (c.allocateChild i).data r = c.data r := by
  cases c with
  | mk d cs =>
    cases cs with
    | none => rfl
    | some l => rfl

theorem data_fresh [Inhabited α] (r : LinearIndex) :
    (fresh : ChunkedNdtreeNode α dim chunk_height).data r = default := by
  simp [fresh, data, readSlot]

theorem loadAt_fresh [Inhabited α] (p : ChunkPath) (r : LinearIndex) (v : α)
    (h : (fresh : ChunkedNdtreeNode α dim chunk_height).loadAt p r = some v) : v = default := by
  cases p with
  | nil =>
    simp only [loadAt, chunkAt, Option.map_some', Option.some.injEq] at h
    rw [← h]
    exact data_fresh r
  | cons j rest =>
    simp [loadAt, chunkAt, fresh, getChild] at h

/-- Allocation along a path keeps every payload that could be read before. -/
theorem loadAt_allocatePath_of_some [Inhabited α] :
    ∀ (q : ChunkPath) (c : ChunkedNdtreeNode α dim chunk_height) (p : ChunkPath)
      (r : LinearIndex) (v : α), c.wellFormed = true →
      (∀ i ∈ q, i < kNumChildren dim chunk_height) →
      c.loadAt p r = some v → (c.allocatePath q).loadAt p r = some v := by
  intro q
  induction q with
  | nil =>
    intro c p r v _ _ h
    simpa [allocatePath] using h
  | cons i rest ih =>
    intro c p r v hwf hb h
    obtain ⟨child, hget, hwfc, heq⟩ := allocatePath_cons c i rest hwf
      (hb i (List.mem_cons_self _ _))
    obtain ⟨-, -, -, -, hhas⟩ := getChild_allocated c i hwf (hb i (List.mem_cons_self _ _))
    rw [heq]
    cases p with
    | nil =>
      simp only [loadAt, chunkAt, Option.map_some', Option.some.injEq] at h ⊢
      rw [data_setHandle]
      by_cases hh : c.hasChild i = true
      · simpa [hh] using h
      · simp only [hh, Bool.not_false, if_true, Bool.not_eq_true, data_allocateChild]
        exact h
    | cons j pr =>
      by_cases hji : j = i
      · subst hji
        simp only [loadAt, chunkAt, getChild_setHandle_same _ j _ hhas]
        cases hgc : c.getChild j with
        | none => simp [loadAt, chunkAt, hgc] at h
        | some c1 =>
          have hh : c.hasChild j = true := by simp [hasChild, hgc]
          simp only [hh, Bool.not_true, Bool.false_eq_true, if_false, hgc,
            Option.some.injEq] at hget
          subst hget
          simp only [loadAt, chunkAt, hgc] at h
          exact ih c1 pr r v hwfc (fun k hk => hb k (List.mem_cons_of_mem _ hk)) h
      · have hne : i ≠ j := fun hh => hji hh.symm
        simp only [loadAt, chunkAt, getChild_setHandle_ne _ i j _ hne]
        by_cases hh : c.hasChild i = true
        · simpa [hh, loadAt, chunkAt] using h
        · simp only [hh, Bool.not_false, if_true, Bool.not_eq_true,
            getChild_allocateChild_ne c i j hne]
          simpa [loadAt, chunkAt] using h

/-- A payload read after allocation along a path was readable before or is the default. -/
theorem loadAt_allocatePath_cases [Inhabited α] :
    ∀ (q : ChunkPath) (c : ChunkedNdtreeNode α dim chunk_height) (p : ChunkPath)
      (r : LinearIndex) (v : α), c.wellFormed = true →
      (∀ i ∈ q, i < kNumChildren dim chunk_height) →
      (c.allocatePath q).loadAt p r = some v → c.loadAt p r = some v ∨ v = default := by
  intro q
  induction q with
  | nil =>
    intro c p r v _ _ h
    left
    simpa [allocatePath] using h
  | cons i rest ih =>
    intro c p r v hwf hb h
    obtain ⟨child, hget, hwfc, heq⟩ := allocatePath_cons c i rest hwf
      (hb i (List.mem_cons_self _ _))
    obtain ⟨-, -, -, -, hhas⟩ := getChild_allocated c i hwf (hb i (List.mem_cons_self _ _))
    rw [heq] at h
    cases p with
    | nil =>
      left
      simp only [loadAt, chunkAt, Option.map_some', Option.some.injEq] at h ⊢
      rw [data_setHandle] at h
      by_cases hh : c.hasChild i = true
      · simpa [hh] using h
      · simp only [hh, Bool.not_false, if_true, Bool.not_eq_true, data_allocateChild] at h
        exact h
    | cons j pr =>
      by_cases hji : j = i
      · subst hji
        simp only [loadAt, chunkAt, getChild_setHandle_same _ j _ hhas] at h
        have hrec := ih child pr r v hwfc (fun k hk => hb k (List.mem_cons_of_mem _ hk)) h
        cases hgc : c.getChild j with
        | none =>
          have hh : c.hasChild j = false := by simp [hasChild, hgc]
          simp only [hh, Bool.not_false, if_true,
            getChild_allocateChild_same c j hwf (hb j (List.mem_cons_self _ _)),
            Option.some.injEq] at hget
          subst hget
          rcases hrec with h1 | h1
          · exact Or.inr (loadAt_fresh pr r v h1)
          · exact Or.inr h1
        | some c1 =>
          have hh : c.hasChild j = true := by simp [hasChild, hgc]
          simp only [hh, Bool.not_true, Bool.false_eq_true, if_false, hgc,
            Option.some.injEq] at hget
          subst hget
          rcases hrec with h1 | h1
          · left
            simp only [loadAt, chunkAt, hgc]
            exact h1
          · exact Or.inr h1
      · have hne : i ≠ j := fun hh => hji hh.symm
        left
        simp only [loadAt, chunkAt, getChild_setHandle_ne _ i j _ hne] at h
        by_cases hh : c.hasChild i = true
        · simpa [hh, loadAt, chunkAt] using h
        · simp only [hh, Bool.not_false, if_true, Bool.not_eq_true,
            getChild_allocateChild_ne c i j hne] at h
          simpa [loadAt, chunkAt] using h

end ChunkedNdtreeNode

namespace ChunkedNdtree

variable {α : Type} {dim chunk_height : Nat}

theorem getMemoryUsage_eq (nb cb : Nat) (tree : ChunkedNdtree α dim chunk_height)
    (hwf : tree.wellFormed = true) :
    tree.getMemoryUsage nb cb = some (tree.root_node_.memoryUsageRec nb cb) := by
  unfold getMemoryUsage
  rw [ChunkedNdtreeNode.memoryUsageLoop_eq nb cb _ _ _ (by
    intro c hc
    simp only [List.mem_singleton] at hc
    subst hc
    exact hwf) (by simp)]
  simp

theorem wellFormed_prune [Inhabited α] [DecidableEq α]
    (tree : ChunkedNdtree α dim chunk_height) (hwf : tree.wellFormed = true) :
    tree.prune.wellFormed = true :=
  ChunkedNdtreeNode.wellFormed_pruneSubtree tree.root_node_ hwf

theorem prune_prune [Inhabited α] [DecidableEq α]
    (tree : ChunkedNdtree α dim chunk_height) (hwf : tree.wellFormed = true) :
    tree.prune.prune = tree.prune := by
  unfold prune
  simp only []
  rw [ChunkedNdtreeNode.pruneSubtree_idem tree.root_node_ hwf]

end ChunkedNdtree

end wavemap

/-! ## Lemmas on Morton codes -/

namespace wavemap

namespace convert

theorem mortonDigit_lt : ∀ position : List Nat, mortonDigit position < 2 ^ position.length
  | [] => by simp [mortonDigit]
  | x :: xs => by
    have ih := mortonDigit_lt xs
    have hx : x % 2 < 2 := Nat.mod_lt _ (by decide)
    simp only [mortonDigit, List.length_cons, Nat.pow_succ]
    omega

theorem mortonDigit_zero : ∀ position : List Nat, (∀ x ∈ position, x = 0) →
    mortonDigit position = 0
  | [], _ => rfl
  | x :: xs, h => by
    have hx : x = 0 := h x (List.mem_cons_self _ _)
    have ih := mortonDigit_zero xs (fun y hy => h y (List.mem_cons_of_mem _ hy))
    simp [mortonDigit, hx, ih]

theorem interleave_zero (dim : Nat) : ∀ (levels : Nat) (position : List Nat),
    (∀ x ∈ position, x = 0) → interleave dim levels position = 0 := by
  intro levels
  induction levels with
  | zero => intro position _; rfl
  | succ n ih =>
    intro position h
    have h2 : ∀ x ∈ position.map (· / 2), x = 0 := by
      intro x hx
      obtain ⟨y, hy, hxy⟩ := List.mem_map.mp hx
      rw [← hxy, h y hy]
    simp [interleave, mortonDigit_zero position h, ih _ h2]

theorem interleave_fuel (dim : Nat) : ∀ (n k : Nat) (position : List Nat),
    (∀ x ∈ position, x < 2 ^ n) → interleave dim (n + k) position = interleave dim n position := by
  intro n
  induction n with
  | zero =>
    intro k position h
    have hz : ∀ x ∈ position, x = 0 := fun x hx => by
      have := h x hx
      simpa using this
    rw [interleave_zero dim _ position hz, interleave_zero dim _ position hz]
  | succ n ih =>
    intro k position h
    have h2 : ∀ x ∈ position.map (· / 2), x < 2 ^ n := by
      intro x hx
      obtain ⟨y, hy, hxy⟩ := List.mem_map.mp hx
      have := h y hy
      rw [← hxy]
      rw [Nat.pow_succ] at this
      show y / 2 < 2 ^ n
      omega
    have hnk : n + 1 + k = (n + k) + 1 := by omega
    rw [hnk]
    simp only [interleave]
    rw [ih k _ h2]

theorem lt_two_pow_self_of_le (x m : Nat) (h : x ≤ m) : x < 2 ^ m :=
  Nat.lt_of_le_of_lt h (Nat.lt_two_pow m)

theorem le_foldr_max : ∀ (position : List Nat) (x : Nat), x ∈ position →
    x ≤ position.foldr max 0
  | [], _, h => by cases h
  | y :: ys, x, h => by
    simp only [List.foldr_cons]
    rcases List.mem_cons.mp h with h1 | h1
    · subst h1
      exact Nat.le_max_left _ _
    · exact Nat.le_trans (le_foldr_max ys x h1) (Nat.le_max_right _ _)

/-- The Morton code of a position is the interleaving of any sufficient number of bits. -/
theorem indexToMorton_eq (dim n : Nat) (position : List Nat)
    (h : ∀ x ∈ position, x < 2 ^ n) : indexToMorton dim position = interleave dim n position := by
  unfold indexToMorton
  by_cases hle : n ≤ position.foldr max 0
  · obtain ⟨k, hk⟩ := Nat.exists_eq_add_of_le hle
    rw [hk, interleave_fuel dim n k position h]
  · obtain ⟨k, hk⟩ := Nat.exists_eq_add_of_le (Nat.le_of_lt (Nat.lt_of_not_le hle))
    rw [hk, interleave_fuel dim _ k position
      (fun x hx => lt_two_pow_self_of_le x _ (le_foldr_max position x hx))]

theorem interleave_succ_div (dim n : Nat) (position : List Nat) (hlen : position.length = dim) :
    interleave dim (n + 1) position / 2 ^ dim = interleave dim n (position.map (· / 2)) := by
  have hd := mortonDigit_lt position
  rw [hlen] at hd
  simp only [interleave]
  rw [Nat.add_mul_div_left _ _ (Nat.pow_pos (by decide)), Nat.div_eq_of_lt hd, Nat.zero_add]

theorem interleave_add_div (dim n : Nat) : ∀ (k : Nat) (position : List Nat),
    position.length = dim →
    interleave dim (n + k) position / 2 ^ (dim * k) =
      interleave dim n (position.map (· / 2 ^ k)) := by
  intro k
  induction k with
  | zero =>
    intro position _
    simp
  | succ k ih =>
    intro position hlen
    have h1 : n + (k + 1) = (n + k) + 1 := by omega
    have h2 : 2 ^ (dim * (k + 1)) = 2 ^ dim * 2 ^ (dim * k) := by
      rw [← Nat.pow_add]
      congr 1
      rw [Nat.mul_succ]
      omega
    rw [h1, h2, ← Nat.div_div_eq_div_mul, interleave_succ_div dim _ position hlen,
      ih _ (by simpa using hlen), List.map_map]
    congr 1
    apply List.map_congr_left
    intro x _
    simp only [Function.comp]
    rw [Nat.div_div_eq_div_mul, Nat.pow_succ, Nat.mul_comm]

theorem interleave_lt (dim : Nat) : ∀ (n : Nat) (position : List Nat),
    position.length = dim → interleave dim n position < 2 ^ (dim * n) := by
  intro n
  induction n with
  | zero =>
    intro position _
    simp [interleave]
  | succ n ih =>
    intro position hlen
    have hd := mortonDigit_lt position
    rw [hlen] at hd
    have h1 := ih (position.map (· / 2)) (by simpa using hlen)
    have h2 : 2 ^ (dim * (n + 1)) = 2 ^ dim * 2 ^ (dim * n) := by
      rw [← Nat.pow_add]
      congr 1
      rw [Nat.mul_succ]
      omega
    simp only [interleave]
    rw [h2]
    calc mortonDigit position + 2 ^ dim * interleave dim n (position.map (· / 2))
        < 2 ^ dim + 2 ^ dim * interleave dim n (position.map (· / 2)) := by omega
      _ = 2 ^ dim * (interleave dim n (position.map (· / 2)) + 1) := by
        rw [Nat.mul_add, Nat.mul_one, Nat.add_comm]
      _ ≤ 2 ^ dim * 2 ^ (dim * n) := Nat.mul_le_mul_left _ h1

theorem mortonDigit_inj : ∀ (p q : List Nat), p.length = q.length →
    mortonDigit p = mortonDigit q → p.map (· % 2) = q.map (· % 2)
  | [], [], _, _ => rfl
  | [], _ :: _, h, _ => by simp at h
  | _ :: _, [], h, _ => by simp at h
  | x :: xs, y :: ys, hlen, h => by
    simp only [mortonDigit] at h
    have hx : x % 2 < 2 := Nat.mod_lt _ (by decide)
    have hy : y % 2 < 2 := Nat.mod_lt _ (by decide)
    have h1 : x % 2 = y % 2 := by omega
    have h2 : mortonDigit xs = mortonDigit ys := by omega
    have ih := mortonDigit_inj xs ys (by simpa using hlen) h2
    simp only [List.map_cons, h1, ih]

theorem eq_of_div_mod_eq : ∀ (p q : List Nat),
    p.map (· / 2) = q.map (· / 2) → p.map (· % 2) = q.map (· % 2) → p = q
  | [], [], _, _ => rfl
  | [], _ :: _, h, _ => by simp at h
  | _ :: _, [], h, _ => by simp at h
  | x :: xs, y :: ys, h1, h2 => by
    simp only [List.map_cons, List.cons.injEq] at h1 h2
    have hxy : x = y := by omega
    rw [hxy, eq_of_div_mod_eq xs ys h1.2 h2.2]

theorem interleave_inj (dim : Nat) : ∀ (n : Nat) (p q : List Nat),
    p.length = dim → q.length = dim → (∀ x ∈ p, x < 2 ^ n) → (∀ x ∈ q, x < 2 ^ n) →
    interleave dim n p = interleave dim n q → p = q := by
  intro n
  induction n with
  | zero =>
    intro p q hp hq hpb hqb _
    apply List.ext_get (by rw [hp, hq])
    intro i h1 h2
    have := hpb _ (List.get_mem p i h1)
    have := hqb _ (List.get_mem q i h2)
    simp at *
    omega
  | succ n ih =>
    intro p q hp hq hpb hqb h
    have hdp := mortonDigit_lt p
    have hdq := mortonDigit_lt q
    rw [hp] at hdp
    rw [hq] at hdq
    simp only [interleave] at h
    have hdig : mortonDigit p = mortonDigit q := by
      have := congrArg (· % 2 ^ dim) h
      simpa [Nat.add_mul_mod_self_left, Nat.mod_eq_of_lt hdp, Nat.mod_eq_of_lt hdq] using this
    have hrest : interleave dim n (p.map (· / 2)) = interleave dim n (q.map (· / 2)) := by
      rw [hdig] at h
      exact Nat.eq_of_mul_eq_mul_left (Nat.pow_pos (by decide)) (Nat.add_left_cancel h)
    have hb : ∀ (l : List Nat), (∀ x ∈ l, x < 2 ^ (n + 1)) → ∀ x ∈ l.map (· / 2), x < 2 ^ n := by
      intro l hl x hx
      obtain ⟨y, hy, hxy⟩ := List.mem_map.mp hx
      have := hl y hy
      rw [Nat.pow_succ] at this
      rw [← hxy]
      show y / 2 < 2 ^ n
      omega
    have h1 := ih _ _ (by simpa using hp) (by simpa using hq) (hb p hpb) (hb q hqb) hrest
    exact eq_of_div_mod_eq p q h1 (mortonDigit_inj p q (by rw [hp, hq]) hdig)

end convert

end wavemap

/-! ## Lemmas relating codes and resolved pointers -/

namespace wavemap

theorem div_pow_congr (dim : Nat) (a b : MortonCode) (h k : Nat) (hk : h ≤ k)
    (hab : a / 2 ^ (dim * h) = b / 2 ^ (dim * h)) : a / 2 ^ (dim * k) = b / 2 ^ (dim * k) := by
  obtain ⟨e, he⟩ := Nat.exists_eq_add_of_le hk
  subst he
  rw [Nat.mul_add, Nat.pow_add, ← Nat.div_div_eq_div_mul, ← Nat.div_div_eq_div_mul, hab]

theorem computeRelativeChildIndex_congr (dim : Nat) (a b : MortonCode) (h ph ch : Int)
    (hch : h ≤ ch) (hab : a / 2 ^ (dim * h.toNat) = b / 2 ^ (dim * h.toNat)) :
    NdtreeIndex.computeRelativeChildIndex dim a ph ch =
      NdtreeIndex.computeRelativeChildIndex dim b ph ch := by
  unfold NdtreeIndex.computeRelativeChildIndex
  rw [div_pow_congr dim a b h.toNat ch.toNat (by omega) hab]

/-- Two codes that agree above height `hi` resolve along the same chunks down to height `hi`:
the path of the lower index extends the path of the upper one. -/
theorem resolvePath_extends (dim chunk_height : Nat) (a b : MortonCode) (hi hj : Int)
    (hji : hj ≤ hi) (hab : a / 2 ^ (dim * hi.toNat) = b / 2 ^ (dim * hi.toNat)) :
    ∀ (fi fj : Nat) (ph ch : Int) (si sj : Slot),
      resolvePath dim chunk_height a hi fi ph ch = some si →
      resolvePath dim chunk_height b hj fj ph ch = some sj →
      ∃ q, sj.1 = si.1 ++ q := by
  intro fi
  induction fi with
  | zero =>
    intro fj ph ch si sj h1 _
    by_cases hlt : hi < ch
    · rw [resolvePath_zero_lt a hi ph ch hlt] at h1
      cases h1
    · rw [resolvePath_of_not_lt a hi 0 ph ch hlt] at h1
      cases h1
      exact ⟨sj.1, rfl⟩
  | succ n ih =>
    intro fj ph ch si sj h1 h2
    by_cases hlt : hi < ch
    · obtain ⟨s1, hrec1, hs1⟩ := resolvePath_succ_of_lt a hi n ph ch si hlt h1
      have hlt2 : hj < ch := by omega
      cases fj with
      | zero =>
        rw [resolvePath_zero_lt b hj ph ch hlt2] at h2
        cases h2
      | succ m =>
        obtain ⟨s2, hrec2, hs2⟩ := resolvePath_succ_of_lt b hj m ph ch sj hlt2 h2
        obtain ⟨q, hq⟩ := ih m _ _ s1 s2 hrec1 hrec2
        refine ⟨q, ?_⟩
        rw [hs1, hs2]
        simp only [List.cons_append, hq]
        rw [computeRelativeChildIndex_congr dim a b hi ph ch (by omega) hab]
    · rw [resolvePath_of_not_lt a hi (n + 1) ph ch hlt] at h1
      cases h1
      exact ⟨sj.1, rfl⟩

theorem mod_pow_add (x m n : Nat) :
    x % 2 ^ (m + n) = x % 2 ^ m + 2 ^ m * (x / 2 ^ m % 2 ^ n) := by
  rw [Nat.pow_add, Nat.mod_mul]

/-- Two codes resolved at the same height to the same pointer agree on all bits between that
height and the start height of the descent. -/
theorem resolvePath_inj (dim chunk_height : Nat) (a b : MortonCode) (h : Int) (h0 : 0 ≤ h) :
    ∀ (fuel : Nat) (ph ch : Int) (s : Slot), ph - ch = chunk_height → h ≤ ph →
      resolvePath dim chunk_height a h fuel ph ch = some s →
      resolvePath dim chunk_height b h fuel ph ch = some s →
      (a / 2 ^ (dim * h.toNat)) % 2 ^ (dim * (ph - h).toNat) =
        (b / 2 ^ (dim * h.toNat)) % 2 ^ (dim * (ph - h).toNat) := by
  intro fuel
  induction fuel with
  | zero =>
    intro ph ch s _ _ h1 h2
    by_cases hlt : h < ch
    · rw [resolvePath_zero_lt a h ph ch hlt] at h1
      cases h1
    · rw [resolvePath_of_not_lt a h 0 ph ch hlt] at h1
      rw [resolvePath_of_not_lt b h 0 ph ch hlt] at h2
      rw [← h2] at h1
      simp only [Option.some.injEq, Prod.mk.injEq, true_and] at h1
      exact h1
  | succ n ih =>
    intro ph ch s hspan hph h1 h2
    by_cases hlt : h < ch
    · obtain ⟨s1, hrec1, hs1⟩ := resolvePath_succ_of_lt a h n ph ch s hlt h1
      obtain ⟨s2, hrec2, hs2⟩ := resolvePath_succ_of_lt b h n ph ch s hlt h2
      rw [hs1] at hs2
      simp only [Prod.mk.injEq, List.cons.injEq] at hs2
      obtain ⟨⟨hw, hp12⟩, hr12⟩ := hs2
      have hs12 : s1 = s2 := Prod.ext hp12 hr12
      subst hs12
      have hch : ph - (chunk_height : Int) = ch := by omega
      rw [hch] at hrec1 hrec2
      have hlow := ih ch (ch - chunk_height) s1 (by omega) (by omega) hrec1 hrec2
      have hsplit : (ph - h).toNat = (ch - h).toNat + (ph - ch).toNat := by omega
      have hdiv : ∀ x : MortonCode, x / 2 ^ (dim * h.toNat) / 2 ^ (dim * (ch - h).toNat) =
          x / 2 ^ (dim * ch.toNat) := by
        intro x
        rw [Nat.div_div_eq_div_mul, ← Nat.pow_add, ← Nat.mul_add]
        congr 3
        omega
      unfold NdtreeIndex.computeRelativeChildIndex at hw
      rw [hsplit, Nat.mul_add, mod_pow_add, mod_pow_add, hdiv, hdiv, hlow, hw]
    · rw [resolvePath_of_not_lt a h (n + 1) ph ch hlt] at h1
      rw [resolvePath_of_not_lt b h (n + 1) ph ch hlt] at h2
      rw [← h2] at h1
      simp only [Option.some.injEq, Prod.mk.injEq, true_and] at h1
      exact h1

end wavemap

/-! ## Lemmas on indices of the tree -/

namespace wavemap

open ChunkedNdtreeNode

variable {α : Type} {dim chunk_height : Nat}

theorem nodeIndexToMorton_div (max_height : Int) (i : NdtreeIndex dim)
    (hv : i.valid max_height) :
    convert.nodeIndexToMorton i / 2 ^ (dim * i.height.toNat) =
      convert.interleave dim (max_height - i.height).toNat i.position := by
  unfold convert.nodeIndexToMorton
  rw [Nat.mul_div_cancel _ (Nat.pow_pos (by decide))]
  exact convert.indexToMorton_eq dim _ i.position hv.2.2.2

theorem nodeIndexToMorton_descendant (max_height : Int) (i j : NdtreeIndex dim)
    (hvi : i.valid max_height) (hvj : j.valid max_height) (hd : j.isDescendantOf i) :
    convert.nodeIndexToMorton i / 2 ^ (dim * i.height.toNat) =
      convert.nodeIndexToMorton j / 2 ^ (dim * i.height.toNat) := by
  rw [nodeIndexToMorton_div max_height i hvi]
  obtain ⟨hlt, hpos⟩ := hd
  obtain ⟨hj0, hjm, hjlen, hjb⟩ := hvj
  obtain ⟨hi0, him, hilen, hib⟩ := hvi
  have hsplit : i.height.toNat = (i.height - j.height).toNat + j.height.toNat := by omega
  have hfuel : (max_height - j.height).toNat =
      (max_height - i.height).toNat + (i.height - j.height).toNat := by omega
  unfold convert.nodeIndexToMorton
  rw [convert.indexToMorton_eq dim _ j.position hjb]
  rw [hsplit, Nat.mul_add, Nat.pow_add,
    Nat.mul_div_mul_right _ _ (Nat.pow_pos (by decide)), hfuel,
    convert.interleave_add_div dim _ _ j.position hjlen, hpos]

theorem wellFormed_chunkAt :
    ∀ (p : ChunkPath) (c x : ChunkedNdtreeNode α dim chunk_height), c.wellFormed = true →
      c.chunkAt p = some x → x.wellFormed = true := by
  intro p
  induction p with
  | nil =>
    intro c x hwf h
    simp only [chunkAt, Option.some.injEq] at h
    subst h
    exact hwf
  | cons i rest ih =>
    intro c x hwf h
    cases hget : c.getChild i with
    | none =>
      simp only [chunkAt, hget] at h
      cases h
    | some child =>
      simp only [chunkAt, hget] at h
      exact ih child x (wellFormed_getChild c child i hwf hget) h

/-- A chunk whose pruned subtree is not empty survives pruning with its payload. -/
theorem pruneSubtree_keeps [Inhabited α] [DecidableEq α]
    (root ci : ChunkedNdtreeNode α dim chunk_height) (p : ChunkPath) (r : LinearIndex)
    (hwf : root.wellFormed = true) (hci : root.chunkAt p = some ci)
    (hne : (pruneSubtree ci).empty = false) :
    ((pruneSubtree root).chunkAt p).isSome = true ∧
      (pruneSubtree root).loadAt p r = root.loadAt p r := by
  have h1 := chunkAt_pruneSubtree_of_nonEmpty p root ci hwf hci (fun _ => hne)
  refine ⟨by rw [h1]; rfl, ?_⟩
  simp only [loadAt, h1, hci, Option.map_some']
  rw [pruneSubtree_data ci (wellFormed_chunkAt p root ci hwf hci)]

/-- A chunk holding a non-default payload in its subtree is not empty after pruning. -/
theorem pruneSubtree_nonEmpty_of_load [Inhabited α] [DecidableEq α]
    (ci : ChunkedNdtreeNode α dim chunk_height) (q : ChunkPath) (r : LinearIndex) (v : α)
    (hwf : ci.wellFormed = true) (hload : ci.loadAt q r = some v) (hv : v ≠ default) :
    (pruneSubtree ci).empty = false := by
  cases hcj : ci.chunkAt q with
  | none => simp [loadAt, hcj] at hload
  | some cj =>
    simp only [loadAt, hcj, Option.map_some', Option.some.injEq] at hload
    have hwfj := wellFormed_chunkAt q ci cj hwf hcj
    have hnej : (pruneSubtree cj).empty = false := by
      apply empty_eq_false_of_data _ r
      rw [pruneSubtree_data cj hwfj, hload]
      exact hv
    have h1 := chunkAt_pruneSubtree_of_nonEmpty q ci cj hwf hcj (fun _ => hnej)
    cases q with
    | nil =>
      simp only [chunkAt, Option.some.injEq] at h1
      rw [h1]
      exact hnej
    | cons j0 rest => exact empty_eq_false_of_chunkAt _ j0 rest (by rw [h1]; rfl)

end wavemap

/-! ## Lemmas on writes -/

namespace wavemap

open ChunkedNdtreeNode

variable {α : Type} {dim chunk_height : Nat}

theorem wellFormed_setData [Inhabited α] (c : ChunkedNdtreeNode α dim chunk_height)
    (r : LinearIndex) (v : α) (hwf : c.wellFormed = true) : (c.setData r v).wellFormed = true := by
  cases c with
  | mk d cs =>
    cases cs with
    | none => simp [setData, wellFormed]
    | some l => simpa [setData, wellFormed] using hwf

theorem wellFormed_writeAt [Inhabited α] :
    ∀ (q : ChunkPath) (c : ChunkedNdtreeNode α dim chunk_height) (r : LinearIndex) (v : α),
      c.wellFormed = true → (c.writeAt q r v).wellFormed = true := by
  intro q
  induction q with
  | nil =>
    intro c r v hwf
    exact wellFormed_setData c r v hwf
  | cons i rest ih =>
    intro c r v hwf
    cases hget : c.getChild i with
    | none => simpa [writeAt, hget] using hwf
    | some child =>
      simp only [writeAt, hget]
      apply wellFormed_setHandle _ _ _ hwf
      intro x hx
      cases hx
      exact ih child r v (wellFormed_getChild c child i hwf hget)

namespace ChunkedNdtree

theorem resolveSlot_congr (t1 t2 : ChunkedNdtree α dim chunk_height) (i : NdtreeIndex dim)
    (h : t1.max_height_ = t2.max_height_) : t1.resolveSlot i = t2.resolveSlot i := by
  unfold resolveSlot descentFuel
  rw [h]

theorem getNodeData_true_eq (tree : ChunkedNdtree α dim chunk_height)
    (index : NdtreeIndex dim) (s : Slot) (hwf : tree.wellFormed = true)
    (hs : tree.resolveSlot index = some s) :
    tree.getNodeData index true =
      some ({ tree with root_node_ := tree.root_node_.allocatePath s.1 }, some s) := by
  unfold getNodeData
  rw [getNodeAndRelativeIndex_true_eq tree index s hwf hs]

theorem slotOf_eq (tree : ChunkedNdtree α dim chunk_height)
    (index : NdtreeIndex dim) (s : Slot) (hwf : tree.wellFormed = true)
    (hs : tree.resolveSlot index = some s) : tree.slotOf index = some (some s) := by
  unfold slotOf
  rw [getNodeData_true_eq tree index s hwf hs]
  rfl

theorem writeNode_eq [Inhabited α] (tree : ChunkedNdtree α dim chunk_height)
    (index : NdtreeIndex dim) (v : α) (s : Slot) (hwf : tree.wellFormed = true)
    (hs : tree.resolveSlot index = some s) :
    tree.writeNode index v =
      some { tree with
        root_node_ := (tree.root_node_.allocatePath s.1).writeAt s.1 s.2 v } := by
  unfold writeNode
  rw [getNodeData_true_eq tree index s hwf hs]
  rfl

end ChunkedNdtree

/-- Effect of a sequence of writes on the payloads readable in the tree. -/
theorem writeNodes_spec [Inhabited α] (hc : 0 < chunk_height) :
    ∀ (ws : List (NdtreeIndex dim × α)) (tree : ChunkedNdtree α dim chunk_height),
      tree.wellFormed = true → (ws.map (fun w => tree.resolveSlot w.1)).Nodup →
      ∃ tree1, tree.writeNodes ws = some tree1 ∧ tree1.wellFormed = true ∧
        tree1.max_height_ = tree.max_height_ ∧
        (∀ w ∈ ws, ∀ s, tree.resolveSlot w.1 = some s →
          tree1.root_node_.loadAt s.1 s.2 = some w.2) ∧
        (∀ p r v, tree1.root_node_.loadAt p r = some v →
          tree.root_node_.loadAt p r = some v ∨ v = default ∨
            ∃ w ∈ ws, tree.resolveSlot w.1 = some (p, r) ∧ v = w.2) ∧
        (∀ p r v, tree.root_node_.loadAt p r = some v →
          (∀ w ∈ ws, tree.resolveSlot w.1 ≠ some (p, r)) →
          tree1.root_node_.loadAt p r = some v) := by
  intro ws
  induction ws with
  | nil =>
    intro tree hwf _
    refine ⟨tree, rfl, hwf, rfl, ?_, ?_, ?_⟩
    · intro w hw
      cases hw
    · intro p r v h
      exact Or.inl h
    · intro p r v h _
      exact h
  | cons w rest ih =>
    intro tree hwf hnd
    obtain ⟨s, hs⟩ := tree.resolveSlot_isSome w.1 hc
    have hb := tree.resolveSlot_bound w.1 s hs
    simp only [List.map_cons, List.nodup_cons, List.mem_map, not_exists, not_and] at hnd
    obtain ⟨hfresh, hnd1⟩ := hnd
    have hwfa := wellFormed_allocatePath s.1 tree.root_node_ hwf hb
    have hwf1 : ({ tree with
        root_node_ := (tree.root_node_.allocatePath s.1).writeAt s.1 s.2 w.2 } :
        ChunkedNdtree α dim chunk_height).wellFormed = true :=
      wellFormed_writeAt s.1 _ s.2 w.2 hwfa
    obtain ⟨tree1, hw1, hwft, hmax, h1, h2, h3⟩ := ih _ hwf1 hnd1
    have hexa := chunkAt_allocatePath_self s.1 tree.root_node_ hwf hb
    have hown : ((tree.root_node_.allocatePath s.1).writeAt s.1 s.2 w.2).loadAt s.1 s.2
        = some w.2 := by
      rw [loadAt_writeAt]
      simp only [and_self, if_true, loadAt]
      cases hca : (tree.root_node_.allocatePath s.1).chunkAt s.1 with
      | none =>
        rw [hca] at hexa
        cases hexa
      | some x => rfl
    refine ⟨tree1, ?_, hwft, hmax, ?_, ?_, ?_⟩
    · simp only [ChunkedNdtree.writeNodes, tree.writeNode_eq w.1 w.2 s hwf hs]
      exact hw1
    · intro w1 hw1mem s1 hs1
      rcases List.mem_cons.mp hw1mem with hw | hw
      · subst hw
        rw [hs] at hs1
        cases hs1
        apply h3 _ _ _ hown
        intro w2 hw2 hcon
        exact hfresh w2 hw2 (hcon.trans hs.symm)
      · exact h1 w1 hw s1 hs1
    · intro p r v hl
      rcases h2 p r v hl with hl1 | hl1 | ⟨w2, hw2, hs2, hv2⟩
      · simp only [] at hl1
        rw [loadAt_writeAt] at hl1
        by_cases hcond : p = s.1 ∧ r = s.2
        · simp only [hcond, and_self, if_true] at hl1
          right
          right
          refine ⟨w, List.mem_cons_self _ _, ?_, ?_⟩
          · rw [hs, hcond.1, hcond.2]
          · cases hla : (tree.root_node_.allocatePath s.1).loadAt s.1 s.2 with
            | none => simp [hla] at hl1
            | some x =>
              simp only [hla, Option.map_some', Option.some.injEq] at hl1
              exact hl1.symm
        · simp only [hcond, if_false] at hl1
          rcases loadAt_allocatePath_cases s.1 _ p r v hwf hb hl1 with h4 | h4
          · exact Or.inl h4
          · exact Or.inr (Or.inl h4)
      · exact Or.inr (Or.inl hl1)
      · exact Or.inr (Or.inr ⟨w2, List.mem_cons_of_mem _ hw2, hs2, hv2⟩)
    · intro p r v hl hnot
      apply h3 p r v
      · simp only []
        rw [loadAt_writeAt]
        have hcond : ¬ (p = s.1 ∧ r = s.2) := by
          intro hcon
          apply hnot w (List.mem_cons_self _ _)
          rw [hs, hcon.1, hcon.2]
        simp only [hcond, if_false]
        exact loadAt_allocatePath_of_some s.1 _ p r v hwf hb hl
      · intro w2 hw2
        exact hnot w2 (List.mem_cons_of_mem _ hw2)

/-- A payload readable after pruning was readable, with the same value, before. -/
theorem loadAt_pruneSubtree_some [Inhabited α] [DecidableEq α]
    (root : ChunkedNdtreeNode α dim chunk_height) (p : ChunkPath) (r : LinearIndex) (v : α)
    (hwf : root.wellFormed = true) (h : (pruneSubtree root).loadAt p r = some v) :
    root.loadAt p r = some v := by
  cases hx : (pruneSubtree root).chunkAt p with
  | none => simp [loadAt, hx] at h
  | some x =>
    obtain ⟨c0, hc0, hwf0, hx0⟩ := chunkAt_pruneSubtree_some p root x hwf hx
    simp only [loadAt, hx, Option.map_some', Option.some.injEq] at h
    simp only [loadAt, hc0, Option.map_some', Option.some.injEq]
    rw [← h, hx0, pruneSubtree_data c0 hwf0]

/-- Two valid indices of the same height with different positions resolve to different
pointers. -/
theorem resolveSlot_ne_of_same_height (tree : ChunkedNdtree α dim chunk_height)
    (i j : NdtreeIndex dim) (si sj : Slot)
    (hvi : i.valid tree.max_height_) (hvj : j.valid tree.max_height_)
    (hh : i.height = j.height) (hne : i ≠ j)
    (hsi : tree.resolveSlot i = some si) (hsj : tree.resolveSlot j = some sj) : si ≠ sj := by
  intro heq
  subst heq
  apply hne
  unfold ChunkedNdtree.resolveSlot ChunkedNdtree.descentFuel at hsi hsj
  rw [← hh] at hsj
  have hinj := resolvePath_inj dim chunk_height _ _ i.height hvi.1 _ _ _ si (by omega) hvi.2.1
    hsi hsj
  have hdi := nodeIndexToMorton_div tree.max_height_ i hvi
  have hdj := nodeIndexToMorton_div tree.max_height_ j hvj
  rw [← hh] at hdj
  rw [hdi, hdj] at hinj
  have hli := convert.interleave_lt dim (tree.max_height_ - i.height).toNat i.position hvi.2.2.1
  have hlj := convert.interleave_lt dim (tree.max_height_ - i.height).toNat j.position hvj.2.2.1
  rw [Nat.mod_eq_of_lt hli, Nat.mod_eq_of_lt hlj] at hinj
  have hpos := convert.interleave_inj dim _ i.position j.position hvi.2.2.1 hvj.2.2.1
    hvi.2.2.2 (by rw [hh]; exact hvj.2.2.2) hinj
  cases i with
  | mk hi pi =>
    cases j with
    | mk hj pj =>
      simp only at hh hpos
      rw [hh, hpos]

end wavemap

/-! ## Verified claims -/

namespace wavemap

open ChunkedNdtreeNode

/-- C1: for every (well-typed) tree state and every index, `allocateNode(i)` returns and
afterwards `hasNode(i)` returns true; in particular for every valid index. -/
theorem C1_allocateNode_hasNode {α : Type} {dim chunk_height : Nat}
    (tree : ChunkedNdtree α dim chunk_height) (i : NdtreeIndex dim)
    (hc : 0 < chunk_height) (hwf : tree.wellFormed = true) :
    ∃ tree1, tree.allocateNode i = some tree1 ∧ tree1.hasNode i = some true := by
  obtain ⟨s, hs⟩ := tree.resolveSlot_isSome i hc
  refine ⟨_, tree.allocateNode_eq i s hwf hs, ?_⟩
  have hs1 : ({ tree with root_node_ := tree.root_node_.allocatePath s.1 } :
      ChunkedNdtree α dim chunk_height).resolveSlot i = some s := hs
  rw [ChunkedNdtree.hasNode_eq _ i s hs1]
  simp only []
  rw [chunkAt_allocatePath_self s.1 tree.root_node_ hwf (tree.resolveSlot_bound i s hs)]

/-- C1 witness: a fresh 2-d tree of height 4 with chunks of height 2, index at height 0. -/
theorem C1_allocateNode_hasNode_witness :
    0 < 2 ∧ (ChunkedNdtree.init 4 : ChunkedNdtree Nat 2 2).wellFormed = true ∧
    ∃ tree1, (ChunkedNdtree.init 4 : ChunkedNdtree Nat 2 2).allocateNode ⟨0, [2, 1]⟩ = some tree1 ∧
      tree1.hasNode ⟨0, [2, 1]⟩ = some true :=
  ⟨by decide, by decide,
    C1_allocateNode_hasNode (ChunkedNdtree.init 4) ⟨0, [2, 1]⟩ (by decide) (by decide)⟩

/-- C7: for every tree and index `i` with `hasNode(i)` true, `resetNode(i)` returns, after it
the payload read through `getNodeData(i)` is the default value `NodeDataType{}`, and
`hasNode(i)` is still true. -/
theorem C7_resetNode_default {α : Type} [Inhabited α] {dim chunk_height : Nat}
    (tree : ChunkedNdtree α dim chunk_height) (i : NdtreeIndex dim)
    (h : tree.hasNode i = some true) :
    ∃ tree1, tree.resetNode i = some tree1 ∧ tree1.readNode i = some (some default) ∧
      tree1.hasNode i = some true := by
  obtain ⟨s, hs, hex⟩ := tree.hasNode_true_resolveSlot i h
  refine ⟨_, tree.resetNode_eq i s hs, ?_, ?_⟩
  · have hs1 : ({ tree with root_node_ := tree.root_node_.writeAt s.1 s.2 default } :
        ChunkedNdtree α dim chunk_height).resolveSlot i = some s := hs
    rw [ChunkedNdtree.readNode_eq _ i s hs1]
    simp only []
    rw [loadAt_writeAt]
    cases hc : tree.root_node_.chunkAt s.1 with
    | none => simp [hc] at hex
    | some c => simp [loadAt, hc]
  · have hs1 : ({ tree with root_node_ := tree.root_node_.writeAt s.1 s.2 default } :
        ChunkedNdtree α dim chunk_height).resolveSlot i = some s := hs
    rw [ChunkedNdtree.hasNode_eq _ i s hs1]
    simp only []
    rw [isSome_chunkAt_writeAt, hex]

/-- C7 witness: the 1-d tree of height 2 with chunks of height 1 in which node `(0, [3])`
holds payload 7. -/
theorem C7_resetNode_default_witness :
    exampleTree.hasNode ⟨0, [3]⟩ = some true ∧
    ∃ tree1, exampleTree.resetNode ⟨0, [3]⟩ = some tree1 ∧
      tree1.readNode ⟨0, [3]⟩ = some (some default) ∧ tree1.hasNode ⟨0, [3]⟩ = some true :=
  ⟨by decide, C7_resetNode_default exampleTree ⟨0, [3]⟩ (by decide)⟩

/-- C8: absence is signalled by a null pointer. For every tree and index, `hasNode(i)` returns
a boolean; the read-only `getNodeData(i)` and `getNodeData(i, false)` return null exactly when
`hasNode(i)` is false and otherwise the pointer to the slot the resolver found, leaving the
tree unchanged; `getNodeData(i, true)` never returns null. -/
theorem C8_absence_is_null {α : Type} {dim chunk_height : Nat}
    (tree : ChunkedNdtree α dim chunk_height) (i : NdtreeIndex dim)
    (hc : 0 < chunk_height) (hwf : tree.wellFormed = true) :
    ∃ found : Option Slot,
      tree.getNodeAndRelativeIndexConst i = some found ∧
      tree.hasNode i = some found.isSome ∧
      tree.getNodeDataConst i = some found ∧
      tree.getNodeData i false = some (tree, found) ∧
      (found = none ↔ tree.hasNode i = some false) ∧
      ∃ tree1 s, tree.getNodeData i true = some (tree1, some s) := by
  obtain ⟨s, hs⟩ := tree.resolveSlot_isSome i hc
  refine ⟨if (tree.root_node_.chunkAt s.1).isSome then some s else none,
    tree.getNodeAndRelativeIndexConst_eq i s hs, ?_, ?_, ?_, ?_, ?_⟩
  · rw [tree.hasNode_eq i s hs]
    by_cases hex : (tree.root_node_.chunkAt s.1).isSome = true
    · simp [hex]
    · simp [hex]
  · unfold ChunkedNdtree.getNodeDataConst
    rw [tree.getNodeAndRelativeIndexConst_eq i s hs]
    by_cases hex : (tree.root_node_.chunkAt s.1).isSome = true
    · simp [hex]
    · simp [hex]
  · unfold ChunkedNdtree.getNodeData
    rw [tree.getNodeAndRelativeIndex_false_eq i s hs]
    by_cases hex : (tree.root_node_.chunkAt s.1).isSome = true
    · simp [hex]
    · simp [hex]
  · rw [tree.hasNode_eq i s hs]
    by_cases hex : (tree.root_node_.chunkAt s.1).isSome = true
    · simp [hex]
    · simp [hex]
  · refine ⟨{ tree with root_node_ := tree.root_node_.allocatePath s.1 }, s, ?_⟩
    unfold ChunkedNdtree.getNodeData
    rw [tree.getNodeAndRelativeIndex_true_eq i s hwf hs]

/-- C8 witness: a fresh 2-d tree of height 4 with chunks of height 2, index at height 0. -/
theorem C8_absence_is_null_witness :
    0 < 2 ∧ (ChunkedNdtree.init 4 : ChunkedNdtree Nat 2 2).wellFormed = true ∧
    ∃ found : Option Slot,
      (ChunkedNdtree.init 4 : ChunkedNdtree Nat 2 2).getNodeAndRelativeIndexConst ⟨0, [2, 1]⟩
        = some found ∧
      (ChunkedNdtree.init 4 : ChunkedNdtree Nat 2 2).hasNode ⟨0, [2, 1]⟩ = some found.isSome ∧
      (ChunkedNdtree.init 4 : ChunkedNdtree Nat 2 2).getNodeDataConst ⟨0, [2, 1]⟩ = some found ∧
      (ChunkedNdtree.init 4 : ChunkedNdtree Nat 2 2).getNodeData ⟨0, [2, 1]⟩ false
        = some (ChunkedNdtree.init 4, found) ∧
      (found = none ↔
        (ChunkedNdtree.init 4 : ChunkedNdtree Nat 2 2).hasNode ⟨0, [2, 1]⟩ = some false) ∧
      ∃ tree1 s, (ChunkedNdtree.init 4 : ChunkedNdtree Nat 2 2).getNodeData ⟨0, [2, 1]⟩ true
        = some (tree1, some s) :=
  ⟨by decide, by decide,
    C8_absence_is_null (ChunkedNdtree.init 4) ⟨0, [2, 1]⟩ (by decide) (by decide)⟩

/-- C10: for every tree, `size()` is `kNumInnerNodes` times the number of chunks reachable
from the root through present child handles (root included, each counted once), and that
number is the number of chunk pointers the preorder generator produces: the generator yields
no pointer twice and yields exactly the pointers of the reachable chunks. -/
theorem C10_size_counts_reachable_chunks {α : Type} {dim chunk_height : Nat}
    (kNumInnerNodes : Nat) (tree : ChunkedNdtree α dim chunk_height) :
    tree.size kNumInnerNodes = kNumInnerNodes * tree.root_node_.numChunks ∧
    tree.root_node_.numChunks = tree.root_node_.preorder.length ∧
    tree.root_node_.preorder.Nodup ∧
    ∀ p : ChunkPath, p ∈ tree.root_node_.preorder ↔ (tree.root_node_.chunkAt p).isSome = true := by
  refine ⟨?_, (length_preorder _).symm, nodup_preorder _, mem_preorder _⟩
  unfold ChunkedNdtree.size
  simp only [length_preorder]
  exact Nat.mul_comm _ _

/-- C9 (amended): for `chunk_height = 1` and every index `i` with `0 <= i.height <
max_height`, address resolution with allocation returns a pointer, the child slots followed
from the root ended by the returned relative index are exactly the per-level child indices of
the naive one-level-per-step walk from height `max_height - 1` down to `i.height`, and the
returned chunk is the chunk reached along these slots in the resulting tree. -/
theorem C9_single_level_matches_naive_walk {α : Type} {dim : Nat}
    (tree : ChunkedNdtree α dim 1) (i : NdtreeIndex dim)
    (hwf : tree.wellFormed = true) (hlt : i.height < tree.max_height_) :
    ∃ tree1 s, tree.getNodeAndRelativeIndex i true = some (tree1, some s) ∧
      s.1 ++ [s.2] = naiveWalk tree.max_height_ i ∧
      (tree1.root_node_.chunkAt s.1).isSome = true := by
  obtain ⟨s, hs⟩ := tree.resolveSlot_isSome i (by decide)
  refine ⟨_, s, tree.getNodeAndRelativeIndex_true_eq i s hwf hs, ?_, ?_⟩
  · unfold ChunkedNdtree.resolveSlot at hs
    have h1 := resolvePath_one_eq_naive dim (convert.nodeIndexToMorton i) i.height
      (tree.descentFuel i) tree.max_height_ (tree.max_height_ - (1 : Nat)) s (by simp) hlt hs
    rw [h1]
    exact naiveChildIndices_fuel dim _ i.height _ _ tree.max_height_
      (by unfold ChunkedNdtree.descentFuel; omega) (by omega)
  · exact chunkAt_allocatePath_self s.1 tree.root_node_ hwf (tree.resolveSlot_bound i s hs)

/-- C9 witness: node `(0, [3])` of the example tree of height 2. -/
theorem C9_single_level_matches_naive_walk_witness :
    exampleTree.wellFormed = true ∧ (0 : Int) < exampleTree.max_height_ ∧
    ∃ tree1 s, exampleTree.getNodeAndRelativeIndex ⟨0, [3]⟩ true = some (tree1, some s) ∧
      s.1 ++ [s.2] = naiveWalk exampleTree.max_height_ (⟨0, [3]⟩ : NdtreeIndex 1) ∧
      (tree1.root_node_.chunkAt s.1).isSome = true :=
  ⟨by decide, by decide,
    C9_single_level_matches_naive_walk exampleTree ⟨0, [3]⟩ (by decide) (by decide)⟩

/-- C9 counterexample: in a fresh 1-d tree of height 1 with chunks of height 1 the valid index
`(1, [0])` of the root node resolves with no hop to relative index 0, so the followed slots
ended by the relative index are `[0]`, while the naive walk from height `max_height - 1` down
to height `max_height` has no step. -/
theorem C9_counterexample_root_index :
    (⟨1, [0]⟩ : NdtreeIndex 1).valid 1 ∧
    ¬ ∃ tree1 s, (ChunkedNdtree.init 1 : ChunkedNdtree Nat 1 1).getNodeAndRelativeIndex
          ⟨1, [0]⟩ true = some (tree1, some s) ∧
        s.1 ++ [s.2] = naiveWalk 1 (⟨1, [0]⟩ : NdtreeIndex 1) := by
  refine ⟨by decide, ?_⟩
  rintro ⟨tree1, s, h1, h2⟩
  have hres : (ChunkedNdtree.init 1 : ChunkedNdtree Nat 1 1).getNodeAndRelativeIndex
      ⟨1, [0]⟩ true = some (ChunkedNdtree.init 1, some ([], 0)) := rfl
  rw [hres] at h1
  simp only [Option.some.injEq, Prod.mk.injEq] at h1
  obtain ⟨-, hs⟩ := h1
  subst hs
  revert h2
  decide

/-- C5: `prune()` is idempotent. For every (well-typed) tree state a second `prune()` directly
after a first one leaves the tree unchanged, so `size()` is unchanged and `getMemoryUsage()`
returns the same value after the second call as after the first. -/
theorem C5_prune_idempotent {α : Type} [Inhabited α] [DecidableEq α] {dim chunk_height : Nat}
    (kNumInnerNodes node_bytes children_array_bytes : Nat)
    (tree : ChunkedNdtree α dim chunk_height) (hwf : tree.wellFormed = true) :
    tree.prune.prune = tree.prune ∧
    tree.prune.prune.size kNumInnerNodes = tree.prune.size kNumInnerNodes ∧
    ∃ bytes, tree.prune.getMemoryUsage node_bytes children_array_bytes = some bytes ∧
      tree.prune.prune.getMemoryUsage node_bytes children_array_bytes = some bytes := by
  have h := tree.prune_prune hwf
  refine ⟨h, by rw [h], _, ChunkedNdtree.getMemoryUsage_eq _ _ _ (tree.wellFormed_prune hwf), ?_⟩
  rw [h]
  exact ChunkedNdtree.getMemoryUsage_eq _ _ _ (tree.wellFormed_prune hwf)

/-- C5 witness: the example tree holding one non-default payload. -/
theorem C5_prune_idempotent_witness :
    exampleTree.wellFormed = true ∧
    exampleTree.prune.prune = exampleTree.prune ∧
    exampleTree.prune.prune.size 3 = exampleTree.prune.size 3 ∧
    ∃ bytes, exampleTree.prune.getMemoryUsage 24 16 = some bytes ∧
      exampleTree.prune.prune.getMemoryUsage 24 16 = some bytes :=
  ⟨by decide, C5_prune_idempotent 3 24 16 exampleTree (by decide)⟩

/-- C4: `prune()` preserves data. For every (well-typed) tree and valid index `i` such that
`hasNode(i)` holds before `prune()` and the payload of node `i`, or of some allocated
descendant node of `i`, is non-default: after `prune()` `hasNode(i)` still holds and
`getNodeData(i)` reads the same payload as before. -/
theorem C4_prune_preserves_data {α : Type} [Inhabited α] [DecidableEq α]
    {dim chunk_height : Nat} (tree : ChunkedNdtree α dim chunk_height) (i : NdtreeIndex dim)
    (hwf : tree.wellFormed = true) (hvi : i.valid tree.max_height_)
    (hhas : tree.hasNode i = some true)
    (hdata : (∃ v, tree.readNode i = some (some v) ∧ v ≠ default) ∨
      ∃ j v, j.isDescendantOf i ∧ j.valid tree.max_height_ ∧ tree.hasNode j = some true ∧
        tree.readNode j = some (some v) ∧ v ≠ default) :
    tree.prune.hasNode i = some true ∧ tree.prune.readNode i = tree.readNode i := by
  obtain ⟨si, hsi, hexi⟩ := tree.hasNode_true_resolveSlot i hhas
  cases hci : tree.root_node_.chunkAt si.1 with
  | none => simp [hci] at hexi
  | some ci =>
    have hwfi := wellFormed_chunkAt si.1 tree.root_node_ ci hwf hci
    have hne : (pruneSubtree ci).empty = false := by
      rcases hdata with ⟨v, hread, hv⟩ | ⟨j, v, hdesc, hvj, hhasj, hread, hv⟩
      · rw [tree.readNode_eq i si hsi] at hread
        simp only [Option.some.injEq] at hread
        apply pruneSubtree_nonEmpty_of_load ci [] si.2 v hwfi _ hv
        simpa [loadAt, chunkAt, hci] using hread
      · obtain ⟨sj, hsj, -⟩ := tree.hasNode_true_resolveSlot j hhasj
        rw [tree.readNode_eq j sj hsj] at hread
        simp only [Option.some.injEq] at hread
        obtain ⟨q, hq⟩ := resolvePath_extends dim chunk_height _ _ i.height j.height
          (Int.le_of_lt hdesc.1) (nodeIndexToMorton_descendant tree.max_height_ i j hvi hvj hdesc)
          _ _ _ _ si sj hsi hsj
        apply pruneSubtree_nonEmpty_of_load ci q sj.2 v hwfi _ hv
        rw [loadAt, hq, chunkAt_append, hci] at hread
        exact hread
    obtain ⟨h1, h2⟩ := pruneSubtree_keeps tree.root_node_ ci si.1 si.2 hwf hci hne
    have hsp : tree.prune.resolveSlot i = some si := hsi
    refine ⟨?_, ?_⟩
    · rw [ChunkedNdtree.hasNode_eq _ i si hsp]
      exact congrArg some h1
    · rw [ChunkedNdtree.readNode_eq _ i si hsp, tree.readNode_eq i si hsi]
      exact congrArg some h2

/-- C4 witness: in the example tree of height 3 node `(1, [3])` holds the default payload and
its descendant `(0, [7])` holds payload 9. -/
theorem C4_prune_preserves_data_witness :
    exampleTreeDeep.wellFormed = true ∧
    (⟨1, [3]⟩ : NdtreeIndex 1).valid exampleTreeDeep.max_height_ ∧
    exampleTreeDeep.hasNode ⟨1, [3]⟩ = some true ∧
    ((∃ v, exampleTreeDeep.readNode ⟨1, [3]⟩ = some (some v) ∧ v ≠ default) ∨
      ∃ j v, j.isDescendantOf (⟨1, [3]⟩ : NdtreeIndex 1) ∧ j.valid exampleTreeDeep.max_height_ ∧
        exampleTreeDeep.hasNode j = some true ∧
        exampleTreeDeep.readNode j = some (some v) ∧ v ≠ default) ∧
    exampleTreeDeep.prune.hasNode ⟨1, [3]⟩ = some true ∧
    exampleTreeDeep.prune.readNode ⟨1, [3]⟩ = exampleTreeDeep.readNode ⟨1, [3]⟩ :=
  have hd : (∃ v, exampleTreeDeep.readNode ⟨1, [3]⟩ = some (some v) ∧ v ≠ default) ∨
      ∃ j v, j.isDescendantOf (⟨1, [3]⟩ : NdtreeIndex 1) ∧ j.valid exampleTreeDeep.max_height_ ∧
        exampleTreeDeep.hasNode j = some true ∧
        exampleTreeDeep.readNode j = some (some v) ∧ v ≠ default :=
    Or.inr ⟨⟨0, [7]⟩, 9, by decide, by decide, by decide, by decide, by decide⟩
  ⟨by decide, by decide, by decide, hd,
    C4_prune_preserves_data exampleTreeDeep ⟨1, [3]⟩ (by decide) (by decide) (by decide) hd⟩

/-- C6: for every (well-typed) tree and index `i` whose resolution path `p ++ r` passes
through a child chunk `p` that is absent after `prune()` (in particular one that `prune()`
deleted), `hasNode(i)` returns false after `prune()`; a subsequent `allocateNode(i)` returns,
after it `hasNode(i)` is true and `getNodeData(i)` reads the default payload. -/
theorem C6_pruned_region_absent_then_default {α : Type} [Inhabited α] [DecidableEq α]
    {dim chunk_height : Nat} (tree : ChunkedNdtree α dim chunk_height) (i : NdtreeIndex dim)
    (p r : ChunkPath) (rel : LinearIndex)
    (hc : 0 < chunk_height) (hwf : tree.wellFormed = true)
    (hres : (tree.getNodeAndRelativeIndex i true).map Prod.snd = some (some (p ++ r, rel)))
    (hdel : (tree.prune.root_node_.chunkAt p).isSome = false) :
    tree.prune.hasNode i = some false ∧
    ∃ tree1, tree.prune.allocateNode i = some tree1 ∧ tree1.hasNode i = some true ∧
      tree1.readNode i = some (some default) := by
  obtain ⟨s, hs⟩ := tree.resolveSlot_isSome i hc
  rw [tree.getNodeAndRelativeIndex_true_eq i s hwf hs] at hres
  simp only [Option.map_some', Option.some.injEq] at hres
  subst hres
  have hwfp := tree.wellFormed_prune hwf
  have hsp : tree.prune.resolveSlot i = some (p ++ r, rel) := hs
  have hb := tree.resolveSlot_bound i _ hs
  have hnone : tree.prune.root_node_.chunkAt (p ++ r) = none := by
    apply chunkAt_append_none
    cases h : tree.prune.root_node_.chunkAt p with
    | none => rfl
    | some x => simp [h] at hdel
  refine ⟨?_, _, tree.prune.allocateNode_eq i _ hwfp hsp, ?_, ?_⟩
  · rw [ChunkedNdtree.hasNode_eq _ i _ hsp]
    simp only [hnone, Option.isSome_none]
  · have hs1 : ({ tree.prune with root_node_ := tree.prune.root_node_.allocatePath (p ++ r) } :
        ChunkedNdtree α dim chunk_height).resolveSlot i = some (p ++ r, rel) := hs
    rw [ChunkedNdtree.hasNode_eq _ i _ hs1]
    exact congrArg some (chunkAt_allocatePath_self (p ++ r) _ hwfp hb)
  · have hs1 : ({ tree.prune with root_node_ := tree.prune.root_node_.allocatePath (p ++ r) } :
        ChunkedNdtree α dim chunk_height).resolveSlot i = some (p ++ r, rel) := hs
    rw [ChunkedNdtree.readNode_eq _ i _ hs1]
    have hex := chunkAt_allocatePath_self (p ++ r) tree.prune.root_node_ hwfp hb
    cases hl : (tree.prune.root_node_.allocatePath (p ++ r)).loadAt (p ++ r) rel with
    | none =>
      simp only [loadAt, Option.map_eq_none'] at hl
      rw [hl] at hex
      cases hex
    | some v =>
      rcases loadAt_allocatePath_cases (p ++ r) _ (p ++ r) rel v hwfp hb hl with h1 | h1
      · simp [loadAt, hnone] at h1
      · simp only [hl, h1]

/-- C6 witness: in the example tree of height 2 the child chunk in slot 1 holds default
payloads only; `prune()` deletes it, and node `(0, [3])` resolves through it. -/
theorem C6_pruned_region_absent_then_default_witness :
    0 < 1 ∧ exampleTreeAllocated.wellFormed = true ∧
    (exampleTreeAllocated.root_node_.chunkAt [1]).isSome = true ∧
    (exampleTreeAllocated.getNodeAndRelativeIndex ⟨0, [3]⟩ true).map Prod.snd
      = some (some ([1] ++ [], 1)) ∧
    (exampleTreeAllocated.prune.root_node_.chunkAt [1]).isSome = false ∧
    exampleTreeAllocated.prune.hasNode ⟨0, [3]⟩ = some false ∧
    ∃ tree1, exampleTreeAllocated.prune.allocateNode ⟨0, [3]⟩ = some tree1 ∧
      tree1.hasNode ⟨0, [3]⟩ = some true ∧ tree1.readNode ⟨0, [3]⟩ = some (some default) :=
  ⟨by decide, by decide, by decide, by decide, by decide,
    C6_pruned_region_absent_then_default exampleTreeAllocated ⟨0, [3]⟩ [1] [] 1
      (by decide) (by decide) (by decide) (by decide)⟩

/-- C3 (amended): for every (well-typed) tree and any two valid indices `i != j` of the same
height (so differing in position), resolving both with auto-allocation yields different
`(chunk, relative_index)` pairs, and a write through the pointer `getNodeData(i, true)`
returned does not change the value read through `getNodeData(j)`. -/
theorem C3_same_height_distinct_slots {α : Type} [Inhabited α] {dim chunk_height : Nat}
    (tree : ChunkedNdtree α dim chunk_height) (i j : NdtreeIndex dim)
    (hc : 0 < chunk_height) (hwf : tree.wellFormed = true)
    (hvi : i.valid tree.max_height_) (hvj : j.valid tree.max_height_)
    (hh : i.height = j.height) (hne : i ≠ j) :
    ∃ ti si tj sj, tree.getNodeData i true = some (ti, some si) ∧
      tree.getNodeData j true = some (tj, some sj) ∧ si ≠ sj ∧
      ∀ v, (ti.store si v).readNode j = ti.readNode j := by
  obtain ⟨si, hsi⟩ := tree.resolveSlot_isSome i hc
  obtain ⟨sj, hsj⟩ := tree.resolveSlot_isSome j hc
  have hdiff := resolveSlot_ne_of_same_height tree i j si sj hvi hvj hh hne hsi hsj
  refine ⟨_, si, _, sj, tree.getNodeData_true_eq i si hwf hsi,
    tree.getNodeData_true_eq j sj hwf hsj, hdiff, ?_⟩
  intro v
  have hs1 : ({ tree with root_node_ := tree.root_node_.allocatePath si.1 } :
      ChunkedNdtree α dim chunk_height).resolveSlot j = some sj := hsj
  have hs2 : (({ tree with root_node_ := tree.root_node_.allocatePath si.1 } :
      ChunkedNdtree α dim chunk_height).store si v).resolveSlot j = some sj := hsj
  rw [ChunkedNdtree.readNode_eq _ j sj hs1, ChunkedNdtree.readNode_eq _ j sj hs2]
  simp only [ChunkedNdtree.store]
  rw [loadAt_writeAt]
  have hcond : ¬ (sj.1 = si.1 ∧ sj.2 = si.2) := fun h => hdiff (Prod.ext h.1.symm h.2.symm)
  simp only [hcond, if_false]

/-- C3 witness: the two leaf nodes `(0, [2])` and `(0, [3])` of the example tree. -/
theorem C3_same_height_distinct_slots_witness :
    0 < 1 ∧ exampleTree.wellFormed = true ∧
    (⟨0, [2]⟩ : NdtreeIndex 1).valid exampleTree.max_height_ ∧
    (⟨0, [3]⟩ : NdtreeIndex 1).valid exampleTree.max_height_ ∧
    (⟨0, [2]⟩ : NdtreeIndex 1).height = (⟨0, [3]⟩ : NdtreeIndex 1).height ∧
    (⟨0, [2]⟩ : NdtreeIndex 1) ≠ ⟨0, [3]⟩ ∧
    ∃ ti si tj sj, exampleTree.getNodeData ⟨0, [2]⟩ true = some (ti, some si) ∧
      exampleTree.getNodeData ⟨0, [3]⟩ true = some (tj, some sj) ∧ si ≠ sj ∧
      ∀ v, (ti.store si v).readNode ⟨0, [3]⟩ = ti.readNode ⟨0, [3]⟩ :=
  ⟨by decide, by decide, by decide, by decide, by decide, by decide,
    C3_same_height_distinct_slots exampleTree ⟨0, [2]⟩ ⟨0, [3]⟩ (by decide) (by decide)
      (by decide) (by decide) (by decide) (by decide)⟩

/-- C3 counterexample: in a fresh 1-d tree of height 1 with chunks of height 1 the distinct
valid indices `(1, [0])` (the root node) and `(0, [0])` (its first child) both resolve to slot
0 of the root chunk, and the write of 5 through `getNodeData` for `(1, [0])` changes the
value read for `(0, [0])` from 0 to 5. -/
theorem C3_counterexample_shared_slot :
    (⟨1, [0]⟩ : NdtreeIndex 1).valid 1 ∧ (⟨0, [0]⟩ : NdtreeIndex 1).valid 1 ∧
    (⟨1, [0]⟩ : NdtreeIndex 1) ≠ ⟨0, [0]⟩ ∧
    (ChunkedNdtree.init 1 : ChunkedNdtree Nat 1 1).slotOf ⟨1, [0]⟩ = some (some ([], 0)) ∧
    (ChunkedNdtree.init 1 : ChunkedNdtree Nat 1 1).slotOf ⟨0, [0]⟩ = some (some ([], 0)) ∧
    (ChunkedNdtree.init 1 : ChunkedNdtree Nat 1 1).readNode ⟨0, [0]⟩ = some (some 0) ∧
    ((ChunkedNdtree.init 1 : ChunkedNdtree Nat 1 1).writeNode ⟨1, [0]⟩ 5).bind
      (fun t => t.readNode ⟨0, [0]⟩) = some (some 5) := by
  decide

/-- C2 (amended): round trip through prune. Starting from a fresh tree, for every finite list
of indices that resolve to pairwise distinct payload slots, each written once (through
`getNodeData` with `auto_allocate = true`) with a non-default payload: all writes return,
after `prune()` every written index reads back exactly the payload written to it, and every
index whose slot is not the slot of a written index reads as absent (null) or as the default
payload. -/
theorem C2_round_trip_distinct_slots {α : Type} [Inhabited α] [DecidableEq α]
    {dim chunk_height : Nat} (max_height : Int) (ws : List (NdtreeIndex dim × α))
    (hc : 0 < chunk_height)
    (hdist : (ws.map (fun w =>
      (ChunkedNdtree.init max_height : ChunkedNdtree α dim chunk_height).slotOf w.1)).Nodup)
    (hnd : ∀ w ∈ ws, w.2 ≠ default) :
    ∃ tree : ChunkedNdtree α dim chunk_height,
      (ChunkedNdtree.init max_height).writeNodes ws = some tree ∧
      (∀ w ∈ ws, tree.prune.readNode w.1 = some (some w.2)) ∧
      ∀ j : NdtreeIndex dim,
        (∀ w ∈ ws, (ChunkedNdtree.init max_height : ChunkedNdtree α dim chunk_height).slotOf j ≠
          (ChunkedNdtree.init max_height : ChunkedNdtree α dim chunk_height).slotOf w.1) →
        tree.prune.readNode j = some none ∨ tree.prune.readNode j = some (some default) := by
  have hwf0 : (ChunkedNdtree.init max_height : ChunkedNdtree α dim chunk_height).wellFormed
      = true := wellFormed_fresh
  have hslot : ∀ i : NdtreeIndex dim,
      (ChunkedNdtree.init max_height : ChunkedNdtree α dim chunk_height).slotOf i =
        some ((ChunkedNdtree.init max_height : ChunkedNdtree α dim chunk_height).resolveSlot i) := by
    intro i
    obtain ⟨s, hs⟩ := (ChunkedNdtree.init max_height :
      ChunkedNdtree α dim chunk_height).resolveSlot_isSome i hc
    rw [ChunkedNdtree.slotOf_eq _ i s hwf0 hs, hs]
  have hdist1 : (ws.map (fun w =>
      (ChunkedNdtree.init max_height : ChunkedNdtree α dim chunk_height).resolveSlot w.1)).Nodup := by
    have h1 : ws.map (fun w =>
        (ChunkedNdtree.init max_height : ChunkedNdtree α dim chunk_height).slotOf w.1) =
        (ws.map (fun w => (ChunkedNdtree.init max_height :
          ChunkedNdtree α dim chunk_height).resolveSlot w.1)).map some := by
      rw [List.map_map]
      apply List.map_congr_left
      intro w _
      exact hslot w.1
    rw [h1] at hdist
    exact List.Nodup.of_map _ hdist
  obtain ⟨tree, hw, hwft, hmax, h1, h2, -⟩ := writeNodes_spec hc ws _ hwf0 hdist1
  refine ⟨tree, hw, ?_, ?_⟩
  · intro w hwmem
    obtain ⟨s, hs⟩ := (ChunkedNdtree.init max_height :
      ChunkedNdtree α dim chunk_height).resolveSlot_isSome w.1 hc
    have hl := h1 w hwmem s hs
    have hsp : tree.prune.resolveSlot w.1 = some s := by
      rw [← hs]
      exact ChunkedNdtree.resolveSlot_congr _ _ _ hmax
    rw [ChunkedNdtree.readNode_eq _ w.1 s hsp]
    cases hci : tree.root_node_.chunkAt s.1 with
    | none => simp [loadAt, hci] at hl
    | some ci =>
      have hwfi := wellFormed_chunkAt s.1 tree.root_node_ ci hwft hci
      have hne : (pruneSubtree ci).empty = false := by
        apply pruneSubtree_nonEmpty_of_load ci [] s.2 w.2 hwfi _ (hnd w hwmem)
        simpa [loadAt, chunkAt, hci] using hl
      obtain ⟨-, hk⟩ := pruneSubtree_keeps tree.root_node_ ci s.1 s.2 hwft hci hne
      show some ((pruneSubtree tree.root_node_).loadAt s.1 s.2) = some (some w.2)
      rw [hk, hl]
  · intro j hj
    obtain ⟨s, hs⟩ := (ChunkedNdtree.init max_height :
      ChunkedNdtree α dim chunk_height).resolveSlot_isSome j hc
    have hsp : tree.prune.resolveSlot j = some s := by
      rw [← hs]
      exact ChunkedNdtree.resolveSlot_congr _ _ _ hmax
    rw [ChunkedNdtree.readNode_eq _ j s hsp]
    cases hl : tree.prune.root_node_.loadAt s.1 s.2 with
    | none => exact Or.inl rfl
    | some v =>
      right
      have hl0 := loadAt_pruneSubtree_some tree.root_node_ s.1 s.2 v hwft hl
      rcases h2 s.1 s.2 v hl0 with h3 | h3 | ⟨w, hwmem, hsw, -⟩
      · rw [loadAt_fresh s.1 s.2 v h3]
      · rw [h3]
      · exfalso
        apply hj w hwmem
        rw [hslot j, hslot w.1, hs, hsw]

/-- C2 witness: a fresh 1-d tree of height 2 with chunks of height 1; nodes `(0, [3])` and
`(1, [1])` span two heights, resolve to different slots and are written with payloads 7
and 8. -/
theorem C2_round_trip_distinct_slots_witness :
    0 < 1 ∧
    ([(⟨0, [3]⟩, 7), (⟨1, [1]⟩, 8)].map (fun w : NdtreeIndex 1 × Nat =>
      (ChunkedNdtree.init 2 : ChunkedNdtree Nat 1 1).slotOf w.1)).Nodup ∧
    (∀ w ∈ [((⟨0, [3]⟩ : NdtreeIndex 1), 7), (⟨1, [1]⟩, 8)], w.2 ≠ default) ∧
    ∃ tree : ChunkedNdtree Nat 1 1,
      (ChunkedNdtree.init 2).writeNodes [(⟨0, [3]⟩, 7), (⟨1, [1]⟩, 8)] = some tree ∧
      (∀ w ∈ [((⟨0, [3]⟩ : NdtreeIndex 1), 7), (⟨1, [1]⟩, 8)],
        tree.prune.readNode w.1 = some (some w.2)) ∧
      ∀ j : NdtreeIndex 1,
        (∀ w ∈ [((⟨0, [3]⟩ : NdtreeIndex 1), 7), (⟨1, [1]⟩, 8)],
          (ChunkedNdtree.init 2 : ChunkedNdtree Nat 1 1).slotOf j ≠
          (ChunkedNdtree.init 2 : ChunkedNdtree Nat 1 1).slotOf w.1) →
        tree.prune.readNode j = some none ∨ tree.prune.readNode j = some (some default) :=
  ⟨by decide, by decide, by decide,
    C2_round_trip_distinct_slots 2 [(⟨0, [3]⟩, 7), (⟨1, [1]⟩, 8)] (by decide) (by decide)
      (by decide)⟩

/-- C2 counterexample: in a fresh 1-d tree of height 1 with chunks of height 1 the distinct
valid indices `(1, [0])` and `(0, [0])`, of two heights, are written once each with the
non-default payloads 1 and 2; after `prune()` index `(1, [0])` reads 2, not the payload 1
written to it; and when only `(0, [0])` is written, the never-written valid index `(1, [0])`
reads 2, neither absent nor default. -/
theorem C2_counterexample_shared_slot :
    (∀ w ∈ [((⟨1, [0]⟩ : NdtreeIndex 1), 1), (⟨0, [0]⟩, 2)], w.1.valid 1 ∧ w.2 ≠ default) ∧
    ([((⟨1, [0]⟩ : NdtreeIndex 1), 1), (⟨0, [0]⟩, 2)].map Prod.fst).Nodup ∧
    ((ChunkedNdtree.init 1 : ChunkedNdtree Nat 1 1).writeNodes
        [(⟨1, [0]⟩, 1), (⟨0, [0]⟩, 2)]).bind (fun t => t.prune.readNode ⟨1, [0]⟩)
      = some (some 2) ∧
    ((ChunkedNdtree.init 1 : ChunkedNdtree Nat 1 1).writeNodes
        [(⟨0, [0]⟩, 2)]).bind (fun t => t.prune.readNode ⟨1, [0]⟩)
      = some (some 2) := by
  decide

end wavemap

/-! ## Lemmas on the two resolvers -/

namespace wavemap

open ChunkedNdtreeNode

variable {α : Type} {dim chunk_height : Nat}

theorem descend_false_eq_descendConst (code : MortonCode) (h : Int) :
    ∀ (fuel : Nat) (cur : ChunkedNdtreeNode α dim chunk_height) (ph ch : Int),
      ChunkedNdtree.descend code h false fuel cur ph ch =
        (ChunkedNdtree.descendConst code h fuel cur ph ch).map (fun found => (cur, found)) := by
  intro fuel
  induction fuel with
  | zero =>
    intro cur ph ch
    unfold ChunkedNdtree.descend ChunkedNdtree.descendConst
    by_cases hlt : h < ch
    · simp [hlt]
    · simp [hlt]
  | succ n ih =>
    intro cur ph ch
    unfold ChunkedNdtree.descend ChunkedNdtree.descendConst
    by_cases hlt : h < ch
    · simp only [hlt, if_true]
      cases hget : cur.getChild (NdtreeIndex.computeRelativeChildIndex dim code ph ch) with
      | none => simp [hasChild, hget]
      | some child =>
        simp only [hasChild, hget, Option.isSome_some, Bool.not_true, Bool.false_eq_true,
          if_false]
        rw [ih child (ph - chunk_height) (ch - chunk_height)]
        cases hrec : ChunkedNdtree.descendConst code h n child (ph - chunk_height)
            (ch - chunk_height) with
        | none => rfl
        | some found =>
          simp only [Option.map_some', setHandle_getChild_self cur child _ hget]
    · simp [hlt]

theorem descendConst_of_not_lt (code : MortonCode) (h : Int) (fuel : Nat)
    (cur : ChunkedNdtreeNode α dim chunk_height) (ph ch : Int) (hlt : ¬ h < ch) :
    ChunkedNdtree.descendConst code h fuel cur ph ch =
      some (some ([], NdtreeIndex.computeRelativeChildIndex dim code ph h)) := by
  unfold ChunkedNdtree.descendConst
  simp [hlt]

end wavemap

/-! ## Verified claims on the resolvers -/

namespace wavemap

open ChunkedNdtreeNode

/-- C13: the read-only resolver and the mutable resolver called with `auto_allocate = false`
are the same function. For every tree and every index the mutable resolver returns the result
of the read-only one (the same `(chunk, relative_index)` pair, or null for both) together
with the unchanged tree, and both return. -/
theorem C13_resolvers_agree {α : Type} {dim chunk_height : Nat}
    (tree : ChunkedNdtree α dim chunk_height) (i : NdtreeIndex dim) (hc : 0 < chunk_height) :
    tree.getNodeAndRelativeIndex i false =
      (tree.getNodeAndRelativeIndexConst i).map (fun found => (tree, found)) ∧
    ∃ found, tree.getNodeAndRelativeIndexConst i = some found := by
  constructor
  · unfold ChunkedNdtree.getNodeAndRelativeIndex ChunkedNdtree.getNodeAndRelativeIndexConst
    simp only []
    rw [descend_false_eq_descendConst]
    cases ChunkedNdtree.descendConst (convert.nodeIndexToMorton i) i.height
        (tree.descentFuel i) tree.root_node_ tree.max_height_
        (tree.max_height_ - chunk_height) with
    | none => rfl
    | some found => rfl
  · obtain ⟨s, hs⟩ := tree.resolveSlot_isSome i hc
    exact ⟨_, tree.getNodeAndRelativeIndexConst_eq i s hs⟩

/-- C13 witness: the example tree and the index of a node that is not allocated. -/
theorem C13_resolvers_agree_witness :
    0 < 1 ∧
    exampleTree.getNodeAndRelativeIndex ⟨0, [0]⟩ false =
      (exampleTree.getNodeAndRelativeIndexConst ⟨0, [0]⟩).map (fun found => (exampleTree, found)) ∧
    ∃ found, exampleTree.getNodeAndRelativeIndexConst ⟨0, [0]⟩ = some found :=
  ⟨by decide, C13_resolvers_agree exampleTree ⟨0, [0]⟩ (by decide)⟩

/-- C19: nodes stored in the root chunk always exist. For every tree state and every index
with `max_height - chunk_height <= height`, `hasNode` returns true, and the read-only
`getNodeData` and `getNodeData(i, false)` return a non-null pointer into the root chunk (the
empty chunk path), leaving the tree unchanged: no allocation is requested. -/
theorem C19_root_chunk_nodes_exist {α : Type} {dim chunk_height : Nat}
    (tree : ChunkedNdtree α dim chunk_height) (i : NdtreeIndex dim)
    (hh : tree.max_height_ - chunk_height ≤ i.height) :
    tree.hasNode i = some true ∧
    ∃ rel, tree.getNodeDataConst i = some (some ([], rel)) ∧
      tree.getNodeData i false = some (tree, some ([], rel)) := by
  have hlt : ¬ i.height < tree.max_height_ - chunk_height := by omega
  have hres : tree.getNodeAndRelativeIndexConst i = some (some ([],
      NdtreeIndex.computeRelativeChildIndex dim (convert.nodeIndexToMorton i)
        tree.max_height_ i.height)) :=
    descendConst_of_not_lt _ _ _ _ _ _ hlt
  refine ⟨?_, NdtreeIndex.computeRelativeChildIndex dim (convert.nodeIndexToMorton i)
    tree.max_height_ i.height, ?_, ?_⟩
  · unfold ChunkedNdtree.hasNode
    rw [hres]
    rfl
  · unfold ChunkedNdtree.getNodeDataConst
    rw [hres]
  · unfold ChunkedNdtree.getNodeData ChunkedNdtree.getNodeAndRelativeIndex
    simp only []
    rw [descend_false_eq_descendConst]
    have hres1 := hres
    unfold ChunkedNdtree.getNodeAndRelativeIndexConst at hres1
    simp only [] at hres1
    rw [hres1]
    rfl

/-- C19 witness: node `(1, [1])` of a fresh 1-d tree of height 2 with chunks of height 1. -/
theorem C19_root_chunk_nodes_exist_witness :
    (ChunkedNdtree.init 2 : ChunkedNdtree Nat 1 1).max_height_ - (1 : Nat)
      ≤ (⟨1, [1]⟩ : NdtreeIndex 1).height ∧
    (ChunkedNdtree.init 2 : ChunkedNdtree Nat 1 1).hasNode ⟨1, [1]⟩ = some true ∧
    ∃ rel, (ChunkedNdtree.init 2 : ChunkedNdtree Nat 1 1).getNodeDataConst ⟨1, [1]⟩
        = some (some ([], rel)) ∧
      (ChunkedNdtree.init 2 : ChunkedNdtree Nat 1 1).getNodeData ⟨1, [1]⟩ false
        = some (ChunkedNdtree.init 2, some ([], rel)) :=
  ⟨by decide, C19_root_chunk_nodes_exist (ChunkedNdtree.init 2) ⟨1, [1]⟩ (by decide)⟩

end wavemap

/-! ## Lemmas on memory accounting -/

namespace wavemap

open ChunkedNdtreeNode

variable {α : Type} {dim chunk_height : Nat}

theorem ownMemoryUsageAt_cons (nb cb : Nat) (d : List α)
    (pre t : List (Option (ChunkedNdtreeNode α dim chunk_height)))
    (c : ChunkedNdtreeNode α dim chunk_height) (q : ChunkPath) :
    ownMemoryUsageAt nb cb (mk d (some (pre ++ some c :: t))) (pre.length :: q) =
      ownMemoryUsageAt nb cb c q := by
  have hget : (mk d (some (pre ++ some c :: t))).getChild pre.length = some c :=
    getD_append_length pre (some c) t
  simp only [ownMemoryUsageAt, chunkAt, hget]

theorem sum_preorderChildren_own (nb cb : Nat) (d : List α) :
    ∀ (t pre : List (Option (ChunkedNdtreeNode α dim chunk_height))),
      (∀ c, some c ∈ t →
        memoryUsageRec nb cb c = ((preorder c).map (ownMemoryUsageAt nb cb c)).sum) →
      ((preorderChildren pre.length t).map
        (ownMemoryUsageAt nb cb (mk d (some (pre ++ t))))).sum =
        memoryUsageRecChildren nb cb t := by
  intro t
  induction t with
  | nil =>
    intro pre _
    simp [preorderChildren, memoryUsageRecChildren]
  | cons a t ih =>
    intro pre hrec
    have hrest := ih (pre ++ [a]) (fun c hc => hrec c (List.mem_cons_of_mem _ hc))
    simp only [List.length_append, List.length_singleton, List.append_assoc,
      List.singleton_append] at hrest
    cases a with
    | none =>
      simp only [preorderChildren, memoryUsageRecChildren]
      exact hrest
    | some c =>
      simp only [preorderChildren, memoryUsageRecChildren, List.map_append, List.sum_append,
        List.map_map, hrest]
      congr 1
      rw [hrec c (List.mem_cons_self _ _)]
      congr 1
      apply List.map_congr_left
      intro q _
      exact ownMemoryUsageAt_cons nb cb d pre t c q

/-- The recursive reference sum adds the own memory usage of every chunk the preorder
generator yields. -/
theorem memoryUsageRec_eq_sum_preorder (nb cb : Nat) :
    ∀ c : ChunkedNdtreeNode α dim chunk_height,
      memoryUsageRec nb cb c = ((preorder c).map (ownMemoryUsageAt nb cb c)).sum := by
  apply induct
  · intro d
    simp [memoryUsageRec, preorder, ownMemoryUsageAt, chunkAt, getMemoryUsage, hasChildrenArray]
  · intro d cs ih
    have h := sum_preorderChildren_own nb cb d cs [] ih
    simp only [List.length_nil, List.nil_append] at h
    simp only [memoryUsageRec, preorder, List.map_cons, List.sum_cons, h]
    simp [ownMemoryUsageAt, chunkAt, getMemoryUsage, hasChildrenArray]

theorem all_none_of_hasChild_false (d : List α)
    (cs : List (Option (ChunkedNdtreeNode α dim chunk_height)))
    (h : ∀ i, (mk d (some cs)).hasChild i = false) : ∀ x ∈ cs, x = none := by
  intro x hx
  obtain ⟨n, hn⟩ := List.getElem?_of_mem hx
  have h1 := h n
  simp only [hasChild, getChild, List.getD_eq_getElem?_getD, hn, Option.getD_some] at h1
  cases x with
  | none => rfl
  | some c => simp at h1

theorem pruneSubtree_of_no_child [Inhabited α] [DecidableEq α]
    (c : ChunkedNdtreeNode α dim chunk_height) (hwf : c.wellFormed = true)
    (h : ∀ i, c.hasChild i = false) : (pruneSubtree c).hasChildrenArray = false := by
  cases c with
  | mk d cs =>
    cases cs with
    | none =>
      rw [pruneSubtree_leaf]
      rfl
    | some l =>
      rw [wellFormed_mk_some] at hwf
      rw [pruneSubtree_inner d l hwf.1]
      have hall := all_none_of_hasChild_false d l h
      have hany : (l.map (Option.map pruneSubtree)).any nonEmptyHandle = false := by
        rw [List.any_eq_false]
        intro x hx
        obtain ⟨y, hy, hxy⟩ := List.mem_map.mp hx
        rw [hall y hy] at hxy
        rw [← hxy]
        simp [nonEmptyHandle]
      simp only [hany, Bool.false_eq_true, if_false]
      rfl

theorem memoryUsageRec_of_no_array (nb cb : Nat) (c : ChunkedNdtreeNode α dim chunk_height)
    (h : c.hasChildrenArray = false) : memoryUsageRec nb cb c = nb := by
  cases c with
  | mk d cs =>
    cases cs with
    | none => rfl
    | some l => simp [hasChildrenArray] at h

end wavemap

/-! ## Verified claims on memory accounting -/

namespace wavemap

open ChunkedNdtreeNode

/-- C11: for every (well-typed) tree the explicit-stack `getMemoryUsage()` returns, and its
value is the recursive reference sum of the chunks' own `getMemoryUsage()`, absent children
contributing nothing; this sum has one term for every chunk pointer the preorder generator
yields, that is, for every chunk reachable from the root, each counted exactly once. -/
theorem C11_getMemoryUsage_eq_reference_sum {α : Type} {dim chunk_height : Nat}
    (node_bytes children_array_bytes : Nat) (tree : ChunkedNdtree α dim chunk_height)
    (hwf : tree.wellFormed = true) :
    tree.getMemoryUsage node_bytes children_array_bytes =
      some (tree.root_node_.memoryUsageRec node_bytes children_array_bytes) ∧
    tree.root_node_.memoryUsageRec node_bytes children_array_bytes =
      (tree.root_node_.preorder.map
        (ownMemoryUsageAt node_bytes children_array_bytes tree.root_node_)).sum :=
  ⟨ChunkedNdtree.getMemoryUsage_eq _ _ tree hwf, memoryUsageRec_eq_sum_preorder _ _ _⟩

/-- C11 witness: the example tree of height 3 with three chunks, two of them with a children
array. -/
theorem C11_getMemoryUsage_eq_reference_sum_witness :
    exampleTreeDeep.wellFormed = true ∧
    exampleTreeDeep.getMemoryUsage 24 16 = some (exampleTreeDeep.root_node_.memoryUsageRec 24 16) ∧
    exampleTreeDeep.root_node_.memoryUsageRec 24 16 =
      (exampleTreeDeep.root_node_.preorder.map
        (ownMemoryUsageAt 24 16 exampleTreeDeep.root_node_)).sum :=
  ⟨by decide, C11_getMemoryUsage_eq_reference_sum 24 16 exampleTreeDeep (by decide)⟩

/-- C12: for every (well-typed) tree whose root chunk has no present child chunk, with or
without an allocated children array and whatever its payload slots hold, after `prune()` the
root has no children array and `getMemoryUsage()` returns the memory usage of one chunk
without a children array. -/
theorem C12_pruned_bare_root_memory {α : Type} [Inhabited α] [DecidableEq α]
    {dim chunk_height : Nat} (node_bytes children_array_bytes : Nat)
    (tree : ChunkedNdtree α dim chunk_height) (hwf : tree.wellFormed = true)
    (hbare : ∀ i, tree.root_node_.hasChild i = false) :
    tree.prune.root_node_.hasChildrenArray = false ∧
    tree.prune.getMemoryUsage node_bytes children_array_bytes =
      some ((ChunkedNdtreeNode.fresh : ChunkedNdtreeNode α dim chunk_height).getMemoryUsage
        node_bytes children_array_bytes) := by
  have h1 := pruneSubtree_of_no_child tree.root_node_ hwf hbare
  refine ⟨h1, ?_⟩
  rw [ChunkedNdtree.getMemoryUsage_eq _ _ _ (tree.wellFormed_prune hwf)]
  show some (memoryUsageRec node_bytes children_array_bytes (pruneSubtree tree.root_node_)) = _
  rw [memoryUsageRec_of_no_array _ _ _ h1]
  rfl

/-- C12 witness: a root chunk holding payload 4 with an allocated, all-absent children
array. -/
theorem C12_pruned_bare_root_memory_witness :
    exampleTreeBareArray.wellFormed = true ∧
    (∀ i, exampleTreeBareArray.root_node_.hasChild i = false) ∧
    exampleTreeBareArray.prune.root_node_.hasChildrenArray = false ∧
    exampleTreeBareArray.prune.getMemoryUsage 24 16 =
      some ((ChunkedNdtreeNode.fresh : ChunkedNdtreeNode Nat 1 1).getMemoryUsage 24 16) :=
  have hbare : ∀ i, exampleTreeBareArray.root_node_.hasChild i = false := by
    intro i
    cases i with
    | zero => rfl
    | succ n =>
      cases n with
      | zero => rfl
      | succ m => rfl
  ⟨by decide, hbare, C12_pruned_bare_root_memory 24 16 exampleTreeBareArray (by decide) hbare⟩

end wavemap

/-! ## Lemmas on the frame of allocation and reset -/

namespace wavemap

open ChunkedNdtreeNode

variable {α : Type} {dim chunk_height : Nat}

theorem allocatePath_of_exists :
    ∀ (p : ChunkPath) (c : ChunkedNdtreeNode α dim chunk_height),
      (c.chunkAt p).isSome = true → c.allocatePath p = c := by
  intro p
  induction p with
  | nil =>
    intro c _
    rfl
  | cons i rest ih =>
    intro c h
    cases hget : c.getChild i with
    | none => simp [chunkAt, hget] at h
    | some child =>
      have hh : c.hasChild i = true := by simp [hasChild, hget]
      simp only [chunkAt, hget] at h
      simp only [allocatePath, hh, Bool.not_true, Bool.false_eq_true, if_false, hget,
        ih child h]
      exact setHandle_getChild_self c child i hget

theorem isSome_chunkAt_allocatePath_of_isSome [Inhabited α]
    (q p : ChunkPath) (c : ChunkedNdtreeNode α dim chunk_height) (hwf : c.wellFormed = true)
    (hb : ∀ i ∈ q, i < kNumChildren dim chunk_height) (h : (c.chunkAt p).isSome = true) :
    ((c.allocatePath q).chunkAt p).isSome = true := by
  cases hc : c.chunkAt p with
  | none => simp [hc] at h
  | some x =>
    have hl : c.loadAt p 0 = some (x.data 0) := by simp [loadAt, hc]
    have hl2 := loadAt_allocatePath_of_some q c p 0 _ hwf hb hl
    cases hc2 : (c.allocatePath q).chunkAt p with
    | none => simp [loadAt, hc2] at hl2
    | some y => rfl

/-- A chunk present after allocation along `q` was present before or lies on `q`. -/
theorem chunkAt_allocatePath_new :
    ∀ (q : ChunkPath) (c : ChunkedNdtreeNode α dim chunk_height) (p : ChunkPath),
      c.wellFormed = true → (∀ i ∈ q, i < kNumChildren dim chunk_height) →
      ((c.allocatePath q).chunkAt p).isSome = true →
      (c.chunkAt p).isSome = true ∨ ∃ r, q = p ++ r := by
  intro q
  induction q with
  | nil =>
    intro c p _ _ h
    exact Or.inl h
  | cons i rest ih =>
    intro c p hwf hb h
    obtain ⟨child, hget, hwfc, heq⟩ := allocatePath_cons c i rest hwf
      (hb i (List.mem_cons_self _ _))
    obtain ⟨-, -, -, -, hhas⟩ := getChild_allocated c i hwf (hb i (List.mem_cons_self _ _))
    rw [heq] at h
    cases p with
    | nil => exact Or.inl rfl
    | cons j pr =>
      by_cases hji : j = i
      · subst hji
        simp only [chunkAt, getChild_setHandle_same _ j _ hhas] at h
        have hrec := ih child pr hwfc (fun k hk => hb k (List.mem_cons_of_mem _ hk)) h
        cases hgc : c.getChild j with
        | none =>
          have hh : c.hasChild j = false := by simp [hasChild, hgc]
          simp only [hh, Bool.not_false, if_true,
            getChild_allocateChild_same c j hwf (hb j (List.mem_cons_self _ _)),
            Option.some.injEq] at hget
          subst hget
          rcases hrec with h1 | ⟨r, hr⟩
          · cases pr with
            | nil => exact Or.inr ⟨rest, rfl⟩
            | cons k pr2 => simp [chunkAt, fresh, getChild] at h1
          · exact Or.inr ⟨r, by rw [hr]; rfl⟩
        | some c1 =>
          have hh : c.hasChild j = true := by simp [hasChild, hgc]
          simp only [hh, Bool.not_true, Bool.false_eq_true, if_false, hgc,
            Option.some.injEq] at hget
          subst hget
          rcases hrec with h1 | ⟨r, hr⟩
          · left
            simp only [chunkAt, hgc]
            exact h1
          · exact Or.inr ⟨r, by rw [hr]; rfl⟩
      · have hne : i ≠ j := fun hh => hji hh.symm
        left
        simp only [chunkAt, getChild_setHandle_ne _ i j _ hne] at h
        by_cases hh : c.hasChild i = true
        · simpa [hh, chunkAt] using h
        · simp only [hh, Bool.not_false, if_true, Bool.not_eq_true,
            getChild_allocateChild_ne c i j hne] at h
          simpa [chunkAt] using h

end wavemap

/-! ## Verified claims on allocation and reset -/

namespace wavemap

open ChunkedNdtreeNode

/-- C15: `allocateNode(i)` only adds chunks on the path to `i`. For every (well-typed) tree
and index `i`, `allocateNode(i)` returns; every index `j` with `hasNode(j)` before has
`hasNode(j)` after and `getNodeData(j)` reads the same payload; every chunk present after and
not before lies on the resolution path of `i` and all its payload slots hold the default
value; and if `hasNode(i)` already holds the tree is unchanged. -/
theorem C15_allocateNode_frame {α : Type} [Inhabited α] {dim chunk_height : Nat}
    (tree : ChunkedNdtree α dim chunk_height) (i : NdtreeIndex dim)
    (hc : 0 < chunk_height) (hwf : tree.wellFormed = true) :
    ∃ tree1, tree.allocateNode i = some tree1 ∧
      (∀ j, tree.hasNode j = some true →
        tree1.hasNode j = some true ∧ tree1.readNode j = tree.readNode j) ∧
      (∀ p, (tree.root_node_.chunkAt p).isSome = false →
        (tree1.root_node_.chunkAt p).isSome = true →
        (∃ path rel r, tree.slotOf i = some (some (path, rel)) ∧ path = p ++ r) ∧
          ∀ rel, tree1.root_node_.loadAt p rel = some default) ∧
      (tree.hasNode i = some true → tree1 = tree) := by
  obtain ⟨s, hs⟩ := tree.resolveSlot_isSome i hc
  have hb := tree.resolveSlot_bound i s hs
  refine ⟨_, tree.allocateNode_eq i s hwf hs, ?_, ?_, ?_⟩
  · intro j hj
    obtain ⟨sj, hsj, hexj⟩ := tree.hasNode_true_resolveSlot j hj
    have hs1 : ({ tree with root_node_ := tree.root_node_.allocatePath s.1 } :
        ChunkedNdtree α dim chunk_height).resolveSlot j = some sj := hsj
    rw [ChunkedNdtree.hasNode_eq _ j sj hs1, ChunkedNdtree.readNode_eq _ j sj hs1,
      tree.readNode_eq j sj hsj]
    refine ⟨congrArg some
      (isSome_chunkAt_allocatePath_of_isSome s.1 sj.1 _ hwf hb hexj), ?_⟩
    cases hcj : tree.root_node_.chunkAt sj.1 with
    | none => simp [hcj] at hexj
    | some x =>
      have hl : tree.root_node_.loadAt sj.1 sj.2 = some (x.data sj.2) := by simp [loadAt, hcj]
      rw [hl]
      exact congrArg some (loadAt_allocatePath_of_some s.1 _ sj.1 sj.2 _ hwf hb hl)
  · intro p hbefore hafter
    have hnone : tree.root_node_.chunkAt p = none := by
      cases hcp : tree.root_node_.chunkAt p with
      | none => rfl
      | some x => simp [hcp] at hbefore
    constructor
    · rcases chunkAt_allocatePath_new s.1 _ p hwf hb hafter with h1 | ⟨r, hr⟩
      · rw [hbefore] at h1
        cases h1
      · exact ⟨s.1, s.2, r, tree.slotOf_eq i s hwf hs, hr⟩
    · intro rel
      cases hl : (tree.root_node_.allocatePath s.1).loadAt p rel with
      | none =>
        simp only [loadAt, Option.map_eq_none'] at hl
        simp only [] at hafter
        rw [hl] at hafter
        cases hafter
      | some v =>
        rcases loadAt_allocatePath_cases s.1 _ p rel v hwf hb hl with h1 | h1
        · simp [loadAt, hnone] at h1
        · simp only [hl, h1]
  · intro hhas
    obtain ⟨s1, hs1, hex⟩ := tree.hasNode_true_resolveSlot i hhas
    rw [hs] at hs1
    cases hs1
    simp only [allocatePath_of_exists s.1 tree.root_node_ hex]

/-- C15 witness: `allocateNode` on `(0, [0])` in the example tree, which holds node
`(0, [3])`. -/
theorem C15_allocateNode_frame_witness :
    0 < 1 ∧ exampleTree.wellFormed = true ∧
    ∃ tree1, exampleTree.allocateNode ⟨0, [0]⟩ = some tree1 ∧
      (∀ j, exampleTree.hasNode j = some true →
        tree1.hasNode j = some true ∧ tree1.readNode j = exampleTree.readNode j) ∧
      (∀ p, (exampleTree.root_node_.chunkAt p).isSome = false →
        (tree1.root_node_.chunkAt p).isSome = true →
        (∃ path rel r, exampleTree.slotOf ⟨0, [0]⟩ = some (some (path, rel)) ∧ path = p ++ r) ∧
          ∀ rel, tree1.root_node_.loadAt p rel = some default) ∧
      (exampleTree.hasNode ⟨0, [0]⟩ = some true → tree1 = exampleTree) :=
  ⟨by decide, by decide, C15_allocateNode_frame exampleTree ⟨0, [0]⟩ (by decide) (by decide)⟩

end wavemap

/-! ## Lemmas on the structure kept by payload writes -/

namespace wavemap

open ChunkedNdtreeNode

variable {α : Type} {dim chunk_height : Nat}

theorem shapeChildren_eq_map (cs : List (Option (ChunkedNdtreeNode α dim chunk_height))) :
    shapeChildren cs = cs.map (Option.map shape) := by
  induction cs with
  | nil => simp [shapeChildren]
  | cons h t ih =>
    cases h with
    | none => simp [shapeChildren, ih]
    | some c => simp [shapeChildren, ih]

theorem shape_setData [Inhabited α] (c : ChunkedNdtreeNode α dim chunk_height)
    (r : LinearIndex) (v : α) : (c.setData r v).shape = c.shape := by
  cases c with
  | mk d cs =>
    cases cs with
    | none => rfl
    | some l => simp [setData, shape]

theorem shape_setHandle (c child child1 : ChunkedNdtreeNode α dim chunk_height)
    (i : LinearIndex) (hget : c.getChild i = some child) (hs : child1.shape = child.shape) :
    (c.setHandle i (some child1)).shape = c.shape := by
  cases c with
  | mk d cs =>
    cases cs with
    | none => rfl
    | some l =>
      simp only [setHandle, shape, shapeChildren_eq_map, List.map_set, Option.map_some', hs]
      have h1 : (l.map (Option.map shape)).getD i none = some child.shape := by
        rw [getD_map_none (Option.map shape) rfl]
        simp only [getChild] at hget
        rw [hget]
        rfl
      rw [set_getD_self _ i _ h1]

theorem shape_writeAt [Inhabited α] :
    ∀ (q : ChunkPath) (c : ChunkedNdtreeNode α dim chunk_height) (r : LinearIndex) (v : α),
      (c.writeAt q r v).shape = c.shape := by
  intro q
  induction q with
  | nil =>
    intro c r v
    exact shape_setData c r v
  | cons i rest ih =>
    intro c r v
    cases hget : c.getChild i with
    | none => simp [writeAt, hget]
    | some child =>
      simp only [writeAt, hget]
      exact shape_setHandle c child _ i hget (ih child r v)

end wavemap

/-! ## Verified claims on reset -/

namespace wavemap

open ChunkedNdtreeNode

/-- C16 (amended): `resetNode(i)` changes at most one payload slot and no structure. For
every tree and index `i`, `resetNode(i)` returns; after it the structure of the tree (the
children arrays and which handles own a chunk) and the set of reachable chunks are unchanged,
every node allocated before stays allocated, every payload slot other than the slot
`(chunk, relative_index)` that `i` resolves to is unchanged, so every node that resolves to
another slot keeps its payload; and if `hasNode(i)` is false the whole tree is unchanged. -/
theorem C16_resetNode_frame {α : Type} [Inhabited α] {dim chunk_height : Nat}
    (tree : ChunkedNdtree α dim chunk_height) (i : NdtreeIndex dim) (hc : 0 < chunk_height) :
    ∃ tree1 found, tree.resetNode i = some tree1 ∧
      tree.getNodeAndRelativeIndexConst i = some found ∧
      tree1.root_node_.shape = tree.root_node_.shape ∧
      (∀ p, (tree1.root_node_.chunkAt p).isSome = (tree.root_node_.chunkAt p).isSome) ∧
      (∀ j, tree1.hasNode j = tree.hasNode j) ∧
      (∀ p r, found ≠ some (p, r) →
        tree1.root_node_.loadAt p r = tree.root_node_.loadAt p r) ∧
      (∀ j sj, tree.getNodeAndRelativeIndexConst j = some (some sj) → found ≠ some sj →
        tree1.readNode j = tree.readNode j) ∧
      (tree.hasNode i = some false → tree1 = tree) := by
  obtain ⟨s, hs⟩ := tree.resolveSlot_isSome i hc
  have hframe : ∀ p r, (p, r) ≠ s →
      (tree.root_node_.writeAt s.1 s.2 default).loadAt p r = tree.root_node_.loadAt p r := by
    intro p r hne
    rw [loadAt_writeAt]
    have hcond : ¬ (p = s.1 ∧ r = s.2) := fun h => hne (Prod.ext h.1 h.2)
    simp only [hcond, if_false]
  by_cases hex : (tree.root_node_.chunkAt s.1).isSome = true
  · refine ⟨_, some s, tree.resetNode_eq i s hs, ?_, shape_writeAt _ _ _ _, ?_, ?_, ?_, ?_, ?_⟩
    · rw [tree.getNodeAndRelativeIndexConst_eq i s hs]
      simp [hex]
    · intro p
      exact isSome_chunkAt_writeAt _ _ _ _ _
    · intro j
      obtain ⟨sj, hsj⟩ := tree.resolveSlot_isSome j hc
      have hs1 : ({ tree with root_node_ := tree.root_node_.writeAt s.1 s.2 default } :
          ChunkedNdtree α dim chunk_height).resolveSlot j = some sj := hsj
      rw [ChunkedNdtree.hasNode_eq _ j sj hs1, tree.hasNode_eq j sj hsj]
      exact congrArg some (isSome_chunkAt_writeAt _ _ _ _ _)
    · intro p r hne
      exact hframe p r (fun h => hne (congrArg some h.symm))
    · intro j sj hj hne
      have hsj : tree.resolveSlot j = some sj := descendConst_some _ _ _ _ _ _ sj hj
      have hs1 : ({ tree with root_node_ := tree.root_node_.writeAt s.1 s.2 default } :
          ChunkedNdtree α dim chunk_height).resolveSlot j = some sj := hsj
      rw [ChunkedNdtree.readNode_eq _ j sj hs1, tree.readNode_eq j sj hsj]
      exact congrArg some (hframe sj.1 sj.2 (fun h => hne (congrArg some h.symm)))
    · intro habs
      rw [tree.hasNode_eq i s hs, hex] at habs
      cases habs
  · have hnone : tree.root_node_.chunkAt s.1 = none := by
      cases hcp : tree.root_node_.chunkAt s.1 with
      | none => rfl
      | some x => simp [hcp] at hex
    have hsame : ({ tree with root_node_ := tree.root_node_.writeAt s.1 s.2 default } :
        ChunkedNdtree α dim chunk_height) = tree := by
      rw [writeAt_dangling s.1 tree.root_node_ s.2 default hnone]
    refine ⟨tree, none, ?_, ?_, rfl, fun _ => rfl, fun _ => rfl, fun _ _ _ => rfl,
      fun _ _ _ _ => rfl, fun _ => rfl⟩
    · rw [tree.resetNode_eq i s hs, hsame]
    · rw [tree.getNodeAndRelativeIndexConst_eq i s hs]
      simp [hex]

/-- C16 witness: reset of node `(0, [3])` of the example tree. -/
theorem C16_resetNode_frame_witness :
    0 < 1 ∧
    ∃ tree1 found, exampleTree.resetNode ⟨0, [3]⟩ = some tree1 ∧
      exampleTree.getNodeAndRelativeIndexConst ⟨0, [3]⟩ = some found ∧
      tree1.root_node_.shape = exampleTree.root_node_.shape ∧
      (∀ p, (tree1.root_node_.chunkAt p).isSome = (exampleTree.root_node_.chunkAt p).isSome) ∧
      (∀ j, tree1.hasNode j = exampleTree.hasNode j) ∧
      (∀ p r, found ≠ some (p, r) →
        tree1.root_node_.loadAt p r = exampleTree.root_node_.loadAt p r) ∧
      (∀ j sj, exampleTree.getNodeAndRelativeIndexConst j = some (some sj) → found ≠ some sj →
        tree1.readNode j = exampleTree.readNode j) ∧
      (exampleTree.hasNode ⟨0, [3]⟩ = some false → tree1 = exampleTree) :=
  ⟨by decide, C16_resetNode_frame exampleTree ⟨0, [3]⟩ (by decide)⟩

/-- C16 counterexample: in the 1-d tree of height 1 with chunks of height 1 whose node
`(0, [0])` holds payload 5, the valid index `(1, [0])` of the root node resolves to the same
slot 0 of the root chunk; `resetNode` on `(1, [0])` makes its descendant `(0, [0])` read the
default 0 instead of 5: a descendant node does not keep its payload. -/
theorem C16_counterexample_descendant_payload :
    (⟨1, [0]⟩ : NdtreeIndex 1).valid exampleTreeShared.max_height_ ∧
    (⟨0, [0]⟩ : NdtreeIndex 1).valid exampleTreeShared.max_height_ ∧
    (⟨0, [0]⟩ : NdtreeIndex 1).isDescendantOf ⟨1, [0]⟩ ∧
    exampleTreeShared.readNode ⟨0, [0]⟩ = some (some 5) ∧
    (exampleTreeShared.resetNode ⟨1, [0]⟩).bind (fun t => t.readNode ⟨0, [0]⟩)
      = some (some 0) := by
  decide

end wavemap

/-! ## Lemmas on the chunks kept by pruning -/

namespace wavemap

open ChunkedNdtreeNode

variable {α : Type} {dim chunk_height : Nat}

theorem exists_nonDefault_of_all_false [Inhabited α] [DecidableEq α] (d : List α)
    (h : d.all (fun x => decide (x = default)) = false) :
    ∃ r, readSlot d r ≠ default := by
  have h1 : ¬ ∀ x ∈ d, x = default := by
    intro hall
    have : d.all (fun x => decide (x = default)) = true := by
      rw [List.all_eq_true]
      intro x hx
      simpa using hall x hx
    rw [this] at h
    cases h
  have h2 : ∃ x ∈ d, x ≠ default := by
    by_contra hcon
    apply h1
    intro x hx
    by_contra hne
    exact hcon ⟨x, hx, hne⟩
  obtain ⟨x, hx, hne⟩ := h2
  obtain ⟨n, hn⟩ := List.getElem?_of_mem hx
  refine ⟨n, ?_⟩
  simp only [readSlot, List.getD_eq_getElem?_getD, hn, Option.getD_some]
  exact hne

/-- A chunk that is not empty after pruning held a non-default payload in its subtree. -/
theorem exists_load_of_pruned_nonEmpty [Inhabited α] [DecidableEq α] :
    ∀ c : ChunkedNdtreeNode α dim chunk_height, c.wellFormed = true →
      (pruneSubtree c).empty = false → ∃ q r v, c.loadAt q r = some v ∧ v ≠ default := by
  apply induct
  · intro d _ hne
    rw [pruneSubtree_leaf] at hne
    simp only [empty, Option.isSome_none, Bool.not_false, Bool.and_true] at hne
    obtain ⟨r, hr⟩ := exists_nonDefault_of_all_false d hne
    exact ⟨[], r, readSlot d r, rfl, hr⟩
  · intro d cs ih hwf hne
    rw [wellFormed_mk_some] at hwf
    rw [pruneSubtree_inner d cs hwf.1] at hne
    by_cases hany : (cs.map (Option.map pruneSubtree)).any nonEmptyHandle = true
    · rw [List.any_eq_true] at hany
      obtain ⟨h1, hmem, hh1⟩ := hany
      obtain ⟨h0, hmem0, hh0⟩ := List.mem_map.mp hmem
      cases h0 with
      | none =>
        simp only [Option.map_none'] at hh0
        rw [← hh0] at hh1
        simp [nonEmptyHandle] at hh1
      | some c0 =>
        simp only [Option.map_some'] at hh0
        rw [← hh0] at hh1
        simp only [nonEmptyHandle, Bool.not_eq_true'] at hh1
        obtain ⟨q, r, v, hl, hv⟩ := ih c0 hmem0 (hwf.2 c0 hmem0) hh1
        obtain ⟨n, hn⟩ := List.getElem?_of_mem hmem0
        refine ⟨n :: q, r, v, ?_, hv⟩
        have hget : (mk d (some cs)).getChild n = some c0 := by
          simp only [getChild, List.getD_eq_getElem?_getD, hn, Option.getD_some]
        simp only [loadAt, chunkAt, hget]
        exact hl
    · simp only [hany, Bool.false_eq_true, if_false] at hne
      simp only [empty, Option.isSome_none, Bool.not_false, Bool.and_true] at hne
      obtain ⟨r, hr⟩ := exists_nonDefault_of_all_false d hne
      exact ⟨[], r, readSlot d r, rfl, hr⟩

/-- A non-root chunk of the pruned tree is not empty. -/
theorem empty_eq_false_of_chunkAt_pruneSubtree [Inhabited α] [DecidableEq α] :
    ∀ (p : ChunkPath) (c x : ChunkedNdtreeNode α dim chunk_height), c.wellFormed = true →
      p ≠ [] → (pruneSubtree c).chunkAt p = some x → x.empty = false := by
  intro p
  induction p with
  | nil =>
    intro c x _ hp _
    exact absurd rfl hp
  | cons i rest ih =>
    intro c x hwf _ h
    cases c with
    | mk d cs =>
      cases cs with
      | none =>
        rw [pruneSubtree_leaf] at h
        simp [chunkAt, getChild] at h
      | some l =>
        have hwf1 := hwf
        rw [wellFormed_mk_some] at hwf1
        simp only [chunkAt, getChild_pruneSubtree d l hwf1.1] at h
        by_cases hany : (l.map (Option.map pruneSubtree)).any nonEmptyHandle = true
        · simp only [hany, if_true] at h
          cases hk : keepHandle ((l.getD i none).map pruneSubtree) with
          | none =>
            simp only [hk] at h
            cases h
          | some y =>
            simp only [hk] at h
            rw [keepHandle_eq_some] at hk
            cases hget : l.getD i none with
            | none =>
              simp only [hget, Option.map_none'] at hk
              cases hk.1
            | some c1 =>
              simp only [hget, Option.map_some', Option.some.injEq] at hk
              obtain ⟨hy, hye⟩ := hk
              subst hy
              cases rest with
              | nil =>
                simp only [chunkAt, Option.some.injEq] at h
                rw [← h]
                exact hye
              | cons k rest2 =>
                exact ih c1 x (hwf1.2 c1 (mem_of_getD_eq_some l i c1 hget)) (by simp) h
        · simp only [hany, Bool.false_eq_true, if_false] at h
          cases h

/-- After pruning a chunk has a children array exactly when one of its handles owns a
chunk. -/
theorem hasChildrenArray_pruneSubtree_iff [Inhabited α] [DecidableEq α]
    (c : ChunkedNdtreeNode α dim chunk_height) (hwf : c.wellFormed = true) :
    (pruneSubtree c).hasChildrenArray = true ↔
      ∃ i, ((pruneSubtree c).getChild i).isSome = true := by
  constructor
  · intro h
    cases c with
    | mk d cs =>
      cases cs with
      | none =>
        rw [pruneSubtree_leaf] at h
        simp [hasChildrenArray] at h
      | some l =>
        have hwf1 := hwf
        rw [wellFormed_mk_some] at hwf1
        by_cases hany : (l.map (Option.map pruneSubtree)).any nonEmptyHandle = true
        · have hany1 := hany
          rw [List.any_eq_true] at hany1
          obtain ⟨h1, hmem, hh1⟩ := hany1
          obtain ⟨n, hn⟩ := List.getElem?_of_mem hmem
          refine ⟨n, ?_⟩
          rw [pruneSubtree_inner d l hwf1.1]
          simp only [hany, if_true, getChild]
          rw [getD_map_none keepHandle rfl, List.getD_eq_getElem?_getD, hn]
          cases h1 with
          | none => simp [nonEmptyHandle] at hh1
          | some y =>
            simp only [nonEmptyHandle, Bool.not_eq_true'] at hh1
            simp [keepHandle, hh1]
        · rw [pruneSubtree_inner d l hwf1.1] at h
          simp only [hany, Bool.false_eq_true, if_false] at h
          simp [hasChildrenArray] at h
  · rintro ⟨i, hi⟩
    cases hp : pruneSubtree c with
    | mk d cs =>
      cases cs with
      | none =>
        rw [hp] at hi
        simp [getChild] at hi
      | some l => rfl

end wavemap

/-! ## Verified claims on the chunks kept by pruning -/

namespace wavemap

open ChunkedNdtreeNode

/-- C14: `prune()` removes exactly the all-default subtrees. For every (well-typed) tree,
a non-root chunk reachable before `prune()` is still reachable after it if and only if,
before `prune()`, it or some chunk reachable below it held at least one non-default payload
slot; and a chunk of the pruned tree has a children array if and only if at least one of its
child chunks is reachable in the pruned tree. -/
theorem C14_prune_removes_exactly_default_subtrees {α : Type} [Inhabited α] [DecidableEq α]
    {dim chunk_height : Nat} (tree : ChunkedNdtree α dim chunk_height)
    (hwf : tree.wellFormed = true) :
    (∀ p c0, p ≠ [] → tree.root_node_.chunkAt p = some c0 →
      ((tree.prune.root_node_.chunkAt p).isSome = true ↔
        ∃ q r v, c0.loadAt q r = some v ∧ v ≠ default)) ∧
    (∀ p x, tree.prune.root_node_.chunkAt p = some x →
      (x.hasChildrenArray = true ↔
        ∃ i, (tree.prune.root_node_.chunkAt (p ++ [i])).isSome = true)) := by
  constructor
  · intro p c0 hp hc0
    have hwf0 := wellFormed_chunkAt p tree.root_node_ c0 hwf hc0
    constructor
    · intro hsurv
      cases hx : tree.prune.root_node_.chunkAt p with
      | none =>
        rw [hx] at hsurv
        cases hsurv
      | some x =>
        obtain ⟨c1, hc1, -, hx1⟩ := chunkAt_pruneSubtree_some p tree.root_node_ x hwf hx
        rw [hc0] at hc1
        cases hc1
        have hne := empty_eq_false_of_chunkAt_pruneSubtree p tree.root_node_ x hwf hp hx
        rw [hx1] at hne
        exact exists_load_of_pruned_nonEmpty c0 hwf0 hne
    · rintro ⟨q, r, v, hl, hv⟩
      have hne := pruneSubtree_nonEmpty_of_load c0 q r v hwf0 hl hv
      exact (pruneSubtree_keeps tree.root_node_ c0 p 0 hwf hc0 hne).1
  · intro p x hx
    obtain ⟨c1, -, hwf1, hx1⟩ := chunkAt_pruneSubtree_some p tree.root_node_ x hwf hx
    rw [hx1, hasChildrenArray_pruneSubtree_iff c1 hwf1, ← hx1]
    have hchild : ∀ i, (tree.prune.root_node_.chunkAt (p ++ [i])).isSome =
        (x.getChild i).isSome := by
      intro i
      rw [chunkAt_append, hx]
      simp only [Option.bind, chunkAt]
      cases x.getChild i with
      | none => rfl
      | some y => rfl
    constructor
    · rintro ⟨i, hi⟩
      exact ⟨i, by rw [hchild i]; exact hi⟩
    · rintro ⟨i, hi⟩
      exact ⟨i, by rw [← hchild i]; exact hi⟩

/-- C14 witness: the example tree of height 3, whose two non-root chunks lie above the
payload 9 and survive. -/
theorem C14_prune_removes_exactly_default_subtrees_witness :
    exampleTreeDeep.wellFormed = true ∧
    (∀ p c0, p ≠ [] → exampleTreeDeep.root_node_.chunkAt p = some c0 →
      ((exampleTreeDeep.prune.root_node_.chunkAt p).isSome = true ↔
        ∃ q r v, c0.loadAt q r = some v ∧ v ≠ default)) ∧
    (∀ p x, exampleTreeDeep.prune.root_node_.chunkAt p = some x →
      (x.hasChildrenArray = true ↔
        ∃ i, (exampleTreeDeep.prune.root_node_.chunkAt (p ++ [i])).isSome = true)) :=
  ⟨by decide, C14_prune_removes_exactly_default_subtrees exampleTreeDeep (by decide)⟩

end wavemap

/-! ## Lemmas on the number of hops -/

namespace wavemap

open ChunkedNdtreeNode

variable {α : Type} {dim chunk_height : Nat}

theorem ceilDiv_step (c x : Nat) (hc : 0 < c) (hx : 0 < x) :
    (x + c - 1) / c = (x - c + c - 1) / c + 1 := by
  by_cases hxc : c ≤ x
  · have h1 : x + c - 1 = (x - c + c - 1) + c := by omega
    rw [h1, Nat.add_div_right _ hc]
  · have h1 : x - c = 0 := by omega
    rw [h1, Nat.zero_add, Nat.div_eq_of_lt (by omega : c - 1 < c)]
    exact Nat.div_eq_of_lt_le (by omega) (by omega)

/-- Number of loop iterations from child height `ch` down to index height `h`. -/
theorem resolvePath_length (code : MortonCode) (h : Int) (hc : 0 < chunk_height) :
    ∀ (fuel : Nat) (ph ch : Int) (s : Slot),
      resolvePath dim chunk_height code h fuel ph ch = some s →
      s.1.length = ((ch - h).toNat + chunk_height - 1) / chunk_height := by
  intro fuel
  induction fuel with
  | zero =>
    intro ph ch s hs
    by_cases hlt : h < ch
    · rw [resolvePath_zero_lt code h ph ch hlt] at hs
      cases hs
    · rw [resolvePath_of_not_lt code h 0 ph ch hlt] at hs
      cases hs
      have hz : (ch - h).toNat = 0 := by omega
      rw [hz, Nat.zero_add, Nat.div_eq_of_lt (by omega : chunk_height - 1 < chunk_height)]
      rfl
  | succ n ih =>
    intro ph ch s hs
    by_cases hlt : h < ch
    · obtain ⟨s1, hrec, hs1⟩ := resolvePath_succ_of_lt code h n ph ch s hlt hs
      have h1 := ih _ _ s1 hrec
      have hx : (ch - (chunk_height : Int) - h).toNat = (ch - h).toNat - chunk_height := by omega
      rw [hx] at h1
      rw [hs1, ceilDiv_step chunk_height (ch - h).toNat hc (by omega)]
      simp only [List.length_cons, h1]
    · rw [resolvePath_of_not_lt code h (n + 1) ph ch hlt] at hs
      cases hs
      have hz : (ch - h).toNat = 0 := by omega
      rw [hz, Nat.zero_add, Nat.div_eq_of_lt (by omega : chunk_height - 1 < chunk_height)]
      rfl

theorem resolvePath_isSome_of_hops (code : MortonCode) (h : Int) (hc : 0 < chunk_height) :
    ∀ (fuel : Nat) (ph ch : Int),
      ((ch - h).toNat + chunk_height - 1) / chunk_height ≤ fuel →
      ∃ s, resolvePath dim chunk_height code h fuel ph ch = some s := by
  intro fuel
  induction fuel with
  | zero =>
    intro ph ch hf
    by_cases hlt : h < ch
    · rw [ceilDiv_step chunk_height (ch - h).toNat hc (by omega)] at hf
      exact absurd hf (Nat.not_succ_le_zero _)
    · exact ⟨_, resolvePath_of_not_lt code h 0 ph ch hlt⟩
  | succ n ih =>
    intro ph ch hf
    by_cases hlt : h < ch
    · rw [ceilDiv_step chunk_height (ch - h).toNat hc (by omega)] at hf
      have hx : (ch - (chunk_height : Int) - h).toNat = (ch - h).toNat - chunk_height := by omega
      obtain ⟨s, hs⟩ := ih (ph - chunk_height) (ch - chunk_height) (by rw [hx]; omega)
      unfold resolvePath
      simp [hlt, hs]
    · exact ⟨_, resolvePath_of_not_lt code h (n + 1) ph ch hlt⟩

theorem resolvePath_none_of_lt_hops (code : MortonCode) (h : Int) (hc : 0 < chunk_height) :
    ∀ (fuel : Nat) (ph ch : Int),
      fuel < ((ch - h).toNat + chunk_height - 1) / chunk_height →
      resolvePath dim chunk_height code h fuel ph ch = none := by
  intro fuel ph ch hf
  cases hres : resolvePath dim chunk_height code h fuel ph ch with
  | none => rfl
  | some s =>
    have hlen := resolvePath_length code h hc fuel ph ch s hres
    have hle : s.1.length ≤ fuel := by
      clear hf hlen
      induction fuel generalizing ph ch s with
      | zero =>
        by_cases hlt : h < ch
        · rw [resolvePath_zero_lt code h ph ch hlt] at hres
          cases hres
        · rw [resolvePath_of_not_lt code h 0 ph ch hlt] at hres
          cases hres
          simp
      | succ n ih =>
        by_cases hlt : h < ch
        · obtain ⟨s1, hrec, hs1⟩ := resolvePath_succ_of_lt code h n ph ch s hlt hres
          have := ih _ _ s1 hrec
          rw [hs1]
          simp only [List.length_cons]
          omega
        · rw [resolvePath_of_not_lt code h (n + 1) ph ch hlt] at hres
          cases hres
          simp
    omega

theorem hops_start (c : Nat) (max_height h : Int) (hc : 0 < c) :
    ((max_height - c - h).toNat + c - 1) / c = expectedHops c max_height h := by
  unfold expectedHops
  have hx : (max_height - (c : Int) - h).toNat = (max_height - h).toNat - c := by omega
  rw [hx]
  by_cases h0 : (max_height - h).toNat = 0
  · rw [h0]
    simp only [Nat.zero_sub, Nat.zero_add]
    rw [Nat.div_eq_of_lt (by omega : c - 1 < c)]
  · rw [ceilDiv_step c (max_height - h).toNat hc (by omega), Nat.add_sub_cancel]

/-- When the fuel does not suffice for the allocating descent, it gives no result. -/
theorem descend_true_none (code : MortonCode) (h : Int) :
    ∀ (fuel : Nat) (cur : ChunkedNdtreeNode α dim chunk_height) (ph ch : Int),
      cur.wellFormed = true → ph - ch = chunk_height →
      resolvePath dim chunk_height code h fuel ph ch = none →
      ChunkedNdtree.descend code h true fuel cur ph ch = none := by
  intro fuel
  induction fuel with
  | zero =>
    intro cur ph ch _ _ hs
    by_cases hlt : h < ch
    · unfold ChunkedNdtree.descend
      simp [hlt]
    · rw [resolvePath_of_not_lt code h 0 ph ch hlt] at hs
      cases hs
  | succ n ih =>
    intro cur ph ch hwf hspan hs
    by_cases hlt : h < ch
    · have hrec : resolvePath dim chunk_height code h n (ph - chunk_height)
          (ch - chunk_height) = none := by
        unfold resolvePath at hs
        simp only [hlt, if_true, Option.map_eq_none'] at hs
        exact hs
      have hb : NdtreeIndex.computeRelativeChildIndex dim code ph ch
          < kNumChildren dim chunk_height := by
        have := computeRelativeChildIndex_lt dim code ph ch
        rw [hspan] at this
        simpa [kNumChildren] using this
      obtain ⟨child, hget, hwfc, -, -⟩ := getChild_allocated cur _ hwf hb
      unfold ChunkedNdtree.descend
      simp only [hlt, if_true]
      by_cases hh : cur.hasChild (NdtreeIndex.computeRelativeChildIndex dim code ph ch) = true
      · simp only [hh, Bool.not_true, Bool.false_eq_true, if_false] at hget ⊢
        simp only [hget]
        rw [ih child (ph - chunk_height) (ch - chunk_height) hwfc (by omega) hrec]
      · simp only [hh, Bool.not_false, if_true, Bool.not_eq_true] at hget ⊢
        simp only [hget]
        rw [ih child (ph - chunk_height) (ch - chunk_height) hwfc (by omega) hrec]
    · rw [resolvePath_of_not_lt code h (n + 1) ph ch hlt] at hs
      cases hs

end wavemap

/-! ## Verified claims on the cost and the windows of resolution -/

namespace wavemap

open ChunkedNdtreeNode

/-- C17: address resolution terminates and hops one chunk per `chunk_height` levels. For
`chunk_height >= 1`, every (well-typed) tree and every index, with
`N = max(0, ceil((max_height - height) / chunk_height) - 1)`: resolution with
`auto_allocate = true` returns a pointer reached by exactly `N` hops; its descent loop returns
within `N` iterations and gives no result within fewer; the descent loops of the read-only
resolver and of the resolver with `auto_allocate = false` return within `N` iterations, and a
pointer they find is reached by `N` hops. -/
theorem C17_resolution_hops {α : Type} {dim chunk_height : Nat}
    (tree : ChunkedNdtree α dim chunk_height) (i : NdtreeIndex dim)
    (hc : 0 < chunk_height) (hwf : tree.wellFormed = true) :
    (∃ tree1 s, tree.getNodeAndRelativeIndex i true = some (tree1, some s) ∧
      s.1.length = expectedHops chunk_height tree.max_height_ i.height) ∧
    (∃ root1 s, ChunkedNdtree.descend (convert.nodeIndexToMorton i) i.height true
      (expectedHops chunk_height tree.max_height_ i.height) tree.root_node_
      tree.max_height_ (tree.max_height_ - chunk_height) = some (root1, some s)) ∧
    (∀ fuel, fuel < expectedHops chunk_height tree.max_height_ i.height →
      ChunkedNdtree.descend (convert.nodeIndexToMorton i) i.height true fuel tree.root_node_
        tree.max_height_ (tree.max_height_ - chunk_height) = none) ∧
    (∃ found, ChunkedNdtree.descendConst (convert.nodeIndexToMorton i) i.height
      (expectedHops chunk_height tree.max_height_ i.height) tree.root_node_
      tree.max_height_ (tree.max_height_ - chunk_height) = some found) ∧
    (∃ found, ChunkedNdtree.descend (convert.nodeIndexToMorton i) i.height false
      (expectedHops chunk_height tree.max_height_ i.height) tree.root_node_
      tree.max_height_ (tree.max_height_ - chunk_height) = some (tree.root_node_, found)) ∧
    (∀ s, tree.getNodeAndRelativeIndexConst i = some (some s) →
      s.1.length = expectedHops chunk_height tree.max_height_ i.height) := by
  have hstart := hops_start chunk_height tree.max_height_ i.height hc
  obtain ⟨s, hs⟩ := tree.resolveSlot_isSome i hc
  have hlen : s.1.length = expectedHops chunk_height tree.max_height_ i.height := by
    rw [← hstart]
    exact resolvePath_length _ _ hc _ _ _ s hs
  obtain ⟨s1, hs1⟩ := resolvePath_isSome_of_hops (convert.nodeIndexToMorton i) i.height hc
    (expectedHops chunk_height tree.max_height_ i.height) tree.max_height_
    (tree.max_height_ - chunk_height) (Nat.le_of_eq hstart)
  have hs1b : resolvePath dim chunk_height (convert.nodeIndexToMorton i) i.height
      (expectedHops chunk_height tree.max_height_ i.height) tree.max_height_
      (tree.max_height_ - chunk_height) = some s1 := hs1
  refine ⟨⟨_, s, tree.getNodeAndRelativeIndex_true_eq i s hwf hs, hlen⟩,
    ⟨_, s1, descend_true_eq _ _ _ _ _ _ s1 hwf (by omega) hs1b⟩, ?_,
    ⟨_, descendConst_eq _ _ _ _ _ _ s1 hs1b⟩, ⟨_, descend_false_eq _ _ _ _ _ _ s1 hs1b⟩, ?_⟩
  · intro fuel hf
    apply descend_true_none _ _ _ _ _ _ hwf (by omega)
    apply resolvePath_none_of_lt_hops _ _ hc
    rw [hstart]
    exact hf
  · intro s2 hs2
    have hs3 : tree.resolveSlot i = some s2 := descendConst_some _ _ _ _ _ _ s2 hs2
    rw [hs] at hs3
    cases hs3
    exact hlen

/-- C17 witness: node `(0, [3])` of the example tree of height 2 with chunks of height 1 is
one hop below the root chunk. -/
theorem C17_resolution_hops_witness :
    0 < 1 ∧ exampleTree.wellFormed = true ∧
    expectedHops 1 exampleTree.max_height_ (⟨0, [3]⟩ : NdtreeIndex 1).height = 1 ∧
    ((∃ tree1 s, exampleTree.getNodeAndRelativeIndex ⟨0, [3]⟩ true = some (tree1, some s) ∧
      s.1.length = expectedHops 1 exampleTree.max_height_ (⟨0, [3]⟩ : NdtreeIndex 1).height) ∧
    (∃ root1 s, ChunkedNdtree.descend (convert.nodeIndexToMorton (⟨0, [3]⟩ : NdtreeIndex 1))
      (⟨0, [3]⟩ : NdtreeIndex 1).height true
      (expectedHops 1 exampleTree.max_height_ (⟨0, [3]⟩ : NdtreeIndex 1).height)
      exampleTree.root_node_ exampleTree.max_height_ (exampleTree.max_height_ - (1 : Nat))
      = some (root1, some s)) ∧
    (∀ fuel, fuel < expectedHops 1 exampleTree.max_height_ (⟨0, [3]⟩ : NdtreeIndex 1).height →
      ChunkedNdtree.descend (convert.nodeIndexToMorton (⟨0, [3]⟩ : NdtreeIndex 1))
        (⟨0, [3]⟩ : NdtreeIndex 1).height true fuel exampleTree.root_node_
        exampleTree.max_height_ (exampleTree.max_height_ - (1 : Nat)) = none) ∧
    (∃ found, ChunkedNdtree.descendConst (convert.nodeIndexToMorton (⟨0, [3]⟩ : NdtreeIndex 1))
      (⟨0, [3]⟩ : NdtreeIndex 1).height
      (expectedHops 1 exampleTree.max_height_ (⟨0, [3]⟩ : NdtreeIndex 1).height)
      exampleTree.root_node_ exampleTree.max_height_ (exampleTree.max_height_ - (1 : Nat))
      = some found) ∧
    (∃ found, ChunkedNdtree.descend (convert.nodeIndexToMorton (⟨0, [3]⟩ : NdtreeIndex 1))
      (⟨0, [3]⟩ : NdtreeIndex 1).height false
      (expectedHops 1 exampleTree.max_height_ (⟨0, [3]⟩ : NdtreeIndex 1).height)
      exampleTree.root_node_ exampleTree.max_height_ (exampleTree.max_height_ - (1 : Nat))
      = some (exampleTree.root_node_, found)) ∧
    (∀ s, exampleTree.getNodeAndRelativeIndexConst ⟨0, [3]⟩ = some (some s) →
      s.1.length = expectedHops 1 exampleTree.max_height_ (⟨0, [3]⟩ : NdtreeIndex 1).height)) :=
  ⟨by decide, by decide, by decide,
    C17_resolution_hops exampleTree ⟨0, [3]⟩ (by decide) (by decide)⟩

end wavemap

/-! ## Lemmas on the spans of the windows -/

namespace wavemap

open ChunkedNdtreeNode

variable {α : Type} {dim chunk_height : Nat}

/-- The pointer computed by the descent is made of the windows over the spans. -/
theorem resolvePath_eq_spans (code : MortonCode) (h : Int) :
    ∀ (fuel : Nat) (ph ch : Int),
      resolvePath dim chunk_height code h fuel ph ch =
        (resolveSpans chunk_height h fuel ph ch).map (fun t =>
          (t.1.map (fun w => NdtreeIndex.computeRelativeChildIndex dim code w.1 w.2),
            NdtreeIndex.computeRelativeChildIndex dim code t.2.1 t.2.2)) := by
  intro fuel
  induction fuel with
  | zero =>
    intro ph ch
    unfold resolvePath resolveSpans
    by_cases hlt : h < ch
    · simp [hlt]
    · simp [hlt]
  | succ n ih =>
    intro ph ch
    unfold resolvePath resolveSpans
    by_cases hlt : h < ch
    · simp only [hlt, if_true, ih]
      cases resolveSpans chunk_height h n (ph - chunk_height) (ch - chunk_height) with
      | none => rfl
      | some t => rfl
    · simp [hlt]

theorem resolveSpans_spec (h : Int) :
    ∀ (fuel : Nat) (ph ch : Int) (hops : List (Int × Int)) (last : Int × Int),
      ph - ch = chunk_height → h ≤ ph →
      resolveSpans chunk_height h fuel ph ch = some (hops, last) →
      (∀ w ∈ hops, w.1 - w.2 = chunk_height) ∧ last.2 = h ∧ 0 ≤ last.1 - h ∧
        last.1 - h ≤ chunk_height ∧ (last.1 - h = 0 → ph = h) := by
  intro fuel
  induction fuel with
  | zero =>
    intro ph ch hops last hspan hph hs
    unfold resolveSpans at hs
    by_cases hlt : h < ch
    · simp [hlt] at hs
    · simp only [hlt, if_false, Option.some.injEq, Prod.mk.injEq] at hs
      obtain ⟨hh, hl⟩ := hs
      subst hh hl
      refine ⟨by simp, rfl, by simp only []; omega, by simp only []; omega, ?_⟩
      intro h1
      simp only [] at h1
      omega
  | succ n ih =>
    intro ph ch hops last hspan hph hs
    unfold resolveSpans at hs
    by_cases hlt : h < ch
    · simp only [hlt, if_true] at hs
      cases hrec : resolveSpans chunk_height h n (ph - chunk_height) (ch - chunk_height) with
      | none => simp [hrec] at hs
      | some t =>
        simp only [hrec, Option.map_some', Option.some.injEq, Prod.mk.injEq] at hs
        obtain ⟨hh, hl⟩ := hs
        subst hh hl
        obtain ⟨h1, h2, h3, h4, h5⟩ := ih (ph - chunk_height) (ch - chunk_height) t.1 t.2
          (by omega) (by omega) hrec
        refine ⟨?_, h2, h3, h4, ?_⟩
        · intro w hw
          rcases List.mem_cons.mp hw with hw1 | hw1
          · subst hw1
            exact hspan
          · exact h1 w hw1
        · intro h6
          have := h5 h6
          omega
    · simp only [hlt, if_false, Option.some.injEq, Prod.mk.injEq] at hs
      obtain ⟨hh, hl⟩ := hs
      subst hh hl
      refine ⟨by simp, rfl, by simp only []; omega, by simp only []; omega, ?_⟩
      intro h1
      simp only [] at h1
      omega

end wavemap

namespace wavemap

open ChunkedNdtreeNode

/-- C18: index windows stay in range during resolution. For `chunk_height >= 1`, every
(well-typed) tree and every index with `0 <= height <= max_height`, the pointer returned by
resolution (allocating or not) is made of the windows over the height pairs of the descent:
every child slot is extracted over a span of exactly `chunk_height` levels and lies in
`[0, kNumChildren)`; the final relative index is extracted over a span
`s = parent_height - index.height` with `0 <= s <= chunk_height`, `s = 0` exactly when
`index.height = max_height`, and is below `2^(dim * chunk_height)`. -/
theorem C18_windows_in_range {α : Type} {dim chunk_height : Nat}
    (tree : ChunkedNdtree α dim chunk_height) (i : NdtreeIndex dim)
    (hc : 0 < chunk_height) (hwf : tree.wellFormed = true)
    (hm : i.height ≤ tree.max_height_) :
    ∃ hops last,
      resolveSpans chunk_height i.height (tree.descentFuel i) tree.max_height_
        (tree.max_height_ - chunk_height) = some (hops, last) ∧
      tree.slotOf i = some (some
        (hops.map (fun w => NdtreeIndex.computeRelativeChildIndex dim
            (convert.nodeIndexToMorton i) w.1 w.2),
          NdtreeIndex.computeRelativeChildIndex dim (convert.nodeIndexToMorton i)
            last.1 last.2)) ∧
      (∀ found, tree.getNodeAndRelativeIndexConst i = some (some found) →
        found = (hops.map (fun w => NdtreeIndex.computeRelativeChildIndex dim
            (convert.nodeIndexToMorton i) w.1 w.2),
          NdtreeIndex.computeRelativeChildIndex dim (convert.nodeIndexToMorton i)
            last.1 last.2)) ∧
      (∀ w ∈ hops, w.1 - w.2 = chunk_height ∧
        NdtreeIndex.computeRelativeChildIndex dim (convert.nodeIndexToMorton i) w.1 w.2
          < kNumChildren dim chunk_height) ∧
      last.2 = i.height ∧ 0 ≤ last.1 - last.2 ∧ last.1 - last.2 ≤ chunk_height ∧
      (last.1 - last.2 = 0 ↔ i.height = tree.max_height_) ∧
      NdtreeIndex.computeRelativeChildIndex dim (convert.nodeIndexToMorton i) last.1 last.2
        < 2 ^ (dim * chunk_height) := by
  obtain ⟨s, hs⟩ := tree.resolveSlot_isSome i hc
  have hs0 := hs
  unfold ChunkedNdtree.resolveSlot at hs0
  rw [resolvePath_eq_spans] at hs0
  cases hsp : resolveSpans chunk_height i.height (tree.descentFuel i) tree.max_height_
      (tree.max_height_ - chunk_height) with
  | none => simp [hsp] at hs0
  | some t =>
    simp only [hsp, Option.map_some', Option.some.injEq] at hs0
    obtain ⟨h1, h2, h3, h4, h5⟩ := resolveSpans_spec i.height _ _ _ t.1 t.2 (by omega) hm hsp
    refine ⟨t.1, t.2, rfl, ?_, ?_, ?_, h2, ?_, ?_, ?_, ?_⟩
    · rw [tree.slotOf_eq i s hwf hs, ← hs0]
    · intro found hf
      have hf1 : tree.resolveSlot i = some found := descendConst_some _ _ _ _ _ _ found hf
      rw [hs] at hf1
      cases hf1
      exact hs0.symm
    · intro w hw
      refine ⟨h1 w hw, ?_⟩
      have hb := computeRelativeChildIndex_lt dim (convert.nodeIndexToMorton i) w.1 w.2
      rw [h1 w hw] at hb
      simpa [kNumChildren] using hb
    · rw [h2]
      exact h3
    · rw [h2]
      exact h4
    · rw [h2]
      constructor
      · intro h6
        exact (h5 h6).symm
      · intro h6
        have hlt : ¬ i.height < tree.max_height_ - chunk_height := by omega
        unfold resolveSpans at hsp
        simp only [hlt, if_false, Option.some.injEq] at hsp
        rw [← hsp]
        simp only []
        omega
    · have hb := computeRelativeChildIndex_lt dim (convert.nodeIndexToMorton i) t.2.1 t.2.2
      apply Nat.lt_of_lt_of_le hb
      apply Nat.pow_le_pow_right (by decide)
      apply Nat.mul_le_mul_left
      rw [h2]
      omega

/-- C18 witness: node `(0, [2, 1])` of a fresh 2-d tree of height 4 with chunks of height 2. -/
theorem C18_windows_in_range_witness :
    0 < 2 ∧ (ChunkedNdtree.init 4 : ChunkedNdtree Nat 2 2).wellFormed = true ∧
    (⟨0, [2, 1]⟩ : NdtreeIndex 2).height ≤ (ChunkedNdtree.init 4 : ChunkedNdtree Nat 2 2).max_height_ ∧
    ∃ hops last,
      resolveSpans 2 (⟨0, [2, 1]⟩ : NdtreeIndex 2).height
        ((ChunkedNdtree.init 4 : ChunkedNdtree Nat 2 2).descentFuel ⟨0, [2, 1]⟩)
        (ChunkedNdtree.init 4 : ChunkedNdtree Nat 2 2).max_height_
        ((ChunkedNdtree.init 4 : ChunkedNdtree Nat 2 2).max_height_ - (2 : Nat))
        = some (hops, last) ∧
      (ChunkedNdtree.init 4 : ChunkedNdtree Nat 2 2).slotOf ⟨0, [2, 1]⟩ = some (some
        (hops.map (fun w => NdtreeIndex.computeRelativeChildIndex 2
            (convert.nodeIndexToMorton (⟨0, [2, 1]⟩ : NdtreeIndex 2)) w.1 w.2),
          NdtreeIndex.computeRelativeChildIndex 2
            (convert.nodeIndexToMorton (⟨0, [2, 1]⟩ : NdtreeIndex 2)) last.1 last.2)) ∧
      (∀ found, (ChunkedNdtree.init 4 : ChunkedNdtree Nat 2 2).getNodeAndRelativeIndexConst
          ⟨0, [2, 1]⟩ = some (some found) →
        found = (hops.map (fun w => NdtreeIndex.computeRelativeChildIndex 2
            (convert.nodeIndexToMorton (⟨0, [2, 1]⟩ : NdtreeIndex 2)) w.1 w.2),
          NdtreeIndex.computeRelativeChildIndex 2
            (convert.nodeIndexToMorton (⟨0, [2, 1]⟩ : NdtreeIndex 2)) last.1 last.2)) ∧
      (∀ w ∈ hops, w.1 - w.2 = (2 : Nat) ∧
        NdtreeIndex.computeRelativeChildIndex 2
          (convert.nodeIndexToMorton (⟨0, [2, 1]⟩ : NdtreeIndex 2)) w.1 w.2
          < kNumChildren 2 2) ∧
      last.2 = (⟨0, [2, 1]⟩ : NdtreeIndex 2).height ∧ 0 ≤ last.1 - last.2 ∧
      last.1 - last.2 ≤ (2 : Nat) ∧
      (last.1 - last.2 = 0 ↔ (⟨0, [2, 1]⟩ : NdtreeIndex 2).height
        = (ChunkedNdtree.init 4 : ChunkedNdtree Nat 2 2).max_height_) ∧
      NdtreeIndex.computeRelativeChildIndex 2
        (convert.nodeIndexToMorton (⟨0, [2, 1]⟩ : NdtreeIndex 2)) last.1 last.2
        < 2 ^ (2 * 2) :=
  ⟨by decide, by decide, by decide,
    C18_windows_in_range (ChunkedNdtree.init 4) ⟨0, [2, 1]⟩ (by decide) (by decide)
      (by decide)⟩

end wavemap

/-! ## Pruning as an iteration over the postorder generator -/

namespace wavemap

namespace ChunkedNdtreeNode

variable {α : Type} {dim chunk_height : Nat}

theorem set_append_length {β : Type} (pre : List β) (a b : β) (t : List β) :
    (pre ++ a :: t).set pre.length b = pre ++ b :: t := by
  induction pre with
  | nil => rfl
  | cons x xs ih => simp only [List.cons_append, List.length_cons, List.set_cons_succ, ih]

theorem foldl_updateAt_child
    (visit : ChunkedNdtreeNode α dim chunk_height → ChunkedNdtreeNode α dim chunk_height)
    (d : List α) (pre t : List (Option (ChunkedNdtreeNode α dim chunk_height))) :
    ∀ (qs : List ChunkPath) (c0 : ChunkedNdtreeNode α dim chunk_height),
      (qs.map (fun path => pre.length :: path)).foldl (fun r path => updateAt visit path r)
          (mk d (some (pre ++ some c0 :: t))) =
        mk d (some (pre ++ some (qs.foldl (fun r path => updateAt visit path r) c0) :: t)) := by
  intro qs
  induction qs with
  | nil =>
    intro c0
    rfl
  | cons q qs ih =>
    intro c0
    have hget : (mk d (some (pre ++ some c0 :: t))).getChild pre.length = some c0 :=
      getD_append_length pre (some c0) t
    have hstep : updateAt visit (pre.length :: q) (mk d (some (pre ++ some c0 :: t))) =
        mk d (some (pre ++ some (updateAt visit q c0) :: t)) := by
      simp only [updateAt, hget, setHandle, set_append_length]
    simp only [List.map_cons, List.foldl_cons, hstep]
    exact ih (updateAt visit q c0)

theorem foldl_postorderChildren [Inhabited α] [DecidableEq α] (d : List α) :
    ∀ (t pre : List (Option (ChunkedNdtreeNode α dim chunk_height))),
      (∀ c, some c ∈ t → pruneByPostorder c = pruneSubtree c) →
      (postorderChildren pre.length t).foldl (fun r path => updateAt pruneNode path r)
          (mk d (some (pre ++ t))) =
        mk d (some (pre ++ pruneChildren t)) := by
  intro t
  induction t with
  | nil =>
    intro pre _
    simp [postorderChildren, pruneChildren]
  | cons a t ih =>
    intro pre hrec
    cases a with
    | none =>
      have h := ih (pre ++ [none]) (fun c hc => hrec c (List.mem_cons_of_mem _ hc))
      simp only [List.length_append, List.length_singleton, List.append_assoc,
        List.singleton_append] at h
      simp only [postorderChildren, pruneChildren]
      exact h
    | some c =>
      have h := ih (pre ++ [some (pruneSubtree c)])
        (fun c1 hc => hrec c1 (List.mem_cons_of_mem _ hc))
      simp only [List.length_append, List.length_singleton, List.append_assoc,
        List.singleton_append] at h
      have hc := hrec c (List.mem_cons_self _ _)
      unfold pruneByPostorder at hc
      simp only [postorderChildren, pruneChildren, List.foldl_append,
        foldl_updateAt_child pruneNode d pre t (postorder c) c, hc]
      exact h

/-- Running the loop body of `prune` on the chunks in postorder gives the recursive pruning of
the subtree. -/
theorem pruneByPostorder_eq_pruneSubtree [Inhabited α] [DecidableEq α] :
    ∀ c : ChunkedNdtreeNode α dim chunk_height, pruneByPostorder c = pruneSubtree c := by
  apply induct
  · intro d
    simp [pruneByPostorder, postorder, updateAt, pruneSubtree]
  · intro d cs ih
    have h := foldl_postorderChildren d cs [] ih
    simp only [List.length_nil, List.nil_append] at h
    unfold pruneByPostorder
    simp only [postorder, List.foldl_append, h, List.foldl_cons, List.foldl_nil, updateAt,
      pruneSubtree]

end ChunkedNdtreeNode

/-- The method `prune()` runs its loop body on every chunk in postorder. -/
theorem prune_eq_pruneByPostorder {α : Type} [Inhabited α] [DecidableEq α]
    {dim chunk_height : Nat} (tree : ChunkedNdtree α dim chunk_height) :
    tree.prune = { tree with root_node_ := tree.root_node_.pruneByPostorder } := by
  rw [ChunkedNdtreeNode.pruneByPostorder_eq_pruneSubtree]
  rfl

end wavemap
